import Mathlib

/-!
Verification of the dlx package (Dancing Links / Algorithm X).

The Go pointer mesh is shallowly embedded as an arena of elements addressed
by natural-number indices.  Index `0` plays the role of the `nil` pointer
(Go's zero value of a pointer field is modelled by the index `0`), and index
`1` is the address of the master sentinel `m.h` that is embedded in the
`Matrix` struct.  Every `*Element` value in the Go source becomes an index
into the arena; dereferencing index `0` (which would panic in Go) yields the
inert `junkE` element.  The `uint64` column sizes are modelled as `Nat`
with explicit wrap-around modulo `2^64` where the source increments or
decrements them.  All loops of the source are modelled with explicit fuel;
the operations instantiate the fuel with `elems.size + 1`, which is enough
for every well-formed matrix, and the theorems hold for the fueled
definitions as stated.
-/

namespace Dlx

/-- `2^64`, the modulus of Go's `uint64` arithmetic. -/
def M64 : Nat := 18446744073709551616

/-- The `Value interface{}` payload of an element: `nil` for the master
sentinel, `Head{name, size}` for column headers, `true` for row items. -/
inductive Val where
  | vnil : Val
  | vhead (name : String) (size : Nat) : Val
  | vitem : Val
deriving DecidableEq

/-- An element of the matrix: the five structural pointers of the Go
`Element` struct, the `matrix` back pointer (modelled as a `Bool` since
there is a single matrix in play: `true` means the field is non-nil), and
the payload. -/
structure Elem where
  up : Nat
  down : Nat
  left : Nat
  right : Nat
  column : Nat
  mat : Bool
  val : Val
deriving DecidableEq

/-- The element a dereference of the nil index `0` yields (Go would panic);
it is also the zero value of the embedded `m.h` element. -/
def junkE : Elem := ⟨0, 0, 0, 0, 0, false, Val.vnil⟩

/-- The matrix: the arena of elements (index 1 is the embedded `m.h`),
the partial-solution stack `o`, and the accumulated `solutions`. -/
structure Matrix where
  elems : Array Elem
  o : List Nat
  solutions : List (List String)
deriving DecidableEq

/-- Read the element at index `i` of the arena. -/
def Matrix.get (s : Matrix) (i : Nat) : Elem := s.elems.getD i junkE

/-- Write the element at index `i` of the arena (no-op out of bounds). -/
def Matrix.set (s : Matrix) (i : Nat) (e : Elem) : Matrix :=
  { s with elems := s.elems.setD i e }

def Matrix.updUp (s : Matrix) (i v : Nat) : Matrix := s.set i { s.get i with up := v }
def Matrix.updDown (s : Matrix) (i v : Nat) : Matrix := s.set i { s.get i with down := v }
def Matrix.updLeft (s : Matrix) (i v : Nat) : Matrix := s.set i { s.get i with left := v }
def Matrix.updRight (s : Matrix) (i v : Nat) : Matrix := s.set i { s.get i with right := v }

/-- `ch.Value.(Head).size + 1` with uint64 wrap, written back (Go would
panic if the value is not a `Head`; the model leaves it unchanged). -/
def Matrix.incSize (s : Matrix) (i : Nat) : Matrix :=
  match (s.get i).val with
  | Val.vhead n sz => s.set i { s.get i with val := Val.vhead n ((sz + 1) % M64) }
  | _ => s

/-- `ch.Value.(Head).size - 1` with uint64 wrap, written back. -/
def Matrix.decSize (s : Matrix) (i : Nat) : Matrix :=
  match (s.get i).val with
  | Val.vhead n sz => s.set i { s.get i with val := Val.vhead n ((sz + (M64 - 1)) % M64) }
  | _ => s

/-- The zero value of `Matrix`: all pointer fields of `m.h` are nil. -/
def zeroMatrix : Matrix := ⟨#[junkE, junkE], [], []⟩

/-- `func (m *Matrix) Init() *Matrix`. -/
def Matrix.Init (s : Matrix) : Matrix :=
  let s := s.set 1 { s.get 1 with up := 1, down := 1, left := 1, right := 1, column := 1 }
  { s with o := [], solutions := [] }

/-- `func New() *Matrix`. -/
def New : Matrix := zeroMatrix.Init

/-- `func (m *Matrix) lazyInit()`. -/
def Matrix.lazyInit (s : Matrix) : Matrix :=
  if (s.get 1).right = 0 then s.Init else s

/-- `func (m *Matrix) Head() *Element`. -/
def Matrix.HeadE (s : Matrix) : Nat :=
  if (s.get 1).right = 1 then 0 else (s.get 1).right

/-- `func (e *Element) Up() *Element`: nil unless the element's matrix
pointer is set and the neighbor is not the master sentinel. -/
def Matrix.UpE (s : Matrix) (e : Nat) : Nat :=
  if (s.get e).mat = true ∧ (s.get e).up ≠ 1 then (s.get e).up else 0

/-- `func (e *Element) Down() *Element`. -/
def Matrix.DownE (s : Matrix) (e : Nat) : Nat :=
  if (s.get e).mat = true ∧ (s.get e).down ≠ 1 then (s.get e).down else 0

/-- `func (e *Element) Left() *Element`. -/
def Matrix.LeftE (s : Matrix) (e : Nat) : Nat :=
  if (s.get e).mat = true ∧ (s.get e).left ≠ 1 then (s.get e).left else 0

/-- `func (e *Element) Right() *Element`. -/
def Matrix.RightE (s : Matrix) (e : Nat) : Nat :=
  if (s.get e).mat = true ∧ (s.get e).right ≠ 1 then (s.get e).right else 0

/-- `func (m *Matrix) insertHead(e, at *Element) *Element`: allocates the
fresh element and performs the pointer surgery in source statement order. -/
def Matrix.insertHead (s : Matrix) (v : Val) (at_ : Nat) : Matrix × Nat :=
  let eI := s.elems.size
  let s := { s with elems := s.elems.push junkE }
  let n := (s.get at_).right
  let s := s.updRight at_ eI
  let s := s.set eI { s.get eI with left := at_, right := n }
  let s := s.updLeft n eI
  let s := s.set eI { s.get eI with up := eI, down := eI, mat := true, column := eI, val := v }
  (s, eI)

/-- `func (m *Matrix) PushHead(name string) *Element`. -/
def Matrix.PushHead (s : Matrix) (name : String) : Matrix × Nat :=
  let s := s.lazyInit
  s.insertHead (Val.vhead name 0) ((s.get 1).left)

/-- `func (m *Matrix) insertItem(e, atR *Element, atC *Element) *Element`;
`atR = 0` is the nil row argument. -/
def Matrix.insertItem (s : Matrix) (atR atC : Nat) : Matrix × Nat :=
  let eI := s.elems.size
  let s := { s with elems := s.elems.push junkE }
  let s :=
    if atR = 0 then
      s.set eI { s.get eI with left := eI, right := eI }
    else
      let n := (s.get atR).right
      let s := s.updRight atR eI
      let s := s.set eI { s.get eI with left := atR, right := n }
      s.updLeft n eI
  let ch := (s.get atC).down
  let s := s.updDown atC eI
  let s := s.set eI { s.get eI with up := atC, down := ch }
  let s := s.updUp ch eI
  let s := s.set eI { s.get eI with mat := true, column := ch, val := Val.vitem }
  let s := s.incSize ch
  (s, eI)

/-- `func (m *Matrix) PushItem(row, colHead *Element) *Element`. -/
def Matrix.PushItem (s : Matrix) (row colHead : Nat) : Matrix × Nat :=
  s.insertItem row ((s.get colHead).up)

/-- The scan loop of `getColumn`: `for ce := m.Head(); ce != nil; ce = ce.Right()`. -/
def getColLoop (s : Matrix) : Nat → Nat → Nat → Nat → Nat
  | 0, _, c, _ => c
  | fuel + 1, ce, c, sz =>
    if ce = 0 then c
    else
      let ces := match (s.get ce).val with
        | Val.vhead _ n => n
        | _ => 0
      if ces < sz then getColLoop s fuel (s.RightE ce) ce ces
      else getColLoop s fuel (s.RightE ce) c sz

/-- `func (m *Matrix) getColumn() *Element`: `s` starts at `2^64 - 1` and
`c` starts at nil. -/
def Matrix.getColumn (s : Matrix) : Nat :=
  getColLoop s (s.elems.size + 1) s.HeadE 0 (M64 - 1)

/-- The loop body of `cover`'s inner loop, in source statement order:
`j.down.up = j.up; j.up.down = j.down;` followed by the size decrement of
`j.column`. -/
def unlinkV (s : Matrix) (j : Nat) : Matrix :=
  let s := s.updUp ((s.get j).down) ((s.get j).up)
  let s := s.updDown ((s.get j).up) ((s.get j).down)
  s.decSize ((s.get j).column)

/-- The loop body of `uncover`'s inner loop, in source statement order:
the size increment of `j.column`, then `j.down.up = j; j.up.down = j`. -/
def relinkV (s : Matrix) (j : Nat) : Matrix :=
  let s := s.incSize ((s.get j).column)
  let s := s.updUp ((s.get j).down) j
  s.updDown ((s.get j).up) j

/-- The inner loop of `cover`:
`for j := i.Right(); j != i; j = j.Right()`. -/
def coverRow : Matrix → Nat → Nat → Nat → Matrix
  | s, 0, _, _ => s
  | s, fuel + 1, i, j =>
    if j = i then s
    else
      let s := unlinkV s j
      coverRow s fuel i (s.RightE j)

/-- The outer loop of `cover`: `for i := c.Down(); i != c; i = i.Down()`. -/
def coverCols : Matrix → Nat → Nat → Nat → Matrix
  | s, 0, _, _ => s
  | s, fuel + 1, c, i =>
    if i = c then s
    else
      let s := coverRow s (s.elems.size + 1) i (s.RightE i)
      coverCols s fuel c (s.DownE i)

/-- The first two statements of `cover`:
`c.right.left = c.left; c.left.right = c.right`. -/
def hdrUnlink (s : Matrix) (c : Nat) : Matrix :=
  let s := s.updLeft ((s.get c).right) ((s.get c).left)
  s.updRight ((s.get c).left) ((s.get c).right)

/-- The last two statements of `uncover`:
`c.right.left = c; c.left.right = c`. -/
def hdrRelink (s : Matrix) (c : Nat) : Matrix :=
  let s := s.updLeft ((s.get c).right) c
  s.updRight ((s.get c).left) c

/-- `func (m *Matrix) cover(c *Element)`. -/
def Matrix.cover (s : Matrix) (c : Nat) : Matrix :=
  let s := hdrUnlink s c
  coverCols s (s.elems.size + 1) c (s.DownE c)

/-- The inner loop of `uncover`:
`for j := i.Left(); j != i; j = j.Left()`. -/
def uncoverRow : Matrix → Nat → Nat → Nat → Matrix
  | s, 0, _, _ => s
  | s, fuel + 1, i, j =>
    if j = i then s
    else
      let s := relinkV s j
      uncoverRow s fuel i (s.LeftE j)

/-- The outer loop of `uncover`: `for i := c.Up(); i != c; i = i.Up()`. -/
def uncoverCols : Matrix → Nat → Nat → Nat → Matrix
  | s, 0, _, _ => s
  | s, fuel + 1, c, i =>
    if i = c then s
    else
      let s := uncoverRow s (s.elems.size + 1) i (s.LeftE i)
      uncoverCols s fuel c (s.UpE i)

/-- `func (m *Matrix) uncover(c *Element)`. -/
def Matrix.uncover (s : Matrix) (c : Nat) : Matrix :=
  let s := uncoverCols s (s.elems.size + 1) c (s.UpE c)
  hdrRelink s c

/-- The name of the column header of element `e`
(`e.column.Value.(Head).name`; Go would panic if it is not a `Head`). -/
def Matrix.colName (s : Matrix) (e : Nat) : String :=
  match (s.get ((s.get e).column)).val with
  | Val.vhead n _ => n
  | _ => ""

/-- The string-building loop of the solution recorder:
`for e := m.o[i].Right(); e != m.o[i]; e = e.Right()`. -/
def rowStrLoop (s : Matrix) : Nat → Nat → Nat → String → String
  | 0, _, _, acc => acc
  | fuel + 1, oi, e, acc =>
    if e = oi then acc
    else rowStrLoop s fuel oi (s.RightE e) (acc ++ " " ++ s.colName e)

/-- The string recorded for one chosen row element:
its own column's name followed by the row-ring names. -/
def Matrix.rowString (s : Matrix) (oi : Nat) : String :=
  rowStrLoop s (s.elems.size + 1) oi (s.RightE oi) (s.colName oi)

/-- The inner covering loop of the search branch:
`for j := r.Right(); j != r; j = j.Right() \x7b m.cover(j.column) \x7d`. -/
def coverJs : Matrix → Nat → Nat → Nat → Matrix
  | s, 0, _, _ => s
  | s, fuel + 1, r, j =>
    if j = r then s
    else
      let s := s.cover ((s.get j).column)
      coverJs s fuel r (s.RightE j)

/-- The backtracking loop of the search branch:
`for j := r.Left(); j != r; j = j.Left() \x7b m.uncover(j.column) \x7d`. -/
def uncoverJs : Matrix → Nat → Nat → Nat → Matrix
  | s, 0, _, _ => s
  | s, fuel + 1, r, j =>
    if j = r then s
    else
      let s := s.uncover ((s.get j).column)
      uncoverJs s fuel r (s.LeftE j)

/-- The row loop of `search`: `for r := c.Down(); r != c; r = r.Down()`
followed by the final `m.uncover(c)`.  `rec` is the recursive call to the
next level; `c` is reassigned inside the body (`c = r.column`) exactly as
in the source. -/
def searchRows (rec : Matrix → Nat → Matrix) : Matrix → Nat → Nat → Nat → Nat → Matrix
  | s, 0, _, c, _ => s.uncover c
  | s, fuel + 1, k, c, r =>
    if r = c then s.uncover c
    else
      let s := { s with o := s.o ++ [r] }
      let s := coverJs s (s.elems.size + 1) r (s.RightE r)
      let s := rec s (k + 1)
      let r2 := s.o.getD k 0
      let s := { s with o := s.o.take k }
      let c2 := (s.get r2).column
      let s := uncoverJs s (s.elems.size + 1) r2 (s.LeftE r2)
      searchRows rec s fuel k c2 (s.DownE r2)

/-- `func (m *Matrix) search(k int)`, with explicit recursion fuel. -/
def search : Nat → Matrix → Nat → Matrix
  | 0, s, _ => s
  | fuel + 1, s, k =>
    if s.HeadE = 0 then
      { s with solutions := s.solutions ++ [s.o.map s.rowString] }
    else
      let c := s.getColumn
      let s1 := s.cover c
      searchRows (fun t k' => search fuel t k') s1 (s1.elems.size + 1) k c (s1.DownE c)

/-- `func (m *Matrix) Solve() [][]string`: returns the accumulated
solutions together with the mutated matrix. -/
def Matrix.Solve (s : Matrix) (fuel : Nat) : List (List String) × Matrix :=
  let s := search fuel s 0
  (s.solutions, s)

/-! ### Basic arena lemmas -/

theorem Matrix.ext_get (s t : Matrix) (hsz : s.elems.size = t.elems.size)
    (h : ∀ x, s.get x = t.get x) (ho : s.o = t.o)
    (hsol : s.solutions = t.solutions) : s = t := by
  obtain ⟨es, os, ss⟩ := s
  obtain ⟨et, ot, st⟩ := t
  simp only [mk.injEq]
  refine ⟨?_, ho, hsol⟩
  apply Array.ext _ _ hsz
  intro i h1 h2
  have := h i
  simp only [Matrix.get, Array.getD] at this
  simpa [h1, h2] using this

@[simp] theorem size_set (s : Matrix) (i : Nat) (e : Elem) :
    (s.set i e).elems.size = s.elems.size := by
  simp [Matrix.set, Array.size_setD]

@[simp] theorem o_set (s : Matrix) (i : Nat) (e : Elem) : (s.set i e).o = s.o := rfl

@[simp] theorem solutions_set (s : Matrix) (i : Nat) (e : Elem) :
    (s.set i e).solutions = s.solutions := rfl

theorem get_set (s : Matrix) (i x : Nat) (e : Elem) :
    (s.set i e).get x = if x = i ∧ i < s.elems.size then e else s.get x := by
  simp only [Matrix.set, Matrix.get, Array.setD]
  split
  · rename_i hb
    by_cases hx : x = i
    · subst hx
      simp [Array.getD, hb, Array.get_set_eq]
    · simp only [Array.getD]
      split
      · rename_i h2
        rw [Array.get_eq_getElem, Array.get_set _ _ _ (by simpa using h2)]
        simp only [Array.size_set] at h2
        simp [Ne.symm hx, hx, h2]
      · rename_i h2
        simp only [Array.size_set] at h2
        simp [hx, Array.getD, h2]
  · rename_i hb
    simp only [not_lt] at hb
    have : ¬ (x = i ∧ i < s.elems.size) := by
      rintro ⟨rfl, h⟩; omega
    simp [this]

/-- The value transformation of `incSize`. -/
def incVal : Val → Val
  | Val.vhead n sz => Val.vhead n ((sz + 1) % M64)
  | v => v

/-- The value transformation of `decSize`. -/
def decVal : Val → Val
  | Val.vhead n sz => Val.vhead n ((sz + (M64 - 1)) % M64)
  | v => v

theorem set_self (s : Matrix) (i : Nat) : s.set i (s.get i) = s := by
  apply Matrix.ext_get
  · simp
  · intro x
    rw [get_set]
    split
    · rename_i h; rw [h.1]
    · rfl
  · rfl
  · rfl

theorem incSize_eq (s : Matrix) (i : Nat) :
    s.incSize i = s.set i { s.get i with val := incVal (s.get i).val } := by
  rw [Matrix.incSize]
  split
  · rename_i n sz h
    rw [h]; rfl
  · rename_i h
    have hval : incVal (s.get i).val = (s.get i).val := by
      cases hv : (s.get i).val
      · rfl
      · exact ((h _ _ hv)).elim
      · rfl
    rw [hval, set_self]

theorem decSize_eq (s : Matrix) (i : Nat) :
    s.decSize i = s.set i { s.get i with val := decVal (s.get i).val } := by
  rw [Matrix.decSize]
  split
  · rename_i n sz h
    rw [h]; rfl
  · rename_i h
    have hval : decVal (s.get i).val = (s.get i).val := by
      cases hv : (s.get i).val
      · rfl
      · exact ((h _ _ hv)).elim
      · rfl
    rw [hval, set_self]

theorem get_updUp (s : Matrix) (i v x : Nat) :
    (s.updUp i v).get x =
      if x = i ∧ i < s.elems.size then { s.get x with up := v } else s.get x := by
  rw [Matrix.updUp, get_set]
  split
  · rename_i h; rw [h.1]
  · rfl

theorem get_updDown (s : Matrix) (i v x : Nat) :
    (s.updDown i v).get x =
      if x = i ∧ i < s.elems.size then { s.get x with down := v } else s.get x := by
  rw [Matrix.updDown, get_set]
  split
  · rename_i h; rw [h.1]
  · rfl

theorem get_updLeft (s : Matrix) (i v x : Nat) :
    (s.updLeft i v).get x =
      if x = i ∧ i < s.elems.size then { s.get x with left := v } else s.get x := by
  rw [Matrix.updLeft, get_set]
  split
  · rename_i h; rw [h.1]
  · rfl

theorem get_updRight (s : Matrix) (i v x : Nat) :
    (s.updRight i v).get x =
      if x = i ∧ i < s.elems.size then { s.get x with right := v } else s.get x := by
  rw [Matrix.updRight, get_set]
  split
  · rename_i h; rw [h.1]
  · rfl

theorem get_incSize (s : Matrix) (i x : Nat) :
    (s.incSize i).get x =
      if x = i ∧ i < s.elems.size then { s.get x with val := incVal (s.get x).val }
      else s.get x := by
  rw [incSize_eq, get_set]
  split
  · rename_i h; rw [h.1]
  · rfl

theorem get_decSize (s : Matrix) (i x : Nat) :
    (s.decSize i).get x =
      if x = i ∧ i < s.elems.size then { s.get x with val := decVal (s.get x).val }
      else s.get x := by
  rw [decSize_eq, get_set]
  split
  · rename_i h; rw [h.1]
  · rfl

@[simp] theorem size_updUp (s : Matrix) (i v : Nat) :
    (s.updUp i v).elems.size = s.elems.size := size_set ..
@[simp] theorem size_updDown (s : Matrix) (i v : Nat) :
    (s.updDown i v).elems.size = s.elems.size := size_set ..
@[simp] theorem size_updLeft (s : Matrix) (i v : Nat) :
    (s.updLeft i v).elems.size = s.elems.size := size_set ..
@[simp] theorem size_updRight (s : Matrix) (i v : Nat) :
    (s.updRight i v).elems.size = s.elems.size := size_set ..
@[simp] theorem size_incSize (s : Matrix) (i : Nat) :
    (s.incSize i).elems.size = s.elems.size := by rw [incSize_eq]; exact size_set ..
@[simp] theorem size_decSize (s : Matrix) (i : Nat) :
    (s.decSize i).elems.size = s.elems.size := by rw [decSize_eq]; exact size_set ..

@[simp] theorem o_updUp (s : Matrix) (i v : Nat) : (s.updUp i v).o = s.o := rfl
@[simp] theorem o_updDown (s : Matrix) (i v : Nat) : (s.updDown i v).o = s.o := rfl
@[simp] theorem o_updLeft (s : Matrix) (i v : Nat) : (s.updLeft i v).o = s.o := rfl
@[simp] theorem o_updRight (s : Matrix) (i v : Nat) : (s.updRight i v).o = s.o := rfl
@[simp] theorem o_incSize (s : Matrix) (i : Nat) : (s.incSize i).o = s.o := by
  rw [incSize_eq]; rfl
@[simp] theorem o_decSize (s : Matrix) (i : Nat) : (s.decSize i).o = s.o := by
  rw [decSize_eq]; rfl

@[simp] theorem sol_updUp (s : Matrix) (i v : Nat) : (s.updUp i v).solutions = s.solutions := rfl
@[simp] theorem sol_updDown (s : Matrix) (i v : Nat) : (s.updDown i v).solutions = s.solutions := rfl
@[simp] theorem sol_updLeft (s : Matrix) (i v : Nat) : (s.updLeft i v).solutions = s.solutions := rfl
@[simp] theorem sol_updRight (s : Matrix) (i v : Nat) : (s.updRight i v).solutions = s.solutions := rfl
@[simp] theorem sol_incSize (s : Matrix) (i : Nat) : (s.incSize i).solutions = s.solutions := by
  rw [incSize_eq]; rfl
@[simp] theorem sol_decSize (s : Matrix) (i : Nat) : (s.decSize i).solutions = s.solutions := by
  rw [decSize_eq]; rfl

@[simp] theorem size_unlinkV (s : Matrix) (j : Nat) :
    (unlinkV s j).elems.size = s.elems.size := by simp [unlinkV]
@[simp] theorem size_relinkV (s : Matrix) (j : Nat) :
    (relinkV s j).elems.size = s.elems.size := by simp [relinkV]
@[simp] theorem size_hdrUnlink (s : Matrix) (c : Nat) :
    (hdrUnlink s c).elems.size = s.elems.size := by simp [hdrUnlink]
@[simp] theorem size_hdrRelink (s : Matrix) (c : Nat) :
    (hdrRelink s c).elems.size = s.elems.size := by simp [hdrRelink]

@[simp] theorem o_unlinkV (s : Matrix) (j : Nat) : (unlinkV s j).o = s.o := by simp [unlinkV]
@[simp] theorem o_relinkV (s : Matrix) (j : Nat) : (relinkV s j).o = s.o := by simp [relinkV]
@[simp] theorem o_hdrUnlink (s : Matrix) (c : Nat) : (hdrUnlink s c).o = s.o := by
  simp [hdrUnlink]
@[simp] theorem o_hdrRelink (s : Matrix) (c : Nat) : (hdrRelink s c).o = s.o := by
  simp [hdrRelink]

@[simp] theorem sol_unlinkV (s : Matrix) (j : Nat) :
    (unlinkV s j).solutions = s.solutions := by simp [unlinkV]
@[simp] theorem sol_relinkV (s : Matrix) (j : Nat) :
    (relinkV s j).solutions = s.solutions := by simp [relinkV]
@[simp] theorem sol_hdrUnlink (s : Matrix) (c : Nat) :
    (hdrUnlink s c).solutions = s.solutions := by simp [hdrUnlink]
@[simp] theorem sol_hdrRelink (s : Matrix) (c : Nat) :
    (hdrRelink s c).solutions = s.solutions := by simp [hdrRelink]

/-! Per-field frame lemmas: each pointer/value updater leaves every other
field of every element unchanged. -/

theorem updUp_down (s : Matrix) (i v x : Nat) :
    ((s.updUp i v).get x).down = (s.get x).down := by rw [get_updUp]; split <;> rfl
theorem updUp_left (s : Matrix) (i v x : Nat) :
    ((s.updUp i v).get x).left = (s.get x).left := by rw [get_updUp]; split <;> rfl
theorem updUp_right (s : Matrix) (i v x : Nat) :
    ((s.updUp i v).get x).right = (s.get x).right := by rw [get_updUp]; split <;> rfl
theorem updUp_mat (s : Matrix) (i v x : Nat) :
    ((s.updUp i v).get x).mat = (s.get x).mat := by rw [get_updUp]; split <;> rfl
theorem updUp_column (s : Matrix) (i v x : Nat) :
    ((s.updUp i v).get x).column = (s.get x).column := by rw [get_updUp]; split <;> rfl
theorem updUp_val (s : Matrix) (i v x : Nat) :
    ((s.updUp i v).get x).val = (s.get x).val := by rw [get_updUp]; split <;> rfl

theorem updDown_up (s : Matrix) (i v x : Nat) :
    ((s.updDown i v).get x).up = (s.get x).up := by rw [get_updDown]; split <;> rfl
theorem updDown_left (s : Matrix) (i v x : Nat) :
    ((s.updDown i v).get x).left = (s.get x).left := by rw [get_updDown]; split <;> rfl
theorem updDown_right (s : Matrix) (i v x : Nat) :
    ((s.updDown i v).get x).right = (s.get x).right := by rw [get_updDown]; split <;> rfl
theorem updDown_mat (s : Matrix) (i v x : Nat) :
    ((s.updDown i v).get x).mat = (s.get x).mat := by rw [get_updDown]; split <;> rfl
theorem updDown_column (s : Matrix) (i v x : Nat) :
    ((s.updDown i v).get x).column = (s.get x).column := by rw [get_updDown]; split <;> rfl
theorem updDown_val (s : Matrix) (i v x : Nat) :
    ((s.updDown i v).get x).val = (s.get x).val := by rw [get_updDown]; split <;> rfl

theorem updLeft_up (s : Matrix) (i v x : Nat) :
    ((s.updLeft i v).get x).up = (s.get x).up := by rw [get_updLeft]; split <;> rfl
theorem updLeft_down (s : Matrix) (i v x : Nat) :
    ((s.updLeft i v).get x).down = (s.get x).down := by rw [get_updLeft]; split <;> rfl
theorem updLeft_right (s : Matrix) (i v x : Nat) :
    ((s.updLeft i v).get x).right = (s.get x).right := by rw [get_updLeft]; split <;> rfl
theorem updLeft_mat (s : Matrix) (i v x : Nat) :
    ((s.updLeft i v).get x).mat = (s.get x).mat := by rw [get_updLeft]; split <;> rfl
theorem updLeft_column (s : Matrix) (i v x : Nat) :
    ((s.updLeft i v).get x).column = (s.get x).column := by rw [get_updLeft]; split <;> rfl
theorem updLeft_val (s : Matrix) (i v x : Nat) :
    ((s.updLeft i v).get x).val = (s.get x).val := by rw [get_updLeft]; split <;> rfl

theorem updRight_up (s : Matrix) (i v x : Nat) :
    ((s.updRight i v).get x).up = (s.get x).up := by rw [get_updRight]; split <;> rfl
theorem updRight_down (s : Matrix) (i v x : Nat) :
    ((s.updRight i v).get x).down = (s.get x).down := by rw [get_updRight]; split <;> rfl
theorem updRight_left (s : Matrix) (i v x : Nat) :
    ((s.updRight i v).get x).left = (s.get x).left := by rw [get_updRight]; split <;> rfl
theorem updRight_mat (s : Matrix) (i v x : Nat) :
    ((s.updRight i v).get x).mat = (s.get x).mat := by rw [get_updRight]; split <;> rfl
theorem updRight_column (s : Matrix) (i v x : Nat) :
    ((s.updRight i v).get x).column = (s.get x).column := by rw [get_updRight]; split <;> rfl
theorem updRight_val (s : Matrix) (i v x : Nat) :
    ((s.updRight i v).get x).val = (s.get x).val := by rw [get_updRight]; split <;> rfl

theorem incSize_up (s : Matrix) (i x : Nat) :
    ((s.incSize i).get x).up = (s.get x).up := by rw [get_incSize]; split <;> rfl
theorem incSize_down (s : Matrix) (i x : Nat) :
    ((s.incSize i).get x).down = (s.get x).down := by rw [get_incSize]; split <;> rfl
theorem incSize_left (s : Matrix) (i x : Nat) :
    ((s.incSize i).get x).left = (s.get x).left := by rw [get_incSize]; split <;> rfl
theorem incSize_right (s : Matrix) (i x : Nat) :
    ((s.incSize i).get x).right = (s.get x).right := by rw [get_incSize]; split <;> rfl
theorem incSize_mat (s : Matrix) (i x : Nat) :
    ((s.incSize i).get x).mat = (s.get x).mat := by rw [get_incSize]; split <;> rfl
theorem incSize_column (s : Matrix) (i x : Nat) :
    ((s.incSize i).get x).column = (s.get x).column := by rw [get_incSize]; split <;> rfl

theorem decSize_up (s : Matrix) (i x : Nat) :
    ((s.decSize i).get x).up = (s.get x).up := by rw [get_decSize]; split <;> rfl
theorem decSize_down (s : Matrix) (i x : Nat) :
    ((s.decSize i).get x).down = (s.get x).down := by rw [get_decSize]; split <;> rfl
theorem decSize_left (s : Matrix) (i x : Nat) :
    ((s.decSize i).get x).left = (s.get x).left := by rw [get_decSize]; split <;> rfl
theorem decSize_right (s : Matrix) (i x : Nat) :
    ((s.decSize i).get x).right = (s.get x).right := by rw [get_decSize]; split <;> rfl
theorem decSize_mat (s : Matrix) (i x : Nat) :
    ((s.decSize i).get x).mat = (s.get x).mat := by rw [get_decSize]; split <;> rfl
theorem decSize_column (s : Matrix) (i x : Nat) :
    ((s.decSize i).get x).column = (s.get x).column := by rw [get_decSize]; split <;> rfl

/-- `unlinkV` leaves `left` unchanged everywhere. -/
theorem unlinkV_left (s : Matrix) (j x : Nat) :
    ((unlinkV s j).get x).left = (s.get x).left := by
  simp only [unlinkV]
  rw [decSize_left, updDown_left, updUp_left]

/-- `unlinkV` leaves `right` unchanged everywhere. -/
theorem unlinkV_right (s : Matrix) (j x : Nat) :
    ((unlinkV s j).get x).right = (s.get x).right := by
  simp only [unlinkV]
  rw [decSize_right, updDown_right, updUp_right]

/-- `unlinkV` leaves `mat` unchanged everywhere. -/
theorem unlinkV_mat (s : Matrix) (j x : Nat) :
    ((unlinkV s j).get x).mat = (s.get x).mat := by
  simp only [unlinkV]
  rw [decSize_mat, updDown_mat, updUp_mat]

/-- `unlinkV` leaves `column` unchanged everywhere. -/
theorem unlinkV_column (s : Matrix) (j x : Nat) :
    ((unlinkV s j).get x).column = (s.get x).column := by
  simp only [unlinkV]
  rw [decSize_column, updDown_column, updUp_column]

/-- `relinkV` leaves `left` unchanged everywhere. -/
theorem relinkV_left (s : Matrix) (j x : Nat) :
    ((relinkV s j).get x).left = (s.get x).left := by
  simp only [relinkV]
  rw [updDown_left, updUp_left, incSize_left]

/-- `relinkV` leaves `right` unchanged everywhere. -/
theorem relinkV_right (s : Matrix) (j x : Nat) :
    ((relinkV s j).get x).right = (s.get x).right := by
  simp only [relinkV]
  rw [updDown_right, updUp_right, incSize_right]

/-- `relinkV` leaves `mat` unchanged everywhere. -/
theorem relinkV_mat (s : Matrix) (j x : Nat) :
    ((relinkV s j).get x).mat = (s.get x).mat := by
  simp only [relinkV]
  rw [updDown_mat, updUp_mat, incSize_mat]

/-- `relinkV` leaves `column` unchanged everywhere. -/
theorem relinkV_column (s : Matrix) (j x : Nat) :
    ((relinkV s j).get x).column = (s.get x).column := by
  simp only [relinkV]
  rw [updDown_column, updUp_column, incSize_column]

/-- `hdrUnlink` leaves `up` unchanged everywhere. -/
theorem hdrUnlink_up (s : Matrix) (c x : Nat) :
    ((hdrUnlink s c).get x).up = (s.get x).up := by
  simp only [hdrUnlink]
  rw [updRight_up, updLeft_up]

/-- `hdrUnlink` leaves `down` unchanged everywhere. -/
theorem hdrUnlink_down (s : Matrix) (c x : Nat) :
    ((hdrUnlink s c).get x).down = (s.get x).down := by
  simp only [hdrUnlink]
  rw [updRight_down, updLeft_down]

/-- `hdrUnlink` leaves `mat` unchanged everywhere. -/
theorem hdrUnlink_mat (s : Matrix) (c x : Nat) :
    ((hdrUnlink s c).get x).mat = (s.get x).mat := by
  simp only [hdrUnlink]
  rw [updRight_mat, updLeft_mat]

/-- `hdrUnlink` leaves `column` unchanged everywhere. -/
theorem hdrUnlink_column (s : Matrix) (c x : Nat) :
    ((hdrUnlink s c).get x).column = (s.get x).column := by
  simp only [hdrUnlink]
  rw [updRight_column, updLeft_column]

/-- `hdrUnlink` leaves `val` unchanged everywhere. -/
theorem hdrUnlink_val (s : Matrix) (c x : Nat) :
    ((hdrUnlink s c).get x).val = (s.get x).val := by
  simp only [hdrUnlink]
  rw [updRight_val, updLeft_val]

/-- `hdrRelink` leaves `up` unchanged everywhere. -/
theorem hdrRelink_up (s : Matrix) (c x : Nat) :
    ((hdrRelink s c).get x).up = (s.get x).up := by
  simp only [hdrRelink]
  rw [updRight_up, updLeft_up]

/-- `hdrRelink` leaves `down` unchanged everywhere. -/
theorem hdrRelink_down (s : Matrix) (c x : Nat) :
    ((hdrRelink s c).get x).down = (s.get x).down := by
  simp only [hdrRelink]
  rw [updRight_down, updLeft_down]

/-- `hdrRelink` leaves `mat` unchanged everywhere. -/
theorem hdrRelink_mat (s : Matrix) (c x : Nat) :
    ((hdrRelink s c).get x).mat = (s.get x).mat := by
  simp only [hdrRelink]
  rw [updRight_mat, updLeft_mat]

/-- `hdrRelink` leaves `column` unchanged everywhere. -/
theorem hdrRelink_column (s : Matrix) (c x : Nat) :
    ((hdrRelink s c).get x).column = (s.get x).column := by
  simp only [hdrRelink]
  rw [updRight_column, updLeft_column]

/-- `hdrRelink` leaves `val` unchanged everywhere. -/
theorem hdrRelink_val (s : Matrix) (c x : Nat) :
    ((hdrRelink s c).get x).val = (s.get x).val := by
  simp only [hdrRelink]
  rw [updRight_val, updLeft_val]

/-! ### The vertical unlink/relink inverse law -/

theorem elemExt (a b : Elem) (h1 : a.up = b.up) (h2 : a.down = b.down)
    (h3 : a.left = b.left) (h4 : a.right = b.right) (h5 : a.column = b.column)
    (h6 : a.mat = b.mat) (h7 : a.val = b.val) : a = b := by
  cases a; cases b; simp_all

theorem set_set (s : Matrix) (i : Nat) (a b : Elem) :
    (s.set i a).set i b = s.set i b := by
  apply Matrix.ext_get
  · simp
  · intro x
    rw [get_set, get_set, get_set]
    simp only [size_set]
    split_ifs <;> rfl
  · rfl
  · rfl

theorem set_oob (s : Matrix) (i : Nat) (e : Elem) (h : ¬ i < s.elems.size) :
    s.set i e = s := by
  apply Matrix.ext_get
  · simp
  · intro x
    rw [get_set, if_neg]
    rintro ⟨_, hb⟩
    exact h hb
  · rfl
  · rfl

/-- Incrementing after decrementing a `uint64` size restores it, provided
the stored size is a reduced residue. -/
theorem incVal_decVal (v : Val) (h : ∀ n sz, v = Val.vhead n sz → sz < M64) :
    incVal (decVal v) = v := by
  cases v with
  | vnil => rfl
  | vitem => rfl
  | vhead n sz =>
    have hsz : sz < M64 := h n sz rfl
    show Val.vhead n (((sz + (M64 - 1)) % M64 + 1) % M64) = Val.vhead n sz
    have h1 : ((sz + (M64 - 1)) % M64 + 1) % M64 = (sz + (M64 - 1) + 1) % M64 :=
      Nat.mod_add_mod (sz + (M64 - 1)) M64 1
    have h2 : sz + (M64 - 1) + 1 = sz + M64 := by
      have : 1 ≤ M64 := by norm_num [M64]
      omega
    rw [h1, h2, Nat.add_mod_right, Nat.mod_eq_of_lt hsz]

theorem incSize_decSize (s : Matrix) (i : Nat)
    (hsz : ∀ n sz, (s.get i).val = Val.vhead n sz → sz < M64) :
    (s.decSize i).incSize i = s := by
  by_cases hb : i < s.elems.size
  · rw [decSize_eq, incSize_eq]
    rw [get_set, if_pos ⟨rfl, hb⟩]
    have hval : incVal (decVal (s.get i).val) = (s.get i).val := incVal_decVal _ hsz
    have : ({ s.get i with val := decVal (s.get i).val} : Elem) =
        { s.get i with val := decVal (s.get i).val} := rfl
    rw [set_set]
    show s.set i { s.get i with val := incVal (decVal (s.get i).val) } = s
    rw [hval, set_self]
  · rw [decSize_eq, set_oob _ _ _ hb, incSize_eq, set_oob _ _ _ hb]

/-- The central local inverse law: relinking an element immediately after
unlinking it restores the matrix exactly, provided the element was
symmetrically linked into its vertical ring and its column's stored size is
a reduced `uint64` residue. -/
theorem relink_unlink (s : Matrix) (j : Nat)
    (hd : (s.get ((s.get j).down)).up = j)
    (hu : (s.get ((s.get j).up)).down = j)
    (hsz : ∀ n sz, (s.get ((s.get j).column)).val = Val.vhead n sz → sz < M64) :
    relinkV (unlinkV s j) j = s := by
  by_cases hdj : (s.get j).down = j
  · -- degenerate self-loop: every pointer write is a no-op
    have huj : (s.get j).up = j := by rw [hdj] at hd; exact hd
    have e1 : s.updUp ((s.get j).down) ((s.get j).up) = s := by
      rw [hdj, Matrix.updUp]
      exact set_self s j
    have e1' : s.updDown ((s.get j).up) ((s.get j).down) = s := by
      rw [huj, Matrix.updDown]
      exact set_self s j
    have e2 : unlinkV s j = s.decSize ((s.get j).column) := by
      rw [unlinkV]
      simp only [e1, e1']
    rw [e2]
    rw [relinkV]
    have hco : ((s.decSize ((s.get j).column)).get j).column = (s.get j).column :=
      decSize_column ..
    simp only [hco]
    rw [incSize_decSize _ _ hsz]
    have e3 : s.updUp ((s.get j).down) j = s := by
      rw [hdj, Matrix.updUp]
      have he : ({ s.get j with up := j } : Elem) = s.get j := by
        apply elemExt <;> simp
        exact huj.symm
      rw [he]
      exact set_self s j
    simp only [e3]
    rw [huj, Matrix.updDown]
    have he : ({ s.get j with down := j } : Elem) = s.get j := by
      apply elemExt <;> simp
      exact hdj.symm
    rw [he]
    exact set_self s j
  · -- main case: the unlinked element is distinct from its neighbors
    have huj : (s.get j).up ≠ j := by
      intro h'
      rw [h'] at hu
      exact hdj hu
    -- name the snapshot reads
    set d := (s.get j).down with hdev
    set u := (s.get j).up with huev
    set co := (s.get j).column with hcov
    -- the unlink writes do not touch j itself, so relink reads the same values
    have r1 : (s.updUp d u).get j = s.get j := by
      rw [get_updUp, if_neg]
      rintro ⟨h', _⟩
      exact hdj h'.symm
    have r2 : ((s.updUp d u).updDown u d).get j = s.get j := by
      rw [get_updDown, if_neg, r1]
      rintro ⟨h', _⟩
      exact huj h'.symm
    have hstep : unlinkV s j = ((s.updUp d u).updDown u d).decSize co := by
      rw [unlinkV]
      simp only [← hdev, ← huev, ← hcov, r1, r2]
    have r3 : (((((s.updUp d u).updDown u d).decSize co).get j)).column = co := by
      rw [decSize_column, r2]
    have hmid : (((s.updUp d u).updDown u d).decSize co).incSize co =
        (s.updUp d u).updDown u d := by
      apply incSize_decSize
      intro n sz h'
      rw [updDown_val, updUp_val] at h'
      exact hsz n sz h'
    rw [relinkV]
    simp only [hstep, r3, hmid]
    -- normalize the two reads of j performed by the relink writes
    have q1 : ((s.updUp d u).updDown u d).get j = s.get j := r2
    have q2 : ((((s.updUp d u).updDown u d).updUp d j).get j) = s.get j := by
      rw [get_updUp, if_neg, q1]
      rintro ⟨h', _⟩
      exact hdj h'.symm
    rw [q1, ← hdev, q2, ← huev]
    -- now a pure four-write composition must equal s
    apply Matrix.ext_get
    · simp
    · intro x
      simp only [get_updDown, get_updUp, size_updUp, size_updDown]
      by_cases hxu : x = u ∧ u < s.elems.size <;> by_cases hxd : x = d ∧ d < s.elems.size
      · simp only [if_pos hxu, if_pos hxd]
        apply elemExt <;> simp
        · rw [← hxd.1] at hd; exact hd.symm
        · rw [← hxu.1] at hu; exact hu.symm
      · simp only [if_pos hxu, if_neg hxd]
        apply elemExt <;> simp
        rw [← hxu.1] at hu; exact hu.symm
      · simp only [if_neg hxu, if_pos hxd]
        apply elemExt <;> simp
        rw [← hxd.1] at hd; exact hd.symm
      · simp only [if_neg hxu, if_neg hxd]
    · simp
    · simp

/-! ### Sequences of unlinks and relinks, and the LIFO inverse law -/

/-- Spec-level fold of vertical unlinks over a list of elements
(the sequence of inner-loop iterations of `cover`). -/
def unlinkSeq : Matrix → List Nat → Matrix
  | s, [] => s
  | s, j :: js => unlinkSeq (unlinkV s j) js

/-- Spec-level fold of vertical relinks (the sequence of inner-loop
iterations of `uncover`). -/
def relinkSeq : Matrix → List Nat → Matrix
  | s, [] => s
  | s, j :: js => relinkSeq (relinkV s j) js

theorem unlinkSeq_append (s : Matrix) (l1 l2 : List Nat) :
    unlinkSeq s (l1 ++ l2) = unlinkSeq (unlinkSeq s l1) l2 := by
  induction l1 generalizing s with
  | nil => rfl
  | cons j l ih => exact ih (unlinkV s j)

theorem relinkSeq_append (s : Matrix) (l1 l2 : List Nat) :
    relinkSeq s (l1 ++ l2) = relinkSeq (relinkSeq s l1) l2 := by
  induction l1 generalizing s with
  | nil => rfl
  | cons j l ih => exact ih (relinkV s j)

/-- Vertical ring symmetry on a set of elements. -/
def VSymOn (s : Matrix) (L : List Nat) : Prop :=
  ∀ x ∈ L, (s.get ((s.get x).down)).up = x ∧ (s.get ((s.get x).up)).down = x

/-- Vertical closure: up/down neighbors of members are members. -/
def VClosed (s : Matrix) (L : List Nat) : Prop :=
  ∀ x ∈ L, (s.get x).down ∈ L ∧ (s.get x).up ∈ L

/-- Every member denotes a real arena slot. -/
def BoundsOn (s : Matrix) (L : List Nat) : Prop := ∀ x ∈ L, x < s.elems.size

/-- Every stored column size is a reduced `uint64` residue. -/
def ValsOK (s : Matrix) : Prop :=
  ∀ i < s.elems.size, ∀ n sz, (s.get i).val = Val.vhead n sz → sz < M64

theorem valsOK_any (s : Matrix) (h : ValsOK s) (i : Nat) :
    ∀ n sz, (s.get i).val = Val.vhead n sz → sz < M64 := by
  intro n sz hv
  by_cases hb : i < s.elems.size
  · exact h i hb n sz hv
  · rw [Matrix.get, Array.getD] at hv
    split at hv
    · omega
    · exact absurd hv (by simp [junkE])

theorem M64_pos : 0 < M64 := by norm_num [M64]

theorem valsOK_decSize (s : Matrix) (i : Nat) (h : ValsOK s) : ValsOK (s.decSize i) := by
  intro x hx n sz hv
  rw [size_decSize] at hx
  rw [get_decSize] at hv
  split_ifs at hv with h'
  · rcases hval : (s.get x).val with _ | ⟨n', sz'⟩ | _ <;> rw [hval] at hv
    · exact absurd hv (by simp [decVal])
    · simp only [decVal, Val.vhead.injEq] at hv
      rw [← hv.2]
      exact Nat.mod_lt _ M64_pos
    · exact absurd hv (by simp [decVal])
  · exact h x hx n sz hv

theorem valsOK_incSize (s : Matrix) (i : Nat) (h : ValsOK s) : ValsOK (s.incSize i) := by
  intro x hx n sz hv
  rw [size_incSize] at hx
  rw [get_incSize] at hv
  split_ifs at hv with h'
  · rcases hval : (s.get x).val with _ | ⟨n', sz'⟩ | _ <;> rw [hval] at hv
    · exact absurd hv (by simp [incVal])
    · simp only [incVal, Val.vhead.injEq] at hv
      rw [← hv.2]
      exact Nat.mod_lt _ M64_pos
    · exact absurd hv (by simp [incVal])
  · exact h x hx n sz hv

theorem valsOK_updUp (s : Matrix) (i v : Nat) (h : ValsOK s) : ValsOK (s.updUp i v) := by
  intro x hx n sz hv
  rw [size_updUp] at hx
  rw [updUp_val] at hv
  exact h x hx n sz hv

theorem valsOK_updDown (s : Matrix) (i v : Nat) (h : ValsOK s) : ValsOK (s.updDown i v) := by
  intro x hx n sz hv
  rw [size_updDown] at hx
  rw [updDown_val] at hv
  exact h x hx n sz hv

theorem valsOK_unlinkV (s : Matrix) (j : Nat) (h : ValsOK s) : ValsOK (unlinkV s j) := by
  rw [unlinkV]
  exact valsOK_decSize _ _ (valsOK_updDown _ _ _ (valsOK_updUp _ _ _ h))

theorem valsOK_relinkV (s : Matrix) (j : Nat) (h : ValsOK s) : ValsOK (relinkV s j) := by
  rw [relinkV]
  exact valsOK_updDown _ _ _ (valsOK_updUp _ _ _ (valsOK_incSize _ _ h))

/-- Decomposed form of `unlinkV` when the element is distinct from its
vertical neighbors. -/
theorem unlink_decomp (s : Matrix) (j : Nat)
    (hdj : (s.get j).down ≠ j) (huj : (s.get j).up ≠ j) :
    unlinkV s j =
      ((s.updUp ((s.get j).down) ((s.get j).up)).updDown ((s.get j).up)
        ((s.get j).down)).decSize ((s.get j).column) := by
  have r1 : (s.updUp ((s.get j).down) ((s.get j).up)).get j = s.get j := by
    rw [get_updUp, if_neg]
    rintro ⟨h', _⟩
    exact hdj h'.symm
  have r2 : ((s.updUp ((s.get j).down) ((s.get j).up)).updDown ((s.get j).up)
      ((s.get j).down)).get j = s.get j := by
    rw [get_updDown, if_neg, r1]
    rintro ⟨h', _⟩
    exact huj h'.symm
  rw [unlinkV]
  simp only [r1, r2]

/-- Degenerate form of `unlinkV` for a self-linked element. -/
theorem unlink_deg (s : Matrix) (j : Nat)
    (hdj : (s.get j).down = j) (huj : (s.get j).up = j) :
    unlinkV s j = s.decSize ((s.get j).column) := by
  have e1 : s.updUp ((s.get j).down) ((s.get j).up) = s := by
    rw [hdj, Matrix.updUp]
    exact set_self s j
  have e1' : s.updDown ((s.get j).up) ((s.get j).down) = s := by
    rw [huj, Matrix.updDown]
    exact set_self s j
  rw [unlinkV]
  simp only [e1, e1']

/-- Effective `up`-field formula of a non-degenerate unlink. -/
theorem unlink_up_nondeg (s : Matrix) (j x : Nat)
    (hdj : (s.get j).down ≠ j) (huj : (s.get j).up ≠ j) :
    ((unlinkV s j).get x).up =
      if x = (s.get j).down ∧ (s.get j).down < s.elems.size then (s.get j).up
      else (s.get x).up := by
  rw [unlink_decomp s j hdj huj, decSize_up, updDown_up, get_updUp]
  split_ifs <;> rfl

/-- Effective `down`-field formula of a non-degenerate unlink. -/
theorem unlink_down_nondeg (s : Matrix) (j x : Nat)
    (hdj : (s.get j).down ≠ j) (huj : (s.get j).up ≠ j) :
    ((unlinkV s j).get x).down =
      if x = (s.get j).up ∧ (s.get j).up < s.elems.size then (s.get j).down
      else (s.get x).down := by
  rw [unlink_decomp s j hdj huj, decSize_down, get_updDown]
  simp only [size_updUp]
  split_ifs with h'
  · rfl
  · rw [updUp_down]

/-- Unlinking a symmetrically linked member of a closed symmetric set
preserves symmetry and closure on the remaining members. -/
theorem vsym_closed_unlink (s : Matrix) (L : List Nat) (j : Nat)
    (hnd : L.Nodup)
    (hsym : VSymOn s L) (hcl : VClosed s L) (hbd : BoundsOn s L) (hj : j ∈ L) :
    VSymOn (unlinkV s j) (L.erase j) ∧ VClosed (unlinkV s j) (L.erase j) ∧
      BoundsOn (unlinkV s j) (L.erase j) := by
  have hdun : (s.get ((s.get j).down)).up = j := (hsym j hj).1
  have hund : (s.get ((s.get j).up)).down = j := (hsym j hj).2
  have hmemx : ∀ x, x ∈ L.erase j → x ∈ L ∧ x ≠ j := by
    intro x hx
    have := (List.Nodup.mem_erase_iff hnd).mp hx
    exact ⟨this.2, this.1⟩
  by_cases hdj : (s.get j).down = j
  · -- degenerate: the pointer writes are no-ops
    have huj : (s.get j).up = j := by rw [hdj] at hdun; exact hdun
    have heq : unlinkV s j = s.decSize ((s.get j).column) := unlink_deg s j hdj huj
    have hgetf : ∀ x, ((unlinkV s j).get x).down = (s.get x).down ∧
        ((unlinkV s j).get x).up = (s.get x).up := by
      intro x
      rw [heq]
      exact ⟨decSize_down .., decSize_up ..⟩
    refine ⟨?_, ?_, ?_⟩
    · intro x hx
      obtain ⟨hxL, _⟩ := hmemx x hx
      obtain ⟨h1, h2⟩ := hsym x hxL
      constructor
      · rw [(hgetf x).1, (hgetf ((s.get x).down)).2]
        exact h1
      · rw [(hgetf x).2, (hgetf ((s.get x).up)).1]
        exact h2
    · intro x hx
      obtain ⟨hxL, hxj⟩ := hmemx x hx
      obtain ⟨h1, h2⟩ := hcl x hxL
      rw [(hgetf x).1, (hgetf x).2]
      constructor
      · apply List.mem_erase_of_ne _ |>.mpr h1
        intro hdx
        have := (hsym x hxL).1
        rw [hdx, huj] at this
        exact hxj this.symm
      · apply List.mem_erase_of_ne _ |>.mpr h2
        intro hux
        have := (hsym x hxL).2
        rw [hux, hdj] at this
        exact hxj this.symm
    · intro x hx
      rw [size_unlinkV]
      exact hbd x (List.mem_of_mem_erase hx)
  · have huj : (s.get j).up ≠ j := by
      intro h'
      rw [h'] at hund
      exact hdj hund
    have hup : ∀ x, ((unlinkV s j).get x).up =
        if x = (s.get j).down ∧ (s.get j).down < s.elems.size then (s.get j).up
        else (s.get x).up := fun x => unlink_up_nondeg s j x hdj huj
    have hdn : ∀ x, ((unlinkV s j).get x).down =
        if x = (s.get j).up ∧ (s.get j).up < s.elems.size then (s.get j).down
        else (s.get x).down := fun x => unlink_down_nondeg s j x hdj huj
    have hdb : (s.get j).down < s.elems.size := hbd _ (hcl j hj).1
    have hub : (s.get j).up < s.elems.size := hbd _ (hcl j hj).2
    -- down x = j forces x = up j, and up x = j forces x = down j
    have hdxj : ∀ x ∈ L, (s.get x).down = j → x = (s.get j).up := by
      intro x hxL hdx
      have h1 := (hsym x hxL).1
      rw [hdx] at h1
      exact h1.symm
    have huxj : ∀ x ∈ L, (s.get x).up = j → x = (s.get j).down := by
      intro x hxL hux
      have h2 := (hsym x hxL).2
      rw [hux] at h2
      exact h2.symm
    refine ⟨?_, ?_, ?_⟩
    · -- symmetry on the remaining members
      intro x hx
      obtain ⟨hxL, hxj⟩ := hmemx x hx
      constructor
      · -- up (down x) = x in the new state
        rw [hdn x]
        split_ifs with h1
        · -- x = up j : its new down is down j, whose new up is up j = x
          rw [hup ((s.get j).down), if_pos ⟨rfl, hdb⟩, h1.1]
        · -- down x unchanged; it is not down j, so its up is unchanged
          rw [hup ((s.get x).down)]
          split_ifs with h2
          · -- down x = down j : then x = up (down x) = up (down j) = j, contradiction
            exfalso
            have hx1 := (hsym x hxL).1
            rw [h2.1] at hx1
            rw [hdun] at hx1
            exact hxj hx1.symm
          · exact (hsym x hxL).1
      · -- down (up x) = x in the new state
        rw [hup x]
        split_ifs with h1
        · rw [hdn ((s.get j).up), if_pos ⟨rfl, hub⟩, h1.1]
        · rw [hdn ((s.get x).up)]
          split_ifs with h2
          · exfalso
            have hx2 := (hsym x hxL).2
            rw [h2.1] at hx2
            rw [hund] at hx2
            exact hxj hx2.symm
          · exact (hsym x hxL).2
    · -- closure on the remaining members
      intro x hx
      obtain ⟨hxL, hxj⟩ := hmemx x hx
      constructor
      · rw [hdn x]
        split_ifs with h1
        · -- new down is down j ∈ L, ≠ j
          exact List.mem_erase_of_ne hdj |>.mpr (hcl j hj).1
        · apply List.mem_erase_of_ne _ |>.mpr (hcl x hxL).1
          intro hdx
          have := hdxj x hxL hdx
          exact h1 ⟨this, this ▸ hub⟩
      · rw [hup x]
        split_ifs with h1
        · exact List.mem_erase_of_ne huj |>.mpr (hcl j hj).2
        · apply List.mem_erase_of_ne _ |>.mpr (hcl x hxL).2
          intro hux
          have := huxj x hxL hux
          exact h1 ⟨this, this ▸ hdb⟩
    · intro x hx
      rw [size_unlinkV]
      exact hbd x (List.mem_of_mem_erase hx)

/-- The LIFO inverse law: relinking, in reverse order, the elements that
were unlinked restores the matrix exactly. -/
theorem relinkSeq_unlinkSeq (js : List Nat) : ∀ (s : Matrix) (L : List Nat),
    L.Nodup → VSymOn s L → VClosed s L → BoundsOn s L → ValsOK s →
    js.Nodup → (∀ j ∈ js, j ∈ L) →
    relinkSeq (unlinkSeq s js) js.reverse = s := by
  induction js with
  | nil => intro s L _ _ _ _ _ _ _; rfl
  | cons j rest ih =>
    intro s L hLnd hsym hcl hbd hvals hnd hsub
    have hjL : j ∈ L := hsub j (List.mem_cons_self ..)
    obtain ⟨hsym', hcl', hbd'⟩ := vsym_closed_unlink s L j hLnd hsym hcl hbd hjL
    have hvals' : ValsOK (unlinkV s j) := valsOK_unlinkV s j hvals
    have hnd' : rest.Nodup := (List.nodup_cons.mp hnd).2
    have hsub' : ∀ x ∈ rest, x ∈ L.erase j := by
      intro x hx
      apply List.mem_erase_of_ne _ |>.mpr (hsub x (List.mem_cons_of_mem _ hx))
      intro hxe
      exact (List.nodup_cons.mp hnd).1 (hxe ▸ hx)
    have hIH := ih (unlinkV s j) (L.erase j) (List.Nodup.erase j hLnd)
      hsym' hcl' hbd' hvals' hnd' hsub'
    rw [List.reverse_cons]
    show relinkSeq (unlinkSeq (unlinkV s j) rest) (rest.reverse ++ [j]) = s
    rw [relinkSeq_append, hIH]
    show relinkV (unlinkV s j) j = s
    exact relink_unlink s j (hsym j hjL).1 (hsym j hjL).2
      (valsOK_any s hvals ((s.get j).column))

/-! ### Fueled ring traversals as lists -/

/-- The list of elements visited by a loop of the shape
`for x := start; x != stop; x = step(x)`, with explicit fuel;
`none` when the fuel runs out before reaching `stop`. -/
def chainTo (step : Nat → Nat) (stop : Nat) : Nat → Nat → Option (List Nat)
  | 0, _ => none
  | fuel + 1, x =>
    if x = stop then some []
    else
      match chainTo step stop fuel (step x) with
      | some l => some (x :: l)
      | none => none

/-- A traversal only depends on the step function's values at the visited
elements. -/
theorem chainTo_congr (step step' : Nat → Nat) (stop : Nat) :
    ∀ (fuel : Nat) (x : Nat) (l : List Nat), chainTo step stop fuel x = some l →
    (∀ y ∈ l, step' y = step y) → chainTo step' stop fuel x = some l := by
  intro fuel
  induction fuel with
  | zero => intro x l h; exact absurd h (by simp [chainTo])
  | succ fuel ih =>
    intro x l h hagree
    rw [chainTo] at h ⊢
    split at h
    · rename_i hx
      rw [if_pos hx]
      exact h
    · rename_i hx
      rw [if_neg hx]
      split at h
      · rename_i l' hl'
        cases h
        rw [hagree x (List.mem_cons_self ..)]
        rw [ih (step x) l' hl' (fun y hy => hagree y (List.mem_cons_of_mem _ hy))]
      · exact absurd h (by simp)

/-- `unlinkV` does not change the `RightE` navigation anywhere. -/
theorem RightE_unlinkV (s : Matrix) (j y : Nat) :
    (unlinkV s j).RightE y = s.RightE y := by
  rw [Matrix.RightE, Matrix.RightE, unlinkV_mat, unlinkV_right]

/-- `relinkV` does not change the `LeftE` navigation anywhere. -/
theorem LeftE_relinkV (s : Matrix) (j y : Nat) :
    (relinkV s j).LeftE y = s.LeftE y := by
  rw [Matrix.LeftE, Matrix.LeftE, relinkV_mat, relinkV_left]

/-- `relinkV` does not change the `RightE` navigation anywhere. -/
theorem RightE_relinkV (s : Matrix) (j y : Nat) :
    (relinkV s j).RightE y = s.RightE y := by
  rw [Matrix.RightE, Matrix.RightE, relinkV_mat, relinkV_right]

/-- `unlinkV` does not change the `LeftE` navigation anywhere. -/
theorem LeftE_unlinkV (s : Matrix) (j y : Nat) :
    (unlinkV s j).LeftE y = s.LeftE y := by
  rw [Matrix.LeftE, Matrix.LeftE, unlinkV_mat, unlinkV_left]

/-- The inner loop of `cover` is the fold of vertical unlinks over the
row's right-chain. -/
theorem coverRow_eq : ∀ (fuel : Nat) (s : Matrix) (i x : Nat) (js : List Nat),
    chainTo (s.RightE) i fuel x = some js →
    coverRow s fuel i x = unlinkSeq s js := by
  intro fuel
  induction fuel with
  | zero => intro s i x js h; exact absurd h (by simp [chainTo])
  | succ fuel ih =>
    intro s i x js h
    rw [chainTo] at h
    rw [coverRow]
    split at h
    · rename_i hx
      cases h
      rw [if_pos hx]
      rfl
    · rename_i hx
      rw [if_neg hx]
      split at h
      · rename_i l' hl'
        cases h
        show coverRow (unlinkV s x) fuel i ((unlinkV s x).RightE x) = unlinkSeq (unlinkV s x) l'
        have hstep : (unlinkV s x).RightE x = s.RightE x := RightE_unlinkV ..
        rw [hstep]
        apply ih
        apply chainTo_congr (s.RightE) _ i fuel (s.RightE x) l' hl'
        intro y _
        exact RightE_unlinkV ..
      · exact absurd h (by simp)

theorem updUp_up (s : Matrix) (i v x : Nat) :
    ((s.updUp i v).get x).up =
      if x = i ∧ i < s.elems.size then v else (s.get x).up := by
  rw [get_updUp]; split_ifs <;> rfl

theorem updDown_down (s : Matrix) (i v x : Nat) :
    ((s.updDown i v).get x).down =
      if x = i ∧ i < s.elems.size then v else (s.get x).down := by
  rw [get_updDown]; split_ifs <;> rfl

/-- Unconditional decomposition of `unlinkV` into three primitive writes
with snapshot indices: the interleaved reads of `j`'s own fields always
yield the original values. -/
theorem unlinkV_decomp (s : Matrix) (j : Nat) :
    unlinkV s j =
      ((s.updUp ((s.get j).down) ((s.get j).up)).updDown ((s.get j).up)
        ((s.get j).down)).decSize ((s.get j).column) := by
  have h1 : ((s.updUp ((s.get j).down) ((s.get j).up)).get j).up = (s.get j).up := by
    rw [updUp_up]
    split_ifs <;> rfl
  have h2 : ((s.updUp ((s.get j).down) ((s.get j).up)).get j).down = (s.get j).down :=
    updUp_down ..
  have h3 : (((s.updUp ((s.get j).down) ((s.get j).up)).updDown ((s.get j).up)
      ((s.get j).down)).get j).column = (s.get j).column := by
    rw [updDown_column, updUp_column]
  rw [unlinkV]
  simp only [h1, h2, h3]

/-- Effective `up`-field formula of `unlinkV`, unconditionally. -/
theorem unlink_up (s : Matrix) (j x : Nat) :
    ((unlinkV s j).get x).up =
      if x = (s.get j).down ∧ (s.get j).down < s.elems.size then (s.get j).up
      else (s.get x).up := by
  rw [unlinkV_decomp, decSize_up, updDown_up, updUp_up]

/-- Effective `down`-field formula of `unlinkV`, unconditionally. -/
theorem unlink_down (s : Matrix) (j x : Nat) :
    ((unlinkV s j).get x).down =
      if x = (s.get j).up ∧ (s.get j).up < s.elems.size then (s.get j).down
      else (s.get x).down := by
  rw [unlinkV_decomp, decSize_down, updDown_down]
  simp only [size_updUp]
  split_ifs with h'
  · rfl
  · rw [updUp_down]

/-- `unlinkV` leaves elements other than the two vertical neighbors and
the column header of `j` completely unchanged. -/
theorem unlinkV_get_of_ne (s : Matrix) (j y : Nat)
    (h1 : y ≠ (s.get j).down) (h2 : y ≠ (s.get j).up) (h3 : y ≠ (s.get j).column) :
    (unlinkV s j).get y = s.get y := by
  rw [unlinkV_decomp, get_decSize, if_neg, get_updDown, if_neg, get_updUp, if_neg]
  · rintro ⟨h', _⟩; exact h1 h'
  · rintro ⟨h', _⟩; exact h2 h'
  · rintro ⟨h', _⟩; exact h3 h'

/-- `relinkV` leaves elements other than `j`, its two vertical neighbors
and its column header completely unchanged. -/
theorem relinkV_get_of_ne (s : Matrix) (j y : Nat)
    (h1 : y ≠ (s.get j).down) (h2 : y ≠ (s.get j).up) (h3 : y ≠ (s.get j).column)
    (h4 : y ≠ j) :
    (relinkV s j).get y = s.get y := by
  rw [relinkV]
  rw [incSize_down]
  have q1 : (s.incSize ((s.get j).column)).get y = s.get y := by
    rw [get_incSize, if_neg]
    rintro ⟨h', _⟩; exact h3 h'
  have q2 : ((s.incSize ((s.get j).column)).updUp ((s.get j).down) j).get y =
      (s.incSize ((s.get j).column)).get y := by
    rw [get_updUp, if_neg]
    rintro ⟨h', _⟩; exact h1 h'
  have e2 : (((s.incSize ((s.get j).column)).updUp ((s.get j).down) j).get j).up =
      if j = (s.get j).down ∧ (s.get j).down < s.elems.size then j
      else (s.get j).up := by
    rw [updUp_up, incSize_up]
    simp only [size_incSize]
  rw [e2]
  split_ifs with hdeg
  · -- degenerate: the final write targets j itself
    rw [get_updDown, if_neg, q2, q1]
    rintro ⟨h', _⟩; exact h4 h'
  · rw [get_updDown, if_neg, q2, q1]
    rintro ⟨h', _⟩; exact h2 h'

/-- Effective `up`-field formula of `relinkV`, unconditionally. -/
theorem relink_up (s : Matrix) (j x : Nat) :
    ((relinkV s j).get x).up =
      if x = (s.get j).down ∧ (s.get j).down < s.elems.size then j
      else (s.get x).up := by
  rw [relinkV, incSize_down, updDown_up, updUp_up, incSize_up]
  simp only [size_incSize]

/-- Effective `down`-field formula of `relinkV` when `j` is its own down
neighbor (then the final write targets `j` itself). -/
theorem relink_down_deg (s : Matrix) (j x : Nat)
    (hdeg : j = (s.get j).down ∧ (s.get j).down < s.elems.size) :
    ((relinkV s j).get x).down =
      if x = j ∧ j < s.elems.size then j else (s.get x).down := by
  rw [relinkV, incSize_down]
  have hu : (((s.incSize ((s.get j).column)).updUp ((s.get j).down) j).get j).up = j := by
    rw [updUp_up, incSize_up]
    simp only [size_incSize]
    rw [if_pos hdeg]
  rw [hu, updDown_down]
  simp only [size_updUp, size_incSize]
  split_ifs with h'
  · rfl
  · rw [updUp_down, incSize_down]

/-- Effective `down`-field formula of `relinkV` in the regular case. -/
theorem relink_down_nondeg (s : Matrix) (j x : Nat)
    (hdeg : ¬ (j = (s.get j).down ∧ (s.get j).down < s.elems.size)) :
    ((relinkV s j).get x).down =
      if x = (s.get j).up ∧ (s.get j).up < s.elems.size then j
      else (s.get x).down := by
  rw [relinkV, incSize_down]
  have hu : (((s.incSize ((s.get j).column)).updUp ((s.get j).down) j).get j).up =
      (s.get j).up := by
    rw [updUp_up, incSize_up]
    simp only [size_incSize]
    rw [if_neg hdeg]
  rw [hu, updDown_down]
  simp only [size_updUp, size_incSize]
  split_ifs with h'
  · rfl
  · rw [updUp_down, incSize_down]

/-! ### Column families and traversal stability -/

/-- Membership in the static column family of head `d`: elements whose
`column` field is `d`, plus `d` itself. -/
def inFam (s : Matrix) (d x : Nat) : Prop := (s.get x).column = d ∨ x = d

theorem inFam_self_col (s : Matrix) (j : Nat) : inFam s ((s.get j).column) j :=
  Or.inl rfl

theorem inFam_head (s : Matrix) (d : Nat) : inFam s d d := Or.inr rfl

/-- `inFam` only reads `column` fields, so it transfers across any
column-preserving state change. -/
theorem inFam_congr (s t : Matrix) (d x : Nat)
    (h : ((t.get x)).column = ((s.get x)).column) : inFam t d x ↔ inFam s d x := by
  unfold inFam
  rw [h]

/-- All three write targets of `unlinkV s j` lie in `j`'s column family,
so every element outside it is untouched. -/
theorem unlinkV_get_fam (s : Matrix) (j y : Nat)
    (hd : inFam s ((s.get j).column) ((s.get j).down))
    (hu : inFam s ((s.get j).column) ((s.get j).up))
    (hy : ¬ inFam s ((s.get j).column) y) :
    (unlinkV s j).get y = s.get y := by
  apply unlinkV_get_of_ne
  · intro h'; exact hy (h' ▸ hd)
  · intro h'; exact hy (h' ▸ hu)
  · intro h'; exact hy (h' ▸ inFam_head s ((s.get j).column))

/-- All write targets of `relinkV s j` lie in `j`'s column family. -/
theorem relinkV_get_fam (s : Matrix) (j y : Nat)
    (hd : inFam s ((s.get j).column) ((s.get j).down))
    (hu : inFam s ((s.get j).column) ((s.get j).up))
    (hy : ¬ inFam s ((s.get j).column) y) :
    (relinkV s j).get y = s.get y := by
  apply relinkV_get_of_ne
  · intro h'; exact hy (h' ▸ hd)
  · intro h'; exact hy (h' ▸ hu)
  · intro h'; exact hy (h' ▸ inFam_head s ((s.get j).column))
  · intro h'; exact hy (h' ▸ inFam_self_col s j)

/-- Vertical pointers of every listed element stay within that element's
column family. -/
def VertFamOn (s : Matrix) (J : List Nat) : Prop :=
  ∀ j ∈ J, inFam s ((s.get j).column) ((s.get j).up) ∧
    inFam s ((s.get j).column) ((s.get j).down)

/-- Column self-reference of the column headers of the listed elements. -/
def ColIdemOn (s : Matrix) (J : List Nat) : Prop :=
  ∀ x ∈ J, (s.get ((s.get x).column)).column = (s.get x).column

/-- No listed element is the column header of a listed element. -/
def NoHeadOn (s : Matrix) (J : List Nat) : Prop :=
  ∀ x ∈ J, ∀ x' ∈ J, (s.get x).column ≠ x'

/-- Unlinking the first listed element preserves the vertical-family
invariant on the remaining ones. -/
theorem vertFamOn_unlink (s : Matrix) (j : Nat) (J : List Nat)
    (hvf : VertFamOn s (j :: J))
    (hNoHd : NoHeadOn s (j :: J)) :
    VertFamOn (unlinkV s j) J := by
  intro j' hj'
  have hj'M : j' ∈ j :: J := List.mem_cons_of_mem _ hj'
  obtain ⟨hu', hd'⟩ := hvf j' hj'M
  obtain ⟨huJ, hdJ⟩ := hvf j (List.mem_cons_self ..)
  have hcol : ∀ x, ((unlinkV s j).get x).column = (s.get x).column :=
    fun x => unlinkV_column s j x
  have htrans : ∀ d x, inFam (unlinkV s j) d x ↔ inFam s d x :=
    fun d x => inFam_congr s (unlinkV s j) d x (hcol x)
  constructor
  · rw [hcol j', htrans, unlink_up]
    split_ifs with h1
    · -- j' is the down-neighbor of j: its new up is j's old up
      rcases hdJ with hc | hc
      · rw [← h1.1] at hc
        rw [hc]
        exact huJ
      · exfalso
        exact hNoHd j (List.mem_cons_self ..) j' hj'M (by rw [← hc, ← h1.1])
    · exact hu'
  · rw [hcol j', htrans, unlink_down]
    split_ifs with h1
    · rcases huJ with hc | hc
      · rw [← h1.1] at hc
        rw [hc]
        exact hdJ
      · exfalso
        exact hNoHd j (List.mem_cons_self ..) j' hj'M (by rw [← hc, ← h1.1])
    · exact hd'

/-- Relinking the first listed element preserves the vertical-family
invariant on the remaining ones (which do not contain it). -/
theorem vertFamOn_relink (s : Matrix) (j : Nat) (J : List Nat)
    (hvf : VertFamOn s (j :: J))
    (hNoHd : NoHeadOn s (j :: J))
    (hnj : j ∉ J) :
    VertFamOn (relinkV s j) J := by
  intro j' hj'
  have hj'M : j' ∈ j :: J := List.mem_cons_of_mem _ hj'
  have hj'ne : j' ≠ j := fun h' => hnj (h' ▸ hj')
  obtain ⟨hu', hd'⟩ := hvf j' hj'M
  obtain ⟨huJ, hdJ⟩ := hvf j (List.mem_cons_self ..)
  have hcol : ∀ x, ((relinkV s j).get x).column = (s.get x).column :=
    fun x => relinkV_column s j x
  have htrans : ∀ d x, inFam (relinkV s j) d x ↔ inFam s d x :=
    fun d x => inFam_congr s (relinkV s j) d x (hcol x)
  constructor
  · rw [hcol j', htrans, relink_up]
    split_ifs with h1
    · -- j' is the down-neighbor of j: its new up is j itself
      rcases hdJ with hc | hc
      · rw [← h1.1] at hc
        rw [hc]
        exact inFam_self_col s j
      · exfalso
        exact hNoHd j (List.mem_cons_self ..) j' hj'M (by rw [← hc, ← h1.1])
    · exact hu'
  · rw [hcol j', htrans]
    by_cases hdeg : j = (s.get j).down ∧ (s.get j).down < s.elems.size
    · rw [relink_down_deg s j j' hdeg, if_neg]
      · exact hd'
      · rintro ⟨h', _⟩
        exact hj'ne h'
    · rw [relink_down_nondeg s j j' hdeg]
      split_ifs with h1
      · rcases huJ with hc | hc
        · rw [← h1.1] at hc
          rw [hc]
          exact inFam_self_col s j
        · exfalso
          exact hNoHd j (List.mem_cons_self ..) j' hj'M (by rw [← hc, ← h1.1])
      · exact hd'

/-! Stability of whole unlink/relink folds. -/

theorem unlinkSeq_column : ∀ (J : List Nat) (s : Matrix) (x : Nat),
    ((unlinkSeq s J).get x).column = (s.get x).column
  | [], _, _ => rfl
  | j :: J, s, x => by
    rw [unlinkSeq, unlinkSeq_column J, unlinkV_column]

theorem unlinkSeq_mat : ∀ (J : List Nat) (s : Matrix) (x : Nat),
    ((unlinkSeq s J).get x).mat = (s.get x).mat
  | [], _, _ => rfl
  | j :: J, s, x => by
    rw [unlinkSeq, unlinkSeq_mat J, unlinkV_mat]

theorem unlinkSeq_left : ∀ (J : List Nat) (s : Matrix) (x : Nat),
    ((unlinkSeq s J).get x).left = (s.get x).left
  | [], _, _ => rfl
  | j :: J, s, x => by
    rw [unlinkSeq, unlinkSeq_left J, unlinkV_left]

theorem unlinkSeq_right : ∀ (J : List Nat) (s : Matrix) (x : Nat),
    ((unlinkSeq s J).get x).right = (s.get x).right
  | [], _, _ => rfl
  | j :: J, s, x => by
    rw [unlinkSeq, unlinkSeq_right J, unlinkV_right]

theorem size_unlinkSeq : ∀ (J : List Nat) (s : Matrix),
    (unlinkSeq s J).elems.size = s.elems.size
  | [], _ => rfl
  | j :: J, s => by
    rw [unlinkSeq, size_unlinkSeq J, size_unlinkV]

theorem o_unlinkSeq : ∀ (J : List Nat) (s : Matrix), (unlinkSeq s J).o = s.o
  | [], _ => rfl
  | j :: J, s => by rw [unlinkSeq, o_unlinkSeq J, o_unlinkV]

theorem sol_unlinkSeq : ∀ (J : List Nat) (s : Matrix),
    (unlinkSeq s J).solutions = s.solutions
  | [], _ => rfl
  | j :: J, s => by rw [unlinkSeq, sol_unlinkSeq J, sol_unlinkV]

theorem relinkSeq_column : ∀ (J : List Nat) (s : Matrix) (x : Nat),
    ((relinkSeq s J).get x).column = (s.get x).column
  | [], _, _ => rfl
  | j :: J, s, x => by
    rw [relinkSeq, relinkSeq_column J, relinkV_column]

theorem relinkSeq_mat : ∀ (J : List Nat) (s : Matrix) (x : Nat),
    ((relinkSeq s J).get x).mat = (s.get x).mat
  | [], _, _ => rfl
  | j :: J, s, x => by
    rw [relinkSeq, relinkSeq_mat J, relinkV_mat]

theorem relinkSeq_left : ∀ (J : List Nat) (s : Matrix) (x : Nat),
    ((relinkSeq s J).get x).left = (s.get x).left
  | [], _, _ => rfl
  | j :: J, s, x => by
    rw [relinkSeq, relinkSeq_left J, relinkV_left]

theorem relinkSeq_right : ∀ (J : List Nat) (s : Matrix) (x : Nat),
    ((relinkSeq s J).get x).right = (s.get x).right
  | [], _, _ => rfl
  | j :: J, s, x => by
    rw [relinkSeq, relinkSeq_right J, relinkV_right]

theorem size_relinkSeq : ∀ (J : List Nat) (s : Matrix),
    (relinkSeq s J).elems.size = s.elems.size
  | [], _ => rfl
  | j :: J, s => by
    rw [relinkSeq, size_relinkSeq J, size_relinkV]

theorem o_relinkSeq : ∀ (J : List Nat) (s : Matrix), (relinkSeq s J).o = s.o
  | [], _ => rfl
  | j :: J, s => by rw [relinkSeq, o_relinkSeq J, o_relinkV]

theorem sol_relinkSeq : ∀ (J : List Nat) (s : Matrix),
    (relinkSeq s J).solutions = s.solutions
  | [], _ => rfl
  | j :: J, s => by rw [relinkSeq, sol_relinkSeq J, sol_relinkV]

theorem RightE_unlinkSeq (J : List Nat) (s : Matrix) (y : Nat) :
    (unlinkSeq s J).RightE y = s.RightE y := by
  rw [Matrix.RightE, Matrix.RightE, unlinkSeq_mat, unlinkSeq_right]

theorem LeftE_unlinkSeq (J : List Nat) (s : Matrix) (y : Nat) :
    (unlinkSeq s J).LeftE y = s.LeftE y := by
  rw [Matrix.LeftE, Matrix.LeftE, unlinkSeq_mat, unlinkSeq_left]

theorem RightE_relinkSeq (J : List Nat) (s : Matrix) (y : Nat) :
    (relinkSeq s J).RightE y = s.RightE y := by
  rw [Matrix.RightE, Matrix.RightE, relinkSeq_mat, relinkSeq_right]

theorem LeftE_relinkSeq (J : List Nat) (s : Matrix) (y : Nat) :
    (relinkSeq s J).LeftE y = s.LeftE y := by
  rw [Matrix.LeftE, Matrix.LeftE, relinkSeq_mat, relinkSeq_left]

/-- `VertFamOn` survives a prefix of unlinks. -/
theorem vertFamOn_unlinkSeq : ∀ (J1 J2 : List Nat) (s : Matrix),
    VertFamOn s (J1 ++ J2) → NoHeadOn s (J1 ++ J2) →
    VertFamOn (unlinkSeq s J1) J2
  | [], _, _ => fun h _ => h
  | j :: J1, J2, s => fun hvf hnh => by
    have step : VertFamOn (unlinkV s j) (J1 ++ J2) :=
      vertFamOn_unlink s j (J1 ++ J2) hvf hnh
    have hcols : ∀ x, ((unlinkV s j).get x).column = (s.get x).column :=
      fun x => unlinkV_column s j x
    have hnh' : NoHeadOn (unlinkV s j) (J1 ++ J2) := by
      intro x hx x' hx'
      rw [hcols]
      exact hnh x (List.mem_cons_of_mem _ hx) x' (List.mem_cons_of_mem _ hx')
    exact vertFamOn_unlinkSeq J1 J2 (unlinkV s j) step hnh'

/-- `VertFamOn` survives a prefix of relinks when the whole list has no
duplicates. -/
theorem vertFamOn_relinkSeq : ∀ (J1 J2 : List Nat) (s : Matrix),
    (J1 ++ J2).Nodup →
    VertFamOn s (J1 ++ J2) → NoHeadOn s (J1 ++ J2) →
    VertFamOn (relinkSeq s J1) J2
  | [], _, _ => fun _ h _ => h
  | j :: J1, J2, s => fun hnd hvf hnh => by
    have hnj : j ∉ J1 ++ J2 := (List.nodup_cons.mp hnd).1
    have step : VertFamOn (relinkV s j) (J1 ++ J2) :=
      vertFamOn_relink s j (J1 ++ J2) hvf hnh hnj
    have hcols : ∀ x, ((relinkV s j).get x).column = (s.get x).column :=
      fun x => relinkV_column s j x
    have hnh' : NoHeadOn (relinkV s j) (J1 ++ J2) := by
      intro x hx x' hx'
      rw [hcols]
      exact hnh x (List.mem_cons_of_mem _ hx) x' (List.mem_cons_of_mem _ hx')
    exact vertFamOn_relinkSeq J1 J2 (relinkV s j) (List.nodup_cons.mp hnd).2 step hnh'

/-- Elements of the column family of a foreign head `c` are untouched by a
fold of unlinks whose elements all belong to other columns. -/
theorem unlinkSeq_keep_fam (c : Nat) : ∀ (J : List Nat) (s : Matrix) (y : Nat),
    VertFamOn s J → ColIdemOn s J → NoHeadOn s J →
    (∀ x ∈ J, (s.get x).column ≠ c) → ((s.get c).column = c) →
    inFam s c y → (unlinkSeq s J).get y = s.get y
  | [], _, _ => fun _ _ _ _ _ _ => rfl
  | j :: J, s, y => fun hvf hid hnh hnc hcc hy => by
    have hj := hvf j (List.mem_cons_self ..)
    have hstep : (unlinkV s j).get y = s.get y := by
      apply unlinkV_get_fam s j y hj.2 hj.1
      rintro (hcy | hcy)
      · rcases hy with h' | h'
        · exact hnc j (List.mem_cons_self ..) (by rw [← hcy, h'])
        · apply hnc j (List.mem_cons_self ..)
          rw [← hcy, h', hcc]
      · rcases hy with h' | h'
        · apply hnc j (List.mem_cons_self ..)
          have := hid j (List.mem_cons_self ..)
          rw [hcy] at h'
          rw [← this]
          exact h'
        · exact hnc j (List.mem_cons_self ..) (by rw [← hcy, h'])
    have hcols : ∀ x, ((unlinkV s j).get x).column = (s.get x).column :=
      fun x => unlinkV_column s j x
    have hvf' : VertFamOn (unlinkV s j) J := vertFamOn_unlink s j J hvf hnh
    have hid' : ColIdemOn (unlinkV s j) J := by
      intro x hx
      rw [hcols, hcols]
      exact hid x (List.mem_cons_of_mem _ hx)
    have hnh' : NoHeadOn (unlinkV s j) J := by
      intro x hx x' hx'
      rw [hcols]
      exact hnh x (List.mem_cons_of_mem _ hx) x' (List.mem_cons_of_mem _ hx')
    have hnc' : ∀ x ∈ J, ((unlinkV s j).get x).column ≠ c := by
      intro x hx
      rw [hcols]
      exact hnc x (List.mem_cons_of_mem _ hx)
    have hcc' : ((unlinkV s j).get c).column = c := by rw [hcols]; exact hcc
    have hy' : inFam (unlinkV s j) c y := (inFam_congr s _ c y (hcols y)).mpr hy
    rw [unlinkSeq, unlinkSeq_keep_fam c J (unlinkV s j) y hvf' hid' hnh' hnc' hcc' hy',
      hstep]

/-- Elements of the column family of a foreign head `c` are untouched by a
fold of relinks whose elements all belong to other columns. -/
theorem relinkSeq_keep_fam (c : Nat) : ∀ (J : List Nat) (s : Matrix) (y : Nat),
    J.Nodup →
    VertFamOn s J → ColIdemOn s J → NoHeadOn s J →
    (∀ x ∈ J, (s.get x).column ≠ c) → ((s.get c).column = c) →
    inFam s c y → (relinkSeq s J).get y = s.get y
  | [], _, _ => fun _ _ _ _ _ _ _ => rfl
  | j :: J, s, y => fun hnd hvf hid hnh hnc hcc hy => by
    have hj := hvf j (List.mem_cons_self ..)
    have hstep : (relinkV s j).get y = s.get y := by
      apply relinkV_get_fam s j y hj.2 hj.1
      rintro (hcy | hcy)
      · rcases hy with h' | h'
        · exact hnc j (List.mem_cons_self ..) (by rw [← hcy, h'])
        · apply hnc j (List.mem_cons_self ..)
          rw [← hcy, h', hcc]
      · rcases hy with h' | h'
        · apply hnc j (List.mem_cons_self ..)
          have := hid j (List.mem_cons_self ..)
          rw [hcy] at h'
          rw [← this]
          exact h'
        · exact hnc j (List.mem_cons_self ..) (by rw [← hcy, h'])
    have hcols : ∀ x, ((relinkV s j).get x).column = (s.get x).column :=
      fun x => relinkV_column s j x
    have hvf' : VertFamOn (relinkV s j) J :=
      vertFamOn_relink s j J hvf hnh (List.nodup_cons.mp hnd).1
    have hid' : ColIdemOn (relinkV s j) J := by
      intro x hx
      rw [hcols, hcols]
      exact hid x (List.mem_cons_of_mem _ hx)
    have hnh' : NoHeadOn (relinkV s j) J := by
      intro x hx x' hx'
      rw [hcols]
      exact hnh x (List.mem_cons_of_mem _ hx) x' (List.mem_cons_of_mem _ hx')
    have hnc' : ∀ x ∈ J, ((relinkV s j).get x).column ≠ c := by
      intro x hx
      rw [hcols]
      exact hnc x (List.mem_cons_of_mem _ hx)
    have hcc' : ((relinkV s j).get c).column = c := by rw [hcols]; exact hcc
    have hy' : inFam (relinkV s j) c y := (inFam_congr s _ c y (hcols y)).mpr hy
    rw [relinkSeq, relinkSeq_keep_fam c J (relinkV s j) y (List.nodup_cons.mp hnd).2
      hvf' hid' hnh' hnc' hcc' hy', hstep]

theorem DownE_congr (s t : Matrix) (x : Nat) (h : t.get x = s.get x) :
    t.DownE x = s.DownE x := by
  rw [Matrix.DownE, Matrix.DownE, h]

theorem UpE_congr (s t : Matrix) (x : Nat) (h : t.get x = s.get x) :
    t.UpE x = s.UpE x := by
  rw [Matrix.UpE, Matrix.UpE, h]

/-- The inner loop of `uncover` is the fold of vertical relinks over the
row's left-chain. -/
theorem uncoverRow_eq : ∀ (fuel : Nat) (s : Matrix) (i x : Nat) (js : List Nat),
    chainTo (s.LeftE) i fuel x = some js →
    uncoverRow s fuel i x = relinkSeq s js := by
  intro fuel
  induction fuel with
  | zero => intro s i x js h; exact absurd h (by simp [chainTo])
  | succ fuel ih =>
    intro s i x js h
    rw [chainTo] at h
    rw [uncoverRow]
    split at h
    · rename_i hx
      cases h
      rw [if_pos hx]
      rfl
    · rename_i hx
      rw [if_neg hx]
      split at h
      · rename_i l' hl'
        cases h
        show uncoverRow (relinkV s x) fuel i ((relinkV s x).LeftE x) = relinkSeq (relinkV s x) l'
        have hstep : (relinkV s x).LeftE x = s.LeftE x := LeftE_relinkV ..
        rw [hstep]
        apply ih
        apply chainTo_congr (s.LeftE) _ i fuel (s.LeftE x) l' hl'
        intro y _
        exact LeftE_relinkV ..
      · exact absurd h (by simp)

/-! ### The outer loops of `cover` and `uncover` as folds -/

/-- The outer loop of `cover` equals the fold of unlinks over the
concatenated row chains, provided the rows hang off column `c`, their
elements belong to other self-referential columns, and vertical pointers
respect column families. -/
theorem coverCols_eq (c : Nat) : ∀ (fuel : Nat) (rows : List (Nat × List Nat))
    (s : Matrix) (x : Nat),
    chainTo (s.DownE) c fuel x = some (rows.map Prod.fst) →
    (∀ p ∈ rows, chainTo (s.RightE) p.1 (s.elems.size + 1) (s.RightE p.1) = some p.2) →
    VertFamOn s ((rows.map Prod.snd).flatten) →
    ColIdemOn s ((rows.map Prod.snd).flatten) →
    NoHeadOn s ((rows.map Prod.snd).flatten) →
    (∀ j ∈ (rows.map Prod.snd).flatten, (s.get j).column ≠ c) →
    ((s.get c).column = c) →
    (∀ p ∈ rows, (s.get p.1).column = c) →
    coverCols s fuel c x = unlinkSeq s ((rows.map Prod.snd).flatten) := by
  intro fuel
  induction fuel with
  | zero => intro rows s x h; exact absurd h (by simp [chainTo])
  | succ fuel ih =>
    intro rows s x hchain hrows hvf hid hnh hnc hcc hrcol
    rw [chainTo] at hchain
    rw [coverCols]
    split at hchain
    · rename_i hx
      rw [if_pos hx]
      have : rows.map Prod.fst = [] := by
        injection hchain with h'
        exact h'.symm
      have hrows0 : rows = [] := List.map_eq_nil_iff.mp this
      subst hrows0
      rfl
    · rename_i hx
      rw [if_neg hx]
      split at hchain
      · rename_i l' hl'
        injection hchain with h'
        match rows, h' with
        | p :: rest, h' =>
          simp only [List.map_cons, List.cons.injEq] at h'
          have hpx : x = p.1 := h'.1
          have hrest : rest.map Prod.fst = l' := h'.2.symm
          -- the row fold
          have hrow1 : coverRow s (s.elems.size + 1) x (s.RightE x) = unlinkSeq s p.2 := by
            apply coverRow_eq
            rw [hpx]
            exact hrows p (List.mem_cons_self ..)
          rw [hrow1]
          show coverCols (unlinkSeq s p.2) fuel c ((unlinkSeq s p.2).DownE x) =
            unlinkSeq s ((p :: rest).map Prod.snd).flatten
          -- restricted conditions on the first row's elements
          have hsubP : ∀ j ∈ p.2, j ∈ ((p :: rest).map Prod.snd).flatten := by
            intro j hj
            simp only [List.map_cons, List.flatten_cons]
            exact List.mem_append_left _ hj
          have hsubR : ∀ j ∈ (rest.map Prod.snd).flatten,
              j ∈ ((p :: rest).map Prod.snd).flatten := by
            intro j hj
            simp only [List.map_cons, List.flatten_cons]
            exact List.mem_append_right _ hj
          have hvfP : VertFamOn s p.2 := fun j hj => hvf j (hsubP j hj)
          have hidP : ColIdemOn s p.2 := fun j hj => hid j (hsubP j hj)
          have hnhP : NoHeadOn s p.2 := fun j hj j' hj' =>
            hnh j (hsubP j hj) j' (hsubP j' hj')
          have hncP : ∀ j ∈ p.2, (s.get j).column ≠ c := fun j hj => hnc j (hsubP j hj)
          have hkeep : ∀ y, inFam s c y → (unlinkSeq s p.2).get y = s.get y :=
            fun y hy => unlinkSeq_keep_fam c p.2 s y hvfP hidP hnhP hncP hcc hy
          -- the next read of the outer loop is unchanged
          have hDx : (unlinkSeq s p.2).DownE x = s.DownE x := by
            apply DownE_congr
            apply hkeep
            exact Or.inl (hpx ▸ hrcol p (List.mem_cons_self ..))
          rw [hDx]
          -- the chain of the remaining rows is unchanged
          have hchain' : chainTo ((unlinkSeq s p.2).DownE) c fuel (s.DownE x) =
              some (rest.map Prod.fst) := by
            apply chainTo_congr (s.DownE) _ c fuel (s.DownE x) _ (hrest ▸ hl')
            intro y hy
            apply DownE_congr
            apply hkeep
            obtain ⟨p', hp', hy'⟩ := List.mem_map.mp hy
            exact Or.inl (hy' ▸ hrcol p' (List.mem_cons_of_mem _ hp'))
          -- the right chains of the remaining rows are unchanged
          have hRfun : (unlinkSeq s p.2).RightE = s.RightE :=
            funext (fun y => RightE_unlinkSeq p.2 s y)
          have hrows' : ∀ p' ∈ rest, chainTo ((unlinkSeq s p.2).RightE) p'.1
              ((unlinkSeq s p.2).elems.size + 1) ((unlinkSeq s p.2).RightE p'.1) =
              some p'.2 := by
            intro p' hp'
            rw [hRfun, size_unlinkSeq]
            exact hrows p' (List.mem_cons_of_mem _ hp')
          -- the fam conditions transfer to the intermediate state
          have hcols : ∀ z, ((unlinkSeq s p.2).get z).column = (s.get z).column :=
            fun z => unlinkSeq_column p.2 s z
          have hvf' : VertFamOn (unlinkSeq s p.2) ((rest.map Prod.snd).flatten) := by
            apply vertFamOn_unlinkSeq p.2 ((rest.map Prod.snd).flatten) s
            · intro j hj
              apply hvf
              simp only [List.map_cons, List.flatten_cons]
              exact hj
            · intro j hj j' hj'
              apply hnh <;> simp only [List.map_cons, List.flatten_cons] <;> assumption
          have hid' : ColIdemOn (unlinkSeq s p.2) ((rest.map Prod.snd).flatten) := by
            intro j hj
            rw [hcols, hcols]
            exact hid j (hsubR j hj)
          have hnh' : NoHeadOn (unlinkSeq s p.2) ((rest.map Prod.snd).flatten) := by
            intro j hj j' hj'
            rw [hcols]
            exact hnh j (hsubR j hj) j' (hsubR j' hj')
          have hnc' : ∀ j ∈ (rest.map Prod.snd).flatten,
              ((unlinkSeq s p.2).get j).column ≠ c := by
            intro j hj
            rw [hcols]
            exact hnc j (hsubR j hj)
          have hcc' : ((unlinkSeq s p.2).get c).column = c := by rw [hcols]; exact hcc
          have hrcol' : ∀ p' ∈ rest, ((unlinkSeq s p.2).get p'.1).column = c := by
            intro p' hp'
            rw [hcols]
            exact hrcol p' (List.mem_cons_of_mem _ hp')
          rw [ih rest (unlinkSeq s p.2) (s.DownE x) hchain' hrows' hvf' hid' hnh'
            hnc' hcc' hrcol']
          simp only [List.map_cons, List.flatten_cons]
          rw [unlinkSeq_append]
      · exact absurd hchain (by simp)

/-- The outer loop of `uncover` equals the fold of relinks over the
concatenated (reversed) row chains under the mirror conditions. -/
theorem uncoverCols_eq (c : Nat) : ∀ (fuel : Nat) (rows : List (Nat × List Nat))
    (s : Matrix) (x : Nat),
    chainTo (s.UpE) c fuel x = some (rows.map Prod.fst) →
    (∀ p ∈ rows, chainTo (s.LeftE) p.1 (s.elems.size + 1) (s.LeftE p.1) = some p.2) →
    ((rows.map Prod.snd).flatten).Nodup →
    VertFamOn s ((rows.map Prod.snd).flatten) →
    ColIdemOn s ((rows.map Prod.snd).flatten) →
    NoHeadOn s ((rows.map Prod.snd).flatten) →
    (∀ j ∈ (rows.map Prod.snd).flatten, (s.get j).column ≠ c) →
    ((s.get c).column = c) →
    (∀ p ∈ rows, (s.get p.1).column = c) →
    uncoverCols s fuel c x = relinkSeq s ((rows.map Prod.snd).flatten) := by
  intro fuel
  induction fuel with
  | zero => intro rows s x h; exact absurd h (by simp [chainTo])
  | succ fuel ih =>
    intro rows s x hchain hrows hnd hvf hid hnh hnc hcc hrcol
    rw [chainTo] at hchain
    rw [uncoverCols]
    split at hchain
    · rename_i hx
      rw [if_pos hx]
      have : rows.map Prod.fst = [] := by
        injection hchain with h'
        exact h'.symm
      have hrows0 : rows = [] := List.map_eq_nil_iff.mp this
      subst hrows0
      rfl
    · rename_i hx
      rw [if_neg hx]
      split at hchain
      · rename_i l' hl'
        injection hchain with h'
        match rows, h' with
        | p :: rest, h' =>
          simp only [List.map_cons, List.cons.injEq] at h'
          have hpx : x = p.1 := h'.1
          have hrest : rest.map Prod.fst = l' := h'.2.symm
          have hrow1 : uncoverRow s (s.elems.size + 1) x (s.LeftE x) = relinkSeq s p.2 := by
            apply uncoverRow_eq
            rw [hpx]
            exact hrows p (List.mem_cons_self ..)
          rw [hrow1]
          show uncoverCols (relinkSeq s p.2) fuel c ((relinkSeq s p.2).UpE x) =
            relinkSeq s ((p :: rest).map Prod.snd).flatten
          have hsubP : ∀ j ∈ p.2, j ∈ ((p :: rest).map Prod.snd).flatten := by
            intro j hj
            simp only [List.map_cons, List.flatten_cons]
            exact List.mem_append_left _ hj
          have hsubR : ∀ j ∈ (rest.map Prod.snd).flatten,
              j ∈ ((p :: rest).map Prod.snd).flatten := by
            intro j hj
            simp only [List.map_cons, List.flatten_cons]
            exact List.mem_append_right _ hj
          have hndP : p.2.Nodup := by
            simp only [List.map_cons, List.flatten_cons, List.nodup_append] at hnd
            exact hnd.1
          have hndR : ((rest.map Prod.snd).flatten).Nodup := by
            simp only [List.map_cons, List.flatten_cons, List.nodup_append] at hnd
            exact hnd.2.1
          have hvfP : VertFamOn s p.2 := fun j hj => hvf j (hsubP j hj)
          have hidP : ColIdemOn s p.2 := fun j hj => hid j (hsubP j hj)
          have hnhP : NoHeadOn s p.2 := fun j hj j' hj' =>
            hnh j (hsubP j hj) j' (hsubP j' hj')
          have hncP : ∀ j ∈ p.2, (s.get j).column ≠ c := fun j hj => hnc j (hsubP j hj)
          have hkeep : ∀ y, inFam s c y → (relinkSeq s p.2).get y = s.get y :=
            fun y hy => relinkSeq_keep_fam c p.2 s y hndP hvfP hidP hnhP hncP hcc hy
          have hUx : (relinkSeq s p.2).UpE x = s.UpE x := by
            apply UpE_congr
            apply hkeep
            exact Or.inl (hpx ▸ hrcol p (List.mem_cons_self ..))
          rw [hUx]
          have hchain' : chainTo ((relinkSeq s p.2).UpE) c fuel (s.UpE x) =
              some (rest.map Prod.fst) := by
            apply chainTo_congr (s.UpE) _ c fuel (s.UpE x) _ (hrest ▸ hl')
            intro y hy
            apply UpE_congr
            apply hkeep
            obtain ⟨p', hp', hy'⟩ := List.mem_map.mp hy
            exact Or.inl (hy' ▸ hrcol p' (List.mem_cons_of_mem _ hp'))
          have hLfun : (relinkSeq s p.2).LeftE = s.LeftE :=
            funext (fun y => LeftE_relinkSeq p.2 s y)
          have hrows' : ∀ p' ∈ rest, chainTo ((relinkSeq s p.2).LeftE) p'.1
              ((relinkSeq s p.2).elems.size + 1) ((relinkSeq s p.2).LeftE p'.1) =
              some p'.2 := by
            intro p' hp'
            rw [hLfun, size_relinkSeq]
            exact hrows p' (List.mem_cons_of_mem _ hp')
          have hcols : ∀ z, ((relinkSeq s p.2).get z).column = (s.get z).column :=
            fun z => relinkSeq_column p.2 s z
          have hvf' : VertFamOn (relinkSeq s p.2) ((rest.map Prod.snd).flatten) := by
            apply vertFamOn_relinkSeq p.2 ((rest.map Prod.snd).flatten) s
            · simpa only [List.map_cons, List.flatten_cons] using hnd
            · intro j hj
              apply hvf
              simp only [List.map_cons, List.flatten_cons]
              exact hj
            · intro j hj j' hj'
              apply hnh <;> simp only [List.map_cons, List.flatten_cons] <;> assumption
          have hid' : ColIdemOn (relinkSeq s p.2) ((rest.map Prod.snd).flatten) := by
            intro j hj
            rw [hcols, hcols]
            exact hid j (hsubR j hj)
          have hnh' : NoHeadOn (relinkSeq s p.2) ((rest.map Prod.snd).flatten) := by
            intro j hj j' hj'
            rw [hcols]
            exact hnh j (hsubR j hj) j' (hsubR j' hj')
          have hnc' : ∀ j ∈ (rest.map Prod.snd).flatten,
              ((relinkSeq s p.2).get j).column ≠ c := by
            intro j hj
            rw [hcols]
            exact hnc j (hsubR j hj)
          have hcc' : ((relinkSeq s p.2).get c).column = c := by rw [hcols]; exact hcc
          have hrcol' : ∀ p' ∈ rest, ((relinkSeq s p.2).get p'.1).column = c := by
            intro p' hp'
            rw [hcols]
            exact hrcol p' (List.mem_cons_of_mem _ hp')
          rw [ih rest (relinkSeq s p.2) (s.UpE x) hchain' hrows' hndR hvf' hid' hnh'
            hnc' hcc' hrcol']
          simp only [List.map_cons, List.flatten_cons]
          rw [relinkSeq_append]
      · exact absurd hchain (by simp)

/-! ### The header unlink/relink pair -/

/-- Decomposition of `hdrUnlink` with snapshot indices, provided the header
is not its own right neighbor. -/
theorem hdrUnlink_decomp (s : Matrix) (c : Nat) (hrc : (s.get c).right ≠ c) :
    hdrUnlink s c =
      (s.updLeft ((s.get c).right) ((s.get c).left)).updRight ((s.get c).left)
        ((s.get c).right) := by
  have e0 : (s.updLeft ((s.get c).right) ((s.get c).left)).get c = s.get c := by
    rw [get_updLeft, if_neg]
    rintro ⟨h', _⟩
    exact hrc h'.symm
  rw [hdrUnlink]
  simp only [e0]

/-- `hdrUnlink` changes the `right` field only at the header's left
neighbor. -/
theorem hdrUnlink_right_of_ne (s : Matrix) (c y : Nat)
    (hrc : (s.get c).right ≠ c) (hy : y ≠ (s.get c).left) :
    ((hdrUnlink s c).get y).right = (s.get y).right := by
  rw [hdrUnlink_decomp s c hrc, get_updRight, if_neg, updLeft_right]
  rintro ⟨h', _⟩
  exact hy h'

/-- `hdrUnlink` changes the `left` field only at the header's right
neighbor. -/
theorem hdrUnlink_left_of_ne (s : Matrix) (c y : Nat)
    (hrc : (s.get c).right ≠ c) (hy : y ≠ (s.get c).right) :
    ((hdrUnlink s c).get y).left = (s.get y).left := by
  rw [hdrUnlink_decomp s c hrc, updRight_left, get_updLeft, if_neg]
  rintro ⟨h', _⟩
  exact hy h'

/-- Relinking the header immediately after unlinking it restores the
matrix, given horizontal ring symmetry at the header. -/
theorem hdrRelink_hdrUnlink (s : Matrix) (c : Nat)
    (h1 : (s.get ((s.get c).right)).left = c)
    (h2 : (s.get ((s.get c).left)).right = c)
    (hrc : (s.get c).right ≠ c) (hlc : (s.get c).left ≠ c) :
    hdrRelink (hdrUnlink s c) c = s := by
  rw [hdrUnlink_decomp s c hrc]
  set cr := (s.get c).right with hcr
  set cl := (s.get c).left with hcl
  have e1 : ((s.updLeft cr cl).updRight cl cr).get c = s.get c := by
    rw [get_updRight, if_neg, get_updLeft, if_neg]
    · rintro ⟨h', _⟩; exact hrc h'.symm
    · rintro ⟨h', _⟩; exact hlc h'.symm
  rw [hdrRelink]
  simp only [e1, ← hcr, ← hcl]
  have e2 : (((s.updLeft cr cl).updRight cl cr).updLeft cr c).get c = s.get c := by
    rw [get_updLeft, if_neg, e1]
    rintro ⟨h', _⟩; exact hrc h'.symm
  rw [e2, ← hcl]
  apply Matrix.ext_get
  · simp
  · intro x
    simp only [get_updRight, get_updLeft, size_updLeft, size_updRight]
    by_cases hxl : x = cl ∧ cl < s.elems.size <;> by_cases hxr : x = cr ∧ cr < s.elems.size
    · simp only [if_pos hxl, if_pos hxr]
      apply elemExt <;> simp
      · rw [← hxr.1] at h1; exact h1.symm
      · rw [← hxl.1] at h2; exact h2.symm
    · simp only [if_pos hxl, if_neg hxr]
      apply elemExt <;> simp
      rw [← hxl.1] at h2; exact h2.symm
    · simp only [if_neg hxl, if_pos hxr]
      apply elemExt <;> simp
      rw [← hxr.1] at h1; exact h1.symm
    · simp only [if_neg hxl, if_neg hxr]
  · simp [hdrUnlink, hdrRelink]
  · simp [hdrUnlink, hdrRelink]

/-! ### Preservation of the vertical-family invariant on the full list -/

/-- Unlinking any member preserves the vertical-family invariant on the
whole list, including the member itself. -/
theorem vertFamOn_unlink_full (s : Matrix) (j : Nat) (J : List Nat)
    (hvf : VertFamOn s J) (hNoHd : NoHeadOn s J) (hj : j ∈ J) :
    VertFamOn (unlinkV s j) J := by
  intro j' hj'
  obtain ⟨hu', hd'⟩ := hvf j' hj'
  obtain ⟨huJ, hdJ⟩ := hvf j hj
  have hcol : ∀ x, ((unlinkV s j).get x).column = (s.get x).column :=
    fun x => unlinkV_column s j x
  have htrans : ∀ d x, inFam (unlinkV s j) d x ↔ inFam s d x :=
    fun d x => inFam_congr s (unlinkV s j) d x (hcol x)
  constructor
  · rw [hcol j', htrans, unlink_up]
    split_ifs with h1
    · rcases hdJ with hc | hc
      · rw [← h1.1] at hc
        rw [hc]
        exact huJ
      · exact absurd (by rw [← hc, ← h1.1] : (s.get j).column = j') (hNoHd j hj j' hj')
    · exact hu'
  · rw [hcol j', htrans, unlink_down]
    split_ifs with h1
    · rcases huJ with hc | hc
      · rw [← h1.1] at hc
        rw [hc]
        exact hdJ
      · exact absurd (by rw [← hc, ← h1.1] : (s.get j).column = j') (hNoHd j hj j' hj')
    · exact hd'

/-- The vertical-family invariant survives any fold of unlinks of members. -/
theorem vertFamOn_unlinkSeq_full : ∀ (J1 J : List Nat) (s : Matrix),
    VertFamOn s J → NoHeadOn s J → (∀ j ∈ J1, j ∈ J) →
    VertFamOn (unlinkSeq s J1) J
  | [], _, _ => fun h _ _ => h
  | j :: J1, J, s => fun hvf hnh hsub => by
    have step : VertFamOn (unlinkV s j) J :=
      vertFamOn_unlink_full s j J hvf hnh (hsub j (List.mem_cons_self ..))
    have hcols : ∀ x, ((unlinkV s j).get x).column = (s.get x).column :=
      fun x => unlinkV_column s j x
    have hnh' : NoHeadOn (unlinkV s j) J := by
      intro x hx x' hx'
      rw [hcols]
      exact hnh x hx x' hx'
    exact vertFamOn_unlinkSeq_full J1 J (unlinkV s j) step hnh'
      (fun j' hj' => hsub j' (List.mem_cons_of_mem _ hj'))

/-! ### Transfer of well-formedness across `hdrUnlink` -/

theorem DownE_hdrUnlink (s : Matrix) (c y : Nat) :
    (hdrUnlink s c).DownE y = s.DownE y := by
  rw [Matrix.DownE, Matrix.DownE, hdrUnlink_mat, hdrUnlink_down]

theorem UpE_hdrUnlink (s : Matrix) (c y : Nat) :
    (hdrUnlink s c).UpE y = s.UpE y := by
  rw [Matrix.UpE, Matrix.UpE, hdrUnlink_mat, hdrUnlink_up]

theorem RightE_hdrUnlink_of_ne (s : Matrix) (c y : Nat)
    (hrc : (s.get c).right ≠ c) (hy : y ≠ (s.get c).left) :
    (hdrUnlink s c).RightE y = s.RightE y := by
  rw [Matrix.RightE, Matrix.RightE, hdrUnlink_mat, hdrUnlink_right_of_ne s c y hrc hy]

theorem LeftE_hdrUnlink_of_ne (s : Matrix) (c y : Nat)
    (hrc : (s.get c).right ≠ c) (hy : y ≠ (s.get c).right) :
    (hdrUnlink s c).LeftE y = s.LeftE y := by
  rw [Matrix.LeftE, Matrix.LeftE, hdrUnlink_mat, hdrUnlink_left_of_ne s c y hrc hy]

theorem vsymOn_hdrUnlink (s : Matrix) (c : Nat) (L : List Nat) (h : VSymOn s L) :
    VSymOn (hdrUnlink s c) L := by
  intro x hx
  constructor
  · rw [hdrUnlink_up, hdrUnlink_down]
    exact (h x hx).1
  · rw [hdrUnlink_down, hdrUnlink_up]
    exact (h x hx).2

theorem vclosed_hdrUnlink (s : Matrix) (c : Nat) (L : List Nat) (h : VClosed s L) :
    VClosed (hdrUnlink s c) L := by
  intro x hx
  rw [hdrUnlink_down, hdrUnlink_up]
  exact h x hx

theorem boundsOn_hdrUnlink (s : Matrix) (c : Nat) (L : List Nat) (h : BoundsOn s L) :
    BoundsOn (hdrUnlink s c) L := by
  intro x hx
  rw [size_hdrUnlink]
  exact h x hx

theorem valsOK_hdrUnlink (s : Matrix) (c : Nat) (h : ValsOK s) : ValsOK (hdrUnlink s c) := by
  intro i hi n sz hv
  rw [size_hdrUnlink] at hi
  rw [hdrUnlink_val] at hv
  exact h i hi n sz hv

/-- Reversing a list of lists and each of its members reverses the
concatenation. -/
theorem flatten_map_reverse : ∀ (L : List (List Nat)),
    ((L.map List.reverse).reverse).flatten = L.flatten.reverse
  | [] => rfl
  | l :: L => by
    simp only [List.map_cons, List.reverse_cons, List.flatten_append, List.flatten_cons,
      List.reverse_append, flatten_map_reverse L]
    simp

/-! ### The cover/uncover inverse law -/

/-- The full inverse law for the source-level `cover` and `uncover`
operations.  The hypotheses describe the well-formed shape of column `c` in
matrix `s`: its vertical ring yields the rows `rows` (down and up chains,
each row's right and left chains), the unlinked elements form `seq` with
vertical pointers inside their own (self-referential, distinct from `c`)
column families, `L` is a vertically symmetric closed superset (all column
rings), the stored sizes are reduced residues, and the header ring is
symmetric at `c`.  Under these conditions `uncover(c)` run immediately
after `cover(c)` restores the matrix exactly. -/
theorem cover_uncover (s : Matrix) (c : Nat) (rows : List (Nat × List Nat)) (L : List Nat)
    (hDn : chainTo (s.DownE) c (s.elems.size + 1) (s.DownE c) = some (rows.map Prod.fst))
    (hUp : chainTo (s.UpE) c (s.elems.size + 1) (s.UpE c) =
      some (rows.map Prod.fst).reverse)
    (hR : ∀ p ∈ rows, chainTo (s.RightE) p.1 (s.elems.size + 1) (s.RightE p.1) = some p.2)
    (hL : ∀ p ∈ rows, chainTo (s.LeftE) p.1 (s.elems.size + 1) (s.LeftE p.1) =
      some p.2.reverse)
    (hseqnd : ((rows.map Prod.snd).flatten).Nodup)
    (hvf : VertFamOn s ((rows.map Prod.snd).flatten))
    (hid : ColIdemOn s ((rows.map Prod.snd).flatten))
    (hnh : NoHeadOn s ((rows.map Prod.snd).flatten))
    (hnc : ∀ j ∈ (rows.map Prod.snd).flatten, (s.get j).column ≠ c)
    (hcc : (s.get c).column = c)
    (hrcol : ∀ p ∈ rows, (s.get p.1).column = c)
    (hLnd : L.Nodup) (hLsym : VSymOn s L) (hLcl : VClosed s L) (hLbd : BoundsOn s L)
    (hvals : ValsOK s)
    (hsubL : ∀ j ∈ (rows.map Prod.snd).flatten, j ∈ L)
    (hH1 : (s.get ((s.get c).right)).left = c)
    (hH2 : (s.get ((s.get c).left)).right = c)
    (hrcne : (s.get c).right ≠ c) (hlcne : (s.get c).left ≠ c)
    (hhdrL : ∀ p ∈ rows, (s.get c).left ≠ p.1 ∧ (s.get c).left ∉ p.2)
    (hhdrR : ∀ p ∈ rows, (s.get c).right ≠ p.1 ∧ (s.get c).right ∉ p.2) :
    (s.cover c).uncover c = s := by
  set seq := (rows.map Prod.snd).flatten with hseqdef
  set s0 := hdrUnlink s c with hs0def
  have hget0 : ∀ y, (s0.get y).column = (s.get y).column := fun y => hdrUnlink_column ..
  have hup0 : ∀ y, (s0.get y).up = (s.get y).up := fun y => hdrUnlink_up ..
  have hdn0 : ∀ y, (s0.get y).down = (s.get y).down := fun y => hdrUnlink_down ..
  have hsz0 : s0.elems.size = s.elems.size := size_hdrUnlink ..
  have hDfun : s0.DownE = s.DownE := funext fun y => DownE_hdrUnlink ..
  have hvf0 : VertFamOn s0 seq := by
    intro j hj
    obtain ⟨h1, h2⟩ := hvf j hj
    constructor
    · rw [hget0, hup0]
      exact (inFam_congr s s0 _ _ (hget0 _)).mpr h1
    · rw [hget0, hdn0]
      exact (inFam_congr s s0 _ _ (hget0 _)).mpr h2
  have hid0 : ColIdemOn s0 seq := fun j hj => by rw [hget0, hget0]; exact hid j hj
  have hnh0 : NoHeadOn s0 seq := fun j hj j' hj' => by rw [hget0]; exact hnh j hj j' hj'
  have hnc0 : ∀ j ∈ seq, (s0.get j).column ≠ c := fun j hj => by
    rw [hget0]; exact hnc j hj
  have hcc0 : (s0.get c).column = c := by rw [hget0]; exact hcc
  have hrcol0 : ∀ p ∈ rows, (s0.get p.1).column = c := fun p hp => by
    rw [hget0]; exact hrcol p hp
  -- the cover call unfolds to the fold of unlinks after the header unlink
  have hcover : s.cover c = unlinkSeq s0 seq := by
    rw [Matrix.cover]
    show coverCols s0 (s0.elems.size + 1) c (s0.DownE c) = unlinkSeq s0 seq
    apply coverCols_eq c (s0.elems.size + 1) rows s0 (s0.DownE c) _ _ hvf0 hid0 hnh0
      hnc0 hcc0 hrcol0
    · rw [hDfun, hsz0]
      exact hDn
    · intro p hp
      have hstart : s0.RightE p.1 = s.RightE p.1 :=
        RightE_hdrUnlink_of_ne s c p.1 hrcne (fun h' => (hhdrL p hp).1 h'.symm)
      rw [hsz0, hstart]
      apply chainTo_congr (s.RightE) (s0.RightE) p.1 _ _ p.2 (hR p hp)
      intro y hy
      exact RightE_hdrUnlink_of_ne s c y hrcne (fun h' => (hhdrL p hp).2 (h' ▸ hy))
  -- the state reached after cover
  set s1 := unlinkSeq s0 seq with hs1def
  have hcols1 : ∀ z, (s1.get z).column = (s.get z).column := fun z => by
    rw [hs1def, unlinkSeq_column, hget0]
  have hsz1 : s1.elems.size = s.elems.size := by rw [hs1def, size_unlinkSeq, hsz0]
  have hkeep1 : ∀ y, inFam s c y → s1.get y = s0.get y := by
    intro y hy
    rw [hs1def]
    apply unlinkSeq_keep_fam c seq s0 y hvf0 hid0 hnh0 hnc0 hcc0
    exact (inFam_congr s s0 c y (hget0 y)).mpr hy
  have hmat1 : ∀ z, (s1.get z).mat = (s.get z).mat := fun z => by
    rw [hs1def, unlinkSeq_mat, hdrUnlink_mat]
  have hUpE1 : ∀ y, inFam s c y → s1.UpE y = s.UpE y := by
    intro y hy
    rw [Matrix.UpE, Matrix.UpE, hmat1, hkeep1 y hy, hup0]
  have hLeftE1 : ∀ y, y ≠ (s.get c).right → s1.LeftE y = s.LeftE y := by
    intro y hy
    rw [hs1def, LeftE_unlinkSeq]
    exact LeftE_hdrUnlink_of_ne s c y hrcne hy
  have hvf1 : VertFamOn s1 seq := by
    rw [hs1def]
    exact vertFamOn_unlinkSeq_full seq seq s0 hvf0 hnh0 (fun j h => h)
  -- the reversed row structure traversed by uncover
  set rrows := rows.reverse.map (fun p : Nat × List Nat => (p.1, p.2.reverse)) with hrrdef
  have hrrfst : rrows.map Prod.fst = (rows.map Prod.fst).reverse := by
    rw [hrrdef, List.map_map, List.map_reverse]
    rfl
  have hrrsnd : (rrows.map Prod.snd).flatten = seq.reverse := by
    rw [hrrdef, List.map_map]
    have hcomp : (Prod.snd ∘ fun p : Nat × List Nat => (p.1, p.2.reverse)) =
        List.reverse ∘ Prod.snd := rfl
    rw [hcomp]
    rw [show List.map (List.reverse ∘ Prod.snd) rows.reverse
        = ((rows.map Prod.snd).map List.reverse).reverse from by
      rw [← List.map_map, List.map_reverse, List.map_reverse]]
    exact flatten_map_reverse _
  -- the uncover call unfolds to the fold of relinks
  have hunc1 : uncoverCols s1 (s1.elems.size + 1) c (s1.UpE c) =
      relinkSeq s1 (seq.reverse) := by
    rw [← hrrsnd]
    apply uncoverCols_eq c (s1.elems.size + 1) rrows s1 (s1.UpE c)
    · rw [hrrfst, hsz1, hUpE1 c (inFam_head s c)]
      apply chainTo_congr (s.UpE) (s1.UpE) c _ _ _ hUp
      intro y hy
      apply hUpE1
      rw [List.mem_reverse] at hy
      obtain ⟨p, hp, rfl⟩ := List.mem_map.mp hy
      exact Or.inl (hrcol p hp)
    · intro p' hp'
      rw [hrrdef] at hp'
      obtain ⟨q, hq, rfl⟩ := List.mem_map.mp hp'
      rw [List.mem_reverse] at hq
      show chainTo (s1.LeftE) q.1 (s1.elems.size + 1) (s1.LeftE q.1) = some q.2.reverse
      rw [hsz1, hLeftE1 q.1 (fun h' => (hhdrR q hq).1 h'.symm)]
      apply chainTo_congr (s.LeftE) (s1.LeftE) q.1 _ _ _ (hL q hq)
      intro y hy
      apply hLeftE1
      rw [List.mem_reverse] at hy
      exact fun h' => (hhdrR q hq).2 (h' ▸ hy)
    · rw [hrrsnd]
      exact List.nodup_reverse.mpr hseqnd
    · rw [hrrsnd]
      intro j hj
      exact hvf1 j (List.mem_reverse.mp hj)
    · rw [hrrsnd]
      intro j hj
      rw [hcols1, hcols1]
      exact hid j (List.mem_reverse.mp hj)
    · rw [hrrsnd]
      intro j hj j' hj'
      rw [hcols1]
      exact hnh j (List.mem_reverse.mp hj) j' (List.mem_reverse.mp hj')
    · rw [hrrsnd]
      intro j hj
      rw [hcols1]
      exact hnc j (List.mem_reverse.mp hj)
    · rw [hcols1]
      exact hcc
    · intro p' hp'
      rw [hrrdef] at hp'
      obtain ⟨q, hq, rfl⟩ := List.mem_map.mp hp'
      rw [List.mem_reverse] at hq
      show (s1.get q.1).column = c
      rw [hcols1]
      exact hrcol q hq
  -- the fold of relinks restores the post-header-unlink state
  have hrelink : relinkSeq s1 (seq.reverse) = s0 := by
    rw [hs1def]
    exact relinkSeq_unlinkSeq seq s0 L hLnd (vsymOn_hdrUnlink s c L hLsym)
      (vclosed_hdrUnlink s c L hLcl) (boundsOn_hdrUnlink s c L hLbd)
      (valsOK_hdrUnlink s c hvals) hseqnd hsubL
  -- assemble
  rw [hcover]
  rw [Matrix.uncover]
  show hdrRelink (uncoverCols s1 (s1.elems.size + 1) c (s1.UpE c)) c = s
  rw [hunc1, hrelink, hs0def]
  exact hdrRelink_hdrUnlink s c hH1 hH2 hrcne hlcne

/-! ### The column-selection heuristic -/

/-- The header-ring scan of `getColumn` as a list: the headers visited by
`for ce := m.Head(); ce != nil; ce = ce.Right()`. -/
def hChain (s : Matrix) : Option (List Nat) :=
  chainTo (s.RightE) 0 (s.elems.size + 1) s.HeadE

/-- The `ce.Value.(Head).size` read performed by `getColumn`. -/
def hdSize (s : Matrix) (x : Nat) : Nat :=
  match (s.get x).val with
  | Val.vhead _ n => n
  | _ => 0

/-- The pure fold over the scanned header list equivalent to the
`getColumn` loop. -/
def foldPick (s : Matrix) : List Nat → Nat → Nat → Nat
  | [], c, _ => c
  | ce :: l, c, sz =>
    if hdSize s ce < sz then foldPick s l ce (hdSize s ce) else foldPick s l c sz

theorem getColLoop_eq_foldPick (s : Matrix) : ∀ (fuel : Nat) (x : Nat) (l : List Nat)
    (c sz : Nat), chainTo (s.RightE) 0 fuel x = some l →
    getColLoop s fuel x c sz = foldPick s l c sz := by
  intro fuel
  induction fuel with
  | zero => intro x l c sz h; exact absurd h (by simp [chainTo])
  | succ fuel ih =>
    intro x l c sz h
    rw [chainTo] at h
    rw [getColLoop]
    split at h
    · rename_i hx
      cases h
      rw [if_pos hx]
      rfl
    · rename_i hx
      rw [if_neg hx]
      split at h
      · rename_i l' hl'
        cases h
        show (if hdSize s x < sz then getColLoop s fuel (s.RightE x) x (hdSize s x)
          else getColLoop s fuel (s.RightE x) c sz) = foldPick s (x :: l') c sz
        rw [foldPick]
        split_ifs with hlt
        · exact ih (s.RightE x) l' x (hdSize s x) hl'
        · exact ih (s.RightE x) l' c sz hl'
      · exact absurd h (by simp)

/-- The fold, started at a candidate `c` whose recorded size is the running
minimum, returns either `c` itself (when nothing beats it) or the first
strictly better element of the list, which is then minimal among the rest. -/
theorem foldPick_spec (s : Matrix) : ∀ (l : List Nat) (c : Nat),
    (foldPick s l c (hdSize s c) = c ∧ ∀ x ∈ l, hdSize s c ≤ hdSize s x) ∨
    (∃ l1 l2, l = l1 ++ foldPick s l c (hdSize s c) :: l2 ∧
      hdSize s (foldPick s l c (hdSize s c)) < hdSize s c ∧
      (∀ x ∈ l1, hdSize s (foldPick s l c (hdSize s c)) < hdSize s x) ∧
      (∀ x ∈ l2, hdSize s (foldPick s l c (hdSize s c)) ≤ hdSize s x)) := by
  intro l
  induction l with
  | nil =>
    intro c
    left
    exact ⟨rfl, by simp⟩
  | cons a rest ih =>
    intro c
    rw [foldPick]
    split_ifs with hlt
    · -- a strictly beats c: restart at a
      rcases ih a with ⟨heq, hmin⟩ | ⟨l1, l2, hdec, hlt2, hl1, hl2⟩
      · right
        rw [heq]
        exact ⟨[], rest, by simp, hlt, by simp, hmin⟩
      · right
        refine ⟨a :: l1, l2, ?_, lt_trans hlt2 hlt, ?_, hl2⟩
        · conv_lhs => rw [hdec]
          simp
        · intro x hx
          rcases List.mem_cons.mp hx with rfl | hx'
          · exact hlt2
          · exact hl1 x hx'
    · -- c survives a
      push_neg at hlt
      rcases ih c with ⟨heq, hmin⟩ | ⟨l1, l2, hdec, hlt2, hl1, hl2⟩
      · left
        refine ⟨heq, ?_⟩
        intro x hx
        rcases List.mem_cons.mp hx with rfl | hx'
        · exact hlt
        · exact hmin x hx'
      · right
        refine ⟨a :: l1, l2, ?_, hlt2, ?_, hl2⟩
        · conv_lhs => rw [hdec]
          simp
        · intro x hx
          rcases List.mem_cons.mp hx with rfl | hx'
          · exact lt_of_lt_of_le hlt2 hlt
          · exact hl1 x hx'

/-- `getColumn` selects the live header with minimum size, ties broken in
favor of the first such header in the scan: it is strictly smaller than
every earlier header and no larger than every later one. -/
theorem getColumn_min (s : Matrix) (l : List Nat)
    (hchain : hChain s = some l) (hne : l ≠ [])
    (hsz : ∀ x ∈ l, hdSize s x < M64 - 1) :
    ∃ l1 l2, l = l1 ++ s.getColumn :: l2 ∧
      (∀ x ∈ l1, hdSize s s.getColumn < hdSize s x) ∧
      (∀ x ∈ l2, hdSize s s.getColumn ≤ hdSize s x) := by
  match l, hne with
  | a :: rest, _ =>
    have hfold : s.getColumn = foldPick s (a :: rest) 0 (M64 - 1) := by
      rw [Matrix.getColumn]
      exact getColLoop_eq_foldPick s (s.elems.size + 1) s.HeadE (a :: rest) 0 (M64 - 1)
        hchain
    have hstep : foldPick s (a :: rest) 0 (M64 - 1) = foldPick s rest a (hdSize s a) := by
      rw [foldPick, if_pos (hsz a (List.mem_cons_self ..))]
    rcases foldPick_spec s rest a with ⟨heq, hmin⟩ | ⟨l1, l2, hdec, hlt2, hl1, hl2⟩
    · refine ⟨[], rest, ?_, by simp, ?_⟩
      · rw [hfold, hstep, heq]
        simp
      · intro x hx
        rw [hfold, hstep, heq]
        exact hmin x hx
    · refine ⟨a :: l1, l2, ?_, ?_, ?_⟩
      · rw [hfold, hstep]
        conv_lhs => rw [hdec]
        simp
      · intro x hx
        rw [hfold, hstep]
        rcases List.mem_cons.mp hx with rfl | hx'
        · exact hlt2
        · exact hl1 x hx'
      · intro x hx
        rw [hfold, hstep]
        exact hl2 x hx

/-! ### The format of recorded solutions -/

/-- Concatenation of a list of strings. -/
def joinStrs : List String → String
  | [] => ""
  | a :: l => a ++ joinStrs l

/-- The row ring of a chosen row element, as scanned by the recorder:
`for e := m.o[i].Right(); e != m.o[i]; e = e.Right()`. -/
def rowChain (s : Matrix) (oi : Nat) : Option (List Nat) :=
  chainTo (s.RightE) oi (s.elems.size + 1) (s.RightE oi)

theorem rowStrLoop_eq (s : Matrix) : ∀ (fuel : Nat) (oi x : Nat) (l : List Nat)
    (acc : String), chainTo (s.RightE) oi fuel x = some l →
    rowStrLoop s fuel oi x acc =
      acc ++ joinStrs (l.map (fun e => " " ++ s.colName e)) := by
  intro fuel
  induction fuel with
  | zero => intro oi x l acc h; exact absurd h (by simp [chainTo])
  | succ fuel ih =>
    intro oi x l acc h
    rw [chainTo] at h
    rw [rowStrLoop]
    split at h
    · rename_i hx
      cases h
      rw [if_pos hx]
      show acc = acc ++ joinStrs []
      rw [joinStrs, String.append_empty]
    · rename_i hx
      rw [if_neg hx]
      split at h
      · rename_i l' hl'
        cases h
        rw [ih oi (s.RightE x) l' (acc ++ " " ++ s.colName x) hl']
        show acc ++ " " ++ s.colName x ++ joinStrs (l'.map (fun e => " " ++ s.colName e)) =
          acc ++ ((" " ++ s.colName x) ++ joinStrs (l'.map (fun e => " " ++ s.colName e)))
        simp only [String.append_assoc]
      · exact absurd h (by simp)

/-- The string recorded for a chosen row element is its own column's name
followed by the other columns' names in row-ring order, space-separated. -/
theorem rowString_eq (s : Matrix) (oi : Nat) (l : List Nat)
    (h : rowChain s oi = some l) :
    s.rowString oi = s.colName oi ++ joinStrs (l.map (fun e => " " ++ s.colName e)) :=
  rowStrLoop_eq s (s.elems.size + 1) oi (s.RightE oi) l (s.colName oi) h

/-- At a success leaf (empty header ring) the search appends exactly one
solution: one string per chosen row, each being the stored row element's
column name followed by the names of the columns of its row-ring
successors, space-separated, in ring order. -/
theorem search_leaf_format (s : Matrix) (fuel k : Nat) (h : s.HeadE = 0)
    (hch : ∀ oi ∈ s.o, (rowChain s oi).isSome) :
    search (fuel + 1) s k = { s with solutions := s.solutions ++
      [s.o.map (fun oi => s.colName oi ++
        joinStrs (((rowChain s oi).getD []).map (fun e => " " ++ s.colName e)))] } := by
  rw [search, if_pos h]
  have : s.o.map s.rowString = s.o.map (fun oi => s.colName oi ++
      joinStrs (((rowChain s oi).getD []).map (fun e => " " ++ s.colName e))) := by
    apply List.map_congr_left
    intro oi hoi
    obtain ⟨l, hl⟩ := Option.isSome_iff_exists.mp (hch oi hoi)
    rw [rowString_eq s oi l hl, hl]
    rfl
  rw [this]

/-! ### The search does not read the accumulated solutions -/

/-- Replace the solutions accumulator. -/
def withSol (s : Matrix) (X : List (List String)) : Matrix := { s with solutions := X }

theorem withSol_self (s : Matrix) : withSol s s.solutions = s := rfl

@[simp] theorem get_withSol (s : Matrix) (X : List (List String)) (i : Nat) :
    (withSol s X).get i = s.get i := rfl

@[simp] theorem size_withSol (s : Matrix) (X : List (List String)) :
    (withSol s X).elems.size = s.elems.size := rfl

@[simp] theorem o_withSol (s : Matrix) (X : List (List String)) :
    (withSol s X).o = s.o := rfl

@[simp] theorem sol_withSol (s : Matrix) (X : List (List String)) :
    (withSol s X).solutions = X := rfl

theorem set_withSol (s : Matrix) (X : List (List String)) (i : Nat) (e : Elem) :
    (withSol s X).set i e = withSol (s.set i e) X := rfl

theorem updUp_withSol (s : Matrix) (X : List (List String)) (i v : Nat) :
    (withSol s X).updUp i v = withSol (s.updUp i v) X := rfl

theorem updDown_withSol (s : Matrix) (X : List (List String)) (i v : Nat) :
    (withSol s X).updDown i v = withSol (s.updDown i v) X := rfl

theorem updLeft_withSol (s : Matrix) (X : List (List String)) (i v : Nat) :
    (withSol s X).updLeft i v = withSol (s.updLeft i v) X := rfl

theorem updRight_withSol (s : Matrix) (X : List (List String)) (i v : Nat) :
    (withSol s X).updRight i v = withSol (s.updRight i v) X := rfl

theorem decSize_withSol (s : Matrix) (X : List (List String)) (i : Nat) :
    (withSol s X).decSize i = withSol (s.decSize i) X := by
  rw [decSize_eq, decSize_eq]
  rfl

theorem incSize_withSol (s : Matrix) (X : List (List String)) (i : Nat) :
    (withSol s X).incSize i = withSol (s.incSize i) X := by
  rw [incSize_eq, incSize_eq]
  rfl

theorem unlinkV_withSol (s : Matrix) (X : List (List String)) (j : Nat) :
    unlinkV (withSol s X) j = withSol (unlinkV s j) X := by
  simp only [unlinkV, get_withSol, updUp_withSol, updDown_withSol, decSize_withSol]

theorem relinkV_withSol (s : Matrix) (X : List (List String)) (j : Nat) :
    relinkV (withSol s X) j = withSol (relinkV s j) X := by
  simp only [relinkV, get_withSol, incSize_withSol, updUp_withSol, updDown_withSol]

theorem hdrUnlink_withSol (s : Matrix) (X : List (List String)) (c : Nat) :
    hdrUnlink (withSol s X) c = withSol (hdrUnlink s c) X := by
  simp only [hdrUnlink, get_withSol, updLeft_withSol, updRight_withSol]

theorem hdrRelink_withSol (s : Matrix) (X : List (List String)) (c : Nat) :
    hdrRelink (withSol s X) c = withSol (hdrRelink s c) X := by
  simp only [hdrRelink, get_withSol, updLeft_withSol, updRight_withSol]

theorem RightE_withSol (s : Matrix) (X : List (List String)) (e : Nat) :
    (withSol s X).RightE e = s.RightE e := rfl

theorem LeftE_withSol (s : Matrix) (X : List (List String)) (e : Nat) :
    (withSol s X).LeftE e = s.LeftE e := rfl

theorem UpE_withSol (s : Matrix) (X : List (List String)) (e : Nat) :
    (withSol s X).UpE e = s.UpE e := rfl

theorem DownE_withSol (s : Matrix) (X : List (List String)) (e : Nat) :
    (withSol s X).DownE e = s.DownE e := rfl

theorem HeadE_withSol (s : Matrix) (X : List (List String)) :
    (withSol s X).HeadE = s.HeadE := rfl

theorem coverRow_withSol : ∀ (fuel : Nat) (s : Matrix) (X : List (List String)) (i j : Nat),
    coverRow (withSol s X) fuel i j = withSol (coverRow s fuel i j) X
  | 0, _, _, _, _ => rfl
  | fuel + 1, s, X, i, j => by
    simp only [coverRow]
    split_ifs with h
    · rfl
    · simp only [unlinkV_withSol, RightE_withSol]
      exact coverRow_withSol fuel (unlinkV s j) X i ((unlinkV s j).RightE j)

theorem uncoverRow_withSol : ∀ (fuel : Nat) (s : Matrix) (X : List (List String)) (i j : Nat),
    uncoverRow (withSol s X) fuel i j = withSol (uncoverRow s fuel i j) X
  | 0, _, _, _, _ => rfl
  | fuel + 1, s, X, i, j => by
    simp only [uncoverRow]
    split_ifs with h
    · rfl
    · simp only [relinkV_withSol, LeftE_withSol]
      exact uncoverRow_withSol fuel (relinkV s j) X i ((relinkV s j).LeftE j)

theorem coverCols_withSol : ∀ (fuel : Nat) (s : Matrix) (X : List (List String)) (c i : Nat),
    coverCols (withSol s X) fuel c i = withSol (coverCols s fuel c i) X
  | 0, _, _, _, _ => rfl
  | fuel + 1, s, X, c, i => by
    simp only [coverCols]
    split_ifs with h
    · rfl
    · simp only [size_withSol, RightE_withSol, coverRow_withSol, DownE_withSol]
      exact coverCols_withSol fuel _ X c _

theorem uncoverCols_withSol : ∀ (fuel : Nat) (s : Matrix) (X : List (List String)) (c i : Nat),
    uncoverCols (withSol s X) fuel c i = withSol (uncoverCols s fuel c i) X
  | 0, _, _, _, _ => rfl
  | fuel + 1, s, X, c, i => by
    simp only [uncoverCols]
    split_ifs with h
    · rfl
    · simp only [size_withSol, LeftE_withSol, uncoverRow_withSol, UpE_withSol]
      exact uncoverCols_withSol fuel _ X c _

theorem cover_withSol (s : Matrix) (X : List (List String)) (c : Nat) :
    (withSol s X).cover c = withSol (s.cover c) X := by
  rw [Matrix.cover, Matrix.cover]
  show coverCols (hdrUnlink (withSol s X) c) ((hdrUnlink (withSol s X) c).elems.size + 1) c
      ((hdrUnlink (withSol s X) c).DownE c) = _
  rw [hdrUnlink_withSol, size_withSol, DownE_withSol, coverCols_withSol]

theorem uncover_withSol (s : Matrix) (X : List (List String)) (c : Nat) :
    (withSol s X).uncover c = withSol (s.uncover c) X := by
  rw [Matrix.uncover, Matrix.uncover]
  show hdrRelink (uncoverCols (withSol s X) ((withSol s X).elems.size + 1) c
      ((withSol s X).UpE c)) c = _
  rw [size_withSol, UpE_withSol, uncoverCols_withSol, hdrRelink_withSol]

theorem coverJs_withSol : ∀ (fuel : Nat) (s : Matrix) (X : List (List String)) (r j : Nat),
    coverJs (withSol s X) fuel r j = withSol (coverJs s fuel r j) X
  | 0, _, _, _, _ => rfl
  | fuel + 1, s, X, r, j => by
    simp only [coverJs]
    split_ifs with h
    · rfl
    · simp only [get_withSol, cover_withSol, RightE_withSol]
      exact coverJs_withSol fuel _ X r _

theorem uncoverJs_withSol : ∀ (fuel : Nat) (s : Matrix) (X : List (List String)) (r j : Nat),
    uncoverJs (withSol s X) fuel r j = withSol (uncoverJs s fuel r j) X
  | 0, _, _, _, _ => rfl
  | fuel + 1, s, X, r, j => by
    simp only [uncoverJs]
    split_ifs with h
    · rfl
    · simp only [get_withSol, uncover_withSol, LeftE_withSol]
      exact uncoverJs_withSol fuel _ X r _

theorem colName_withSol (s : Matrix) (X : List (List String)) (e : Nat) :
    (withSol s X).colName e = s.colName e := rfl

theorem rowStrLoop_withSol : ∀ (fuel : Nat) (s : Matrix) (X : List (List String))
    (oi e : Nat) (acc : String),
    rowStrLoop (withSol s X) fuel oi e acc = rowStrLoop s fuel oi e acc
  | 0, _, _, _, _, _ => rfl
  | fuel + 1, s, X, oi, e, acc => by
    simp only [rowStrLoop]
    split_ifs with h
    · rfl
    · simp only [RightE_withSol, colName_withSol]
      exact rowStrLoop_withSol fuel s X oi _ _

theorem rowString_withSol (s : Matrix) (X : List (List String)) (oi : Nat) :
    (withSol s X).rowString oi = s.rowString oi := by
  rw [Matrix.rowString, Matrix.rowString, size_withSol, RightE_withSol, colName_withSol,
    rowStrLoop_withSol]

theorem getColLoop_withSol : ∀ (fuel : Nat) (s : Matrix) (X : List (List String))
    (ce c sz : Nat), getColLoop (withSol s X) fuel ce c sz = getColLoop s fuel ce c sz
  | 0, _, _, _, _, _ => rfl
  | fuel + 1, s, X, ce, c, sz => by
    simp only [getColLoop, get_withSol, RightE_withSol]
    split_ifs with h h2
    · rfl
    · exact getColLoop_withSol fuel s X _ _ _
    · exact getColLoop_withSol fuel s X _ _ _

theorem getColumn_withSol (s : Matrix) (X : List (List String)) :
    (withSol s X).getColumn = s.getColumn := by
  rw [Matrix.getColumn, Matrix.getColumn, size_withSol, HeadE_withSol, getColLoop_withSol]

theorem elems_withSol (s : Matrix) (X : List (List String)) :
    (withSol s X).elems = s.elems := rfl

/-- Replace the chosen-row stack. -/
def withO (s : Matrix) (Q : List Nat) : Matrix := { s with o := Q }

theorem withO_self (s : Matrix) : withO s s.o = s := rfl

@[simp] theorem get_withO (s : Matrix) (Q : List Nat) (i : Nat) :
    (withO s Q).get i = s.get i := rfl

@[simp] theorem size_withO (s : Matrix) (Q : List Nat) :
    (withO s Q).elems.size = s.elems.size := rfl

@[simp] theorem o_withO (s : Matrix) (Q : List Nat) :
    (withO s Q).o = Q := rfl

@[simp] theorem sol_withO (s : Matrix) (Q : List Nat) :
    (withO s Q).solutions = s.solutions := rfl

theorem set_withO (s : Matrix) (Q : List Nat) (i : Nat) (e : Elem) :
    (withO s Q).set i e = withO (s.set i e) Q := rfl

theorem updUp_withO (s : Matrix) (Q : List Nat) (i v : Nat) :
    (withO s Q).updUp i v = withO (s.updUp i v) Q := rfl

theorem updDown_withO (s : Matrix) (Q : List Nat) (i v : Nat) :
    (withO s Q).updDown i v = withO (s.updDown i v) Q := rfl

theorem updLeft_withO (s : Matrix) (Q : List Nat) (i v : Nat) :
    (withO s Q).updLeft i v = withO (s.updLeft i v) Q := rfl

theorem updRight_withO (s : Matrix) (Q : List Nat) (i v : Nat) :
    (withO s Q).updRight i v = withO (s.updRight i v) Q := rfl

theorem decSize_withO (s : Matrix) (Q : List Nat) (i : Nat) :
    (withO s Q).decSize i = withO (s.decSize i) Q := by
  rw [decSize_eq, decSize_eq]
  rfl

theorem incSize_withO (s : Matrix) (Q : List Nat) (i : Nat) :
    (withO s Q).incSize i = withO (s.incSize i) Q := by
  rw [incSize_eq, incSize_eq]
  rfl

theorem unlinkV_withO (s : Matrix) (Q : List Nat) (j : Nat) :
    unlinkV (withO s Q) j = withO (unlinkV s j) Q := by
  simp only [unlinkV, get_withO, updUp_withO, updDown_withO, decSize_withO]

theorem relinkV_withO (s : Matrix) (Q : List Nat) (j : Nat) :
    relinkV (withO s Q) j = withO (relinkV s j) Q := by
  simp only [relinkV, get_withO, incSize_withO, updUp_withO, updDown_withO]

theorem hdrUnlink_withO (s : Matrix) (Q : List Nat) (c : Nat) :
    hdrUnlink (withO s Q) c = withO (hdrUnlink s c) Q := by
  simp only [hdrUnlink, get_withO, updLeft_withO, updRight_withO]

theorem hdrRelink_withO (s : Matrix) (Q : List Nat) (c : Nat) :
    hdrRelink (withO s Q) c = withO (hdrRelink s c) Q := by
  simp only [hdrRelink, get_withO, updLeft_withO, updRight_withO]

theorem RightE_withO (s : Matrix) (Q : List Nat) (e : Nat) :
    (withO s Q).RightE e = s.RightE e := rfl

theorem LeftE_withO (s : Matrix) (Q : List Nat) (e : Nat) :
    (withO s Q).LeftE e = s.LeftE e := rfl

theorem UpE_withO (s : Matrix) (Q : List Nat) (e : Nat) :
    (withO s Q).UpE e = s.UpE e := rfl

theorem DownE_withO (s : Matrix) (Q : List Nat) (e : Nat) :
    (withO s Q).DownE e = s.DownE e := rfl

theorem HeadE_withO (s : Matrix) (Q : List Nat) :
    (withO s Q).HeadE = s.HeadE := rfl

theorem coverRow_withO : ∀ (fuel : Nat) (s : Matrix) (Q : List Nat) (i j : Nat),
    coverRow (withO s Q) fuel i j = withO (coverRow s fuel i j) Q
  | 0, _, _, _, _ => rfl
  | fuel + 1, s, Q, i, j => by
    simp only [coverRow]
    split_ifs with h
    · rfl
    · simp only [unlinkV_withO, RightE_withO]
      exact coverRow_withO fuel (unlinkV s j) Q i ((unlinkV s j).RightE j)

theorem uncoverRow_withO : ∀ (fuel : Nat) (s : Matrix) (Q : List Nat) (i j : Nat),
    uncoverRow (withO s Q) fuel i j = withO (uncoverRow s fuel i j) Q
  | 0, _, _, _, _ => rfl
  | fuel + 1, s, Q, i, j => by
    simp only [uncoverRow]
    split_ifs with h
    · rfl
    · simp only [relinkV_withO, LeftE_withO]
      exact uncoverRow_withO fuel (relinkV s j) Q i ((relinkV s j).LeftE j)

theorem coverCols_withO : ∀ (fuel : Nat) (s : Matrix) (Q : List Nat) (c i : Nat),
    coverCols (withO s Q) fuel c i = withO (coverCols s fuel c i) Q
  | 0, _, _, _, _ => rfl
  | fuel + 1, s, Q, c, i => by
    simp only [coverCols]
    split_ifs with h
    · rfl
    · simp only [size_withO, RightE_withO, coverRow_withO, DownE_withO]
      exact coverCols_withO fuel _ Q c _

theorem uncoverCols_withO : ∀ (fuel : Nat) (s : Matrix) (Q : List Nat) (c i : Nat),
    uncoverCols (withO s Q) fuel c i = withO (uncoverCols s fuel c i) Q
  | 0, _, _, _, _ => rfl
  | fuel + 1, s, Q, c, i => by
    simp only [uncoverCols]
    split_ifs with h
    · rfl
    · simp only [size_withO, LeftE_withO, uncoverRow_withO, UpE_withO]
      exact uncoverCols_withO fuel _ Q c _

theorem cover_withO (s : Matrix) (Q : List Nat) (c : Nat) :
    (withO s Q).cover c = withO (s.cover c) Q := by
  rw [Matrix.cover, Matrix.cover]
  show coverCols (hdrUnlink (withO s Q) c) ((hdrUnlink (withO s Q) c).elems.size + 1) c
      ((hdrUnlink (withO s Q) c).DownE c) = _
  rw [hdrUnlink_withO, size_withO, DownE_withO, coverCols_withO]

theorem uncover_withO (s : Matrix) (Q : List Nat) (c : Nat) :
    (withO s Q).uncover c = withO (s.uncover c) Q := by
  rw [Matrix.uncover, Matrix.uncover]
  show hdrRelink (uncoverCols (withO s Q) ((withO s Q).elems.size + 1) c
      ((withO s Q).UpE c)) c = _
  rw [size_withO, UpE_withO, uncoverCols_withO, hdrRelink_withO]

theorem coverJs_withO : ∀ (fuel : Nat) (s : Matrix) (Q : List Nat) (r j : Nat),
    coverJs (withO s Q) fuel r j = withO (coverJs s fuel r j) Q
  | 0, _, _, _, _ => rfl
  | fuel + 1, s, Q, r, j => by
    simp only [coverJs]
    split_ifs with h
    · rfl
    · simp only [get_withO, cover_withO, RightE_withO]
      exact coverJs_withO fuel _ Q r _

theorem uncoverJs_withO : ∀ (fuel : Nat) (s : Matrix) (Q : List Nat) (r j : Nat),
    uncoverJs (withO s Q) fuel r j = withO (uncoverJs s fuel r j) Q
  | 0, _, _, _, _ => rfl
  | fuel + 1, s, Q, r, j => by
    simp only [uncoverJs]
    split_ifs with h
    · rfl
    · simp only [get_withO, uncover_withO, LeftE_withO]
      exact uncoverJs_withO fuel _ Q r _

theorem colName_withO (s : Matrix) (Q : List Nat) (e : Nat) :
    (withO s Q).colName e = s.colName e := rfl

theorem rowStrLoop_withO : ∀ (fuel : Nat) (s : Matrix) (Q : List Nat)
    (oi e : Nat) (acc : String),
    rowStrLoop (withO s Q) fuel oi e acc = rowStrLoop s fuel oi e acc
  | 0, _, _, _, _, _ => rfl
  | fuel + 1, s, Q, oi, e, acc => by
    simp only [rowStrLoop]
    split_ifs with h
    · rfl
    · simp only [RightE_withO, colName_withO]
      exact rowStrLoop_withO fuel s Q oi _ _

theorem rowString_withO (s : Matrix) (Q : List Nat) (oi : Nat) :
    (withO s Q).rowString oi = s.rowString oi := by
  rw [Matrix.rowString, Matrix.rowString, size_withO, RightE_withO, colName_withO,
    rowStrLoop_withO]

theorem getColLoop_withO : ∀ (fuel : Nat) (s : Matrix) (Q : List Nat)
    (ce c sz : Nat), getColLoop (withO s Q) fuel ce c sz = getColLoop s fuel ce c sz
  | 0, _, _, _, _, _ => rfl
  | fuel + 1, s, Q, ce, c, sz => by
    simp only [getColLoop, get_withO, RightE_withO]
    split_ifs with h h2
    · rfl
    · exact getColLoop_withO fuel s Q _ _ _
    · exact getColLoop_withO fuel s Q _ _ _

theorem getColumn_withO (s : Matrix) (Q : List Nat) :
    (withO s Q).getColumn = s.getColumn := by
  rw [Matrix.getColumn, Matrix.getColumn, size_withO, HeadE_withO, getColLoop_withO]

theorem elems_withO (s : Matrix) (Q : List Nat) :
    (withO s Q).elems = s.elems := rfl

theorem sol_cover (s : Matrix) (c : Nat) : (s.cover c).solutions = s.solutions := by
  conv_lhs => rw [← withSol_self s]
  rw [cover_withSol]
  rfl

theorem sol_uncover (s : Matrix) (c : Nat) : (s.uncover c).solutions = s.solutions := by
  conv_lhs => rw [← withSol_self s]
  rw [uncover_withSol]
  rfl

theorem sol_coverJs (s : Matrix) (fuel r j : Nat) :
    (coverJs s fuel r j).solutions = s.solutions := by
  conv_lhs => rw [← withSol_self s]
  rw [coverJs_withSol]
  rfl

theorem sol_uncoverJs (s : Matrix) (fuel r j : Nat) :
    (uncoverJs s fuel r j).solutions = s.solutions := by
  conv_lhs => rw [← withSol_self s]
  rw [uncoverJs_withSol]
  rfl

/-- The row loop stops and uncovers the column when the cursor returns to it. -/
theorem searchRows_stop (rec : Matrix → Nat → Matrix) (s : Matrix) (rf k c r : Nat)
    (hr : r = c) : searchRows rec s (rf + 1) k c r = s.uncover c := by
  rw [searchRows, if_pos hr]

/-- One non-terminal iteration of the row loop, with all intermediate states
named by explicit equations. -/
theorem searchRows_step_eq (rec : Matrix → Nat → Matrix) (s : Matrix) (rf k c r : Nat)
    (hr : ¬ r = c) (s2 s3 s4 : Matrix) (r2 : Nat) (s5 : Matrix) (c2 : Nat) (s6 : Matrix)
    (h2 : s2 = { s with o := s.o ++ [r] })
    (h3 : s3 = coverJs s2 (s2.elems.size + 1) r (s2.RightE r))
    (h4 : s4 = rec s3 (k + 1))
    (hrr2 : r2 = s4.o.getD k 0)
    (h5 : s5 = { s4 with o := s4.o.take k })
    (hc2 : c2 = (s5.get r2).column)
    (h6 : s6 = uncoverJs s5 (s5.elems.size + 1) r2 (s5.LeftE r2)) :
    searchRows rec s (rf + 1) k c r = searchRows rec s6 rf k c2 (s6.DownE r2) := by
  subst h2
  subst h3
  subst h4
  subst hrr2
  subst h5
  subst hc2
  subst h6
  rw [searchRows, if_neg hr]

/-- The success leaf of `search`, with the structure literal spelled out. -/
theorem search_leaf_eq (fuel : Nat) (s : Matrix) (k : Nat) (hh : s.HeadE = 0) :
    search (fuel + 1) s k =
      Matrix.mk s.elems s.o (s.solutions ++ [s.o.map s.rowString]) := by
  rw [search, if_pos hh]

/-- The branching case of `search`, with the selected column and covered state
named by explicit equations. -/
theorem search_step_eq (fuel : Nat) (s : Matrix) (k : Nat) (hh : ¬ s.HeadE = 0)
    (c : Nat) (s1 : Matrix) (hc : c = s.getColumn) (h1 : s1 = s.cover c) :
    search (fuel + 1) s k =
      searchRows (fun t k' => search fuel t k') s1 (s1.elems.size + 1) k c (s1.DownE c) := by
  subst hc
  subst h1
  rw [search, if_neg hh]

theorem eq_withO_withSol (s t : Matrix) (h : t.elems = s.elems) :
    t = withO (withSol s t.solutions) t.o := by
  obtain ⟨e, o, x⟩ := t
  show Matrix.mk e o x = Matrix.mk s.elems o x
  rw [show (Matrix.mk e o x).elems = e from rfl] at h
  rw [h]

theorem get_meshCongr (s t : Matrix) (h : t.elems = s.elems) (x : Nat) :
    t.get x = s.get x := by
  rw [Matrix.get, Matrix.get, h]

theorem DownE_meshCongr (s t : Matrix) (h : t.elems = s.elems) (x : Nat) :
    t.DownE x = s.DownE x := by
  rw [Matrix.DownE, Matrix.DownE, get_meshCongr s t h]

theorem UpE_meshCongr (s t : Matrix) (h : t.elems = s.elems) (x : Nat) :
    t.UpE x = s.UpE x := by
  rw [Matrix.UpE, Matrix.UpE, get_meshCongr s t h]

theorem RightE_meshCongr (s t : Matrix) (h : t.elems = s.elems) (x : Nat) :
    t.RightE x = s.RightE x := by
  rw [Matrix.RightE, Matrix.RightE, get_meshCongr s t h]

theorem LeftE_meshCongr (s t : Matrix) (h : t.elems = s.elems) (x : Nat) :
    t.LeftE x = s.LeftE x := by
  rw [Matrix.LeftE, Matrix.LeftE, get_meshCongr s t h]

theorem HeadE_meshCongr (s t : Matrix) (h : t.elems = s.elems) :
    t.HeadE = s.HeadE := by
  rw [Matrix.HeadE, Matrix.HeadE, get_meshCongr s t h]

theorem elems_cover_meshCongr (s t : Matrix) (h : t.elems = s.elems) (c : Nat) :
    (t.cover c).elems = (s.cover c).elems := by
  rw [eq_withO_withSol s t h, cover_withO, cover_withSol]
  rfl

theorem elems_uncover_meshCongr (s t : Matrix) (h : t.elems = s.elems) (c : Nat) :
    (t.uncover c).elems = (s.uncover c).elems := by
  rw [eq_withO_withSol s t h, uncover_withO, uncover_withSol]
  rfl

theorem elems_coverJs_meshCongr (s t : Matrix) (h : t.elems = s.elems) (F r j : Nat) :
    (coverJs t F r j).elems = (coverJs s F r j).elems := by
  rw [eq_withO_withSol s t h, coverJs_withO, coverJs_withSol]
  rfl

theorem elems_uncoverJs_meshCongr (s t : Matrix) (h : t.elems = s.elems) (F r j : Nat) :
    (uncoverJs t F r j).elems = (uncoverJs s F r j).elems := by
  rw [eq_withO_withSol s t h, uncoverJs_withO, uncoverJs_withSol]
  rfl

theorem getColumn_meshCongr (s t : Matrix) (h : t.elems = s.elems) :
    t.getColumn = s.getColumn := by
  rw [eq_withO_withSol s t h, getColumn_withO, getColumn_withSol]

theorem rowString_meshCongr (s t : Matrix) (h : t.elems = s.elems) (oi : Nat) :
    t.rowString oi = s.rowString oi := by
  rw [eq_withO_withSol s t h, rowString_withO, rowString_withSol]

theorem o_cover (s : Matrix) (c : Nat) : (s.cover c).o = s.o := by
  conv_lhs => rw [← withO_self s]
  rw [cover_withO]
  rfl

theorem o_uncover (s : Matrix) (c : Nat) : (s.uncover c).o = s.o := by
  conv_lhs => rw [← withO_self s]
  rw [uncover_withO]
  rfl

theorem o_coverJs (s : Matrix) (F r j : Nat) : (coverJs s F r j).o = s.o := by
  conv_lhs => rw [← withO_self s]
  rw [coverJs_withO]
  rfl

theorem o_uncoverJs (s : Matrix) (F r j : Nat) : (uncoverJs s F r j).o = s.o := by
  conv_lhs => rw [← withO_self s]
  rw [uncoverJs_withO]
  rfl

/-- The name stored in a head value. -/
def valName : Val → Option String
  | Val.vhead n _ => some n
  | _ => none

/-- Whether a value marks a row item. -/
def isItemV : Val → Bool
  | Val.vitem => true
  | _ => false

theorem valName_incVal (v : Val) : valName (incVal v) = valName v := by
  cases v <;> simp only [incVal, valName]

theorem valName_decVal (v : Val) : valName (decVal v) = valName v := by
  cases v <;> simp only [decVal, valName]

theorem isItemV_incVal (v : Val) : isItemV (incVal v) = isItemV v := by
  cases v <;> simp only [incVal, isItemV]

theorem isItemV_decVal (v : Val) : isItemV (decVal v) = isItemV v := by
  cases v <;> simp only [decVal, isItemV]

theorem valName_decSize (s : Matrix) (i x : Nat) :
    valName ((s.decSize i).get x).val = valName (s.get x).val := by
  rw [get_decSize]
  split
  · exact valName_decVal _
  · rfl

theorem valName_incSize (s : Matrix) (i x : Nat) :
    valName ((s.incSize i).get x).val = valName (s.get x).val := by
  rw [get_incSize]
  split
  · exact valName_incVal _
  · rfl

theorem isItemV_decSize (s : Matrix) (i x : Nat) :
    isItemV ((s.decSize i).get x).val = isItemV (s.get x).val := by
  rw [get_decSize]
  split
  · exact isItemV_decVal _
  · rfl

theorem isItemV_incSize (s : Matrix) (i x : Nat) :
    isItemV ((s.incSize i).get x).val = isItemV (s.get x).val := by
  rw [get_incSize]
  split
  · exact isItemV_incVal _
  · rfl

theorem valName_unlinkV (s : Matrix) (j x : Nat) :
    valName ((unlinkV s j).get x).val = valName (s.get x).val := by
  simp only [unlinkV]
  rw [valName_decSize, updDown_val, updUp_val]

theorem valName_relinkV (s : Matrix) (j x : Nat) :
    valName ((relinkV s j).get x).val = valName (s.get x).val := by
  simp only [relinkV]
  rw [updDown_val, updUp_val, valName_incSize]

theorem isItemV_unlinkV (s : Matrix) (j x : Nat) :
    isItemV ((unlinkV s j).get x).val = isItemV (s.get x).val := by
  simp only [unlinkV]
  rw [isItemV_decSize, updDown_val, updUp_val]

theorem isItemV_relinkV (s : Matrix) (j x : Nat) :
    isItemV ((relinkV s j).get x).val = isItemV (s.get x).val := by
  simp only [relinkV]
  rw [updDown_val, updUp_val, isItemV_incSize]

theorem column_coverRow : ∀ (F : Nat) (s : Matrix) (i j x : Nat),
    ((coverRow s F i j).get x).column = ((s.get x).column)
  | 0, _, _, _, _ => rfl
  | F + 1, s, i, j, x => by
    rw [coverRow]
    split
    · rfl
    · rw [column_coverRow F _ i _ x, unlinkV_column]

theorem mat_coverRow : ∀ (F : Nat) (s : Matrix) (i j x : Nat),
    ((coverRow s F i j).get x).mat = ((s.get x).mat)
  | 0, _, _, _, _ => rfl
  | F + 1, s, i, j, x => by
    rw [coverRow]
    split
    · rfl
    · rw [mat_coverRow F _ i _ x, unlinkV_mat]

theorem left_coverRow : ∀ (F : Nat) (s : Matrix) (i j x : Nat),
    ((coverRow s F i j).get x).left = ((s.get x).left)
  | 0, _, _, _, _ => rfl
  | F + 1, s, i, j, x => by
    rw [coverRow]
    split
    · rfl
    · rw [left_coverRow F _ i _ x, unlinkV_left]

theorem right_coverRow : ∀ (F : Nat) (s : Matrix) (i j x : Nat),
    ((coverRow s F i j).get x).right = ((s.get x).right)
  | 0, _, _, _, _ => rfl
  | F + 1, s, i, j, x => by
    rw [coverRow]
    split
    · rfl
    · rw [right_coverRow F _ i _ x, unlinkV_right]

theorem valName_coverRow : ∀ (F : Nat) (s : Matrix) (i j x : Nat),
    valName ((coverRow s F i j).get x).val = valName ((s.get x).val)
  | 0, _, _, _, _ => rfl
  | F + 1, s, i, j, x => by
    rw [coverRow]
    split
    · rfl
    · rw [valName_coverRow F _ i _ x, valName_unlinkV]

theorem isItemV_coverRow : ∀ (F : Nat) (s : Matrix) (i j x : Nat),
    isItemV ((coverRow s F i j).get x).val = isItemV ((s.get x).val)
  | 0, _, _, _, _ => rfl
  | F + 1, s, i, j, x => by
    rw [coverRow]
    split
    · rfl
    · rw [isItemV_coverRow F _ i _ x, isItemV_unlinkV]

theorem size_coverRow : ∀ (F : Nat) (s : Matrix) (i j : Nat),
    (coverRow s F i j).elems.size = s.elems.size
  | 0, _, _, _ => rfl
  | F + 1, s, i, j => by
    rw [coverRow]
    split
    · rfl
    · rw [size_coverRow F _ i _, size_unlinkV]

theorem column_coverCols : ∀ (F : Nat) (s : Matrix) (c i x : Nat),
    ((coverCols s F c i).get x).column = ((s.get x).column)
  | 0, _, _, _, _ => rfl
  | F + 1, s, c, i, x => by
    rw [coverCols]
    split
    · rfl
    · rw [column_coverCols F _ c _ x, column_coverRow]

theorem mat_coverCols : ∀ (F : Nat) (s : Matrix) (c i x : Nat),
    ((coverCols s F c i).get x).mat = ((s.get x).mat)
  | 0, _, _, _, _ => rfl
  | F + 1, s, c, i, x => by
    rw [coverCols]
    split
    · rfl
    · rw [mat_coverCols F _ c _ x, mat_coverRow]

theorem left_coverCols : ∀ (F : Nat) (s : Matrix) (c i x : Nat),
    ((coverCols s F c i).get x).left = ((s.get x).left)
  | 0, _, _, _, _ => rfl
  | F + 1, s, c, i, x => by
    rw [coverCols]
    split
    · rfl
    · rw [left_coverCols F _ c _ x, left_coverRow]

theorem right_coverCols : ∀ (F : Nat) (s : Matrix) (c i x : Nat),
    ((coverCols s F c i).get x).right = ((s.get x).right)
  | 0, _, _, _, _ => rfl
  | F + 1, s, c, i, x => by
    rw [coverCols]
    split
    · rfl
    · rw [right_coverCols F _ c _ x, right_coverRow]

theorem valName_coverCols : ∀ (F : Nat) (s : Matrix) (c i x : Nat),
    valName ((coverCols s F c i).get x).val = valName ((s.get x).val)
  | 0, _, _, _, _ => rfl
  | F + 1, s, c, i, x => by
    rw [coverCols]
    split
    · rfl
    · rw [valName_coverCols F _ c _ x, valName_coverRow]

theorem isItemV_coverCols : ∀ (F : Nat) (s : Matrix) (c i x : Nat),
    isItemV ((coverCols s F c i).get x).val = isItemV ((s.get x).val)
  | 0, _, _, _, _ => rfl
  | F + 1, s, c, i, x => by
    rw [coverCols]
    split
    · rfl
    · rw [isItemV_coverCols F _ c _ x, isItemV_coverRow]

theorem size_coverCols : ∀ (F : Nat) (s : Matrix) (c i : Nat),
    (coverCols s F c i).elems.size = s.elems.size
  | 0, _, _, _ => rfl
  | F + 1, s, c, i => by
    rw [coverCols]
    split
    · rfl
    · rw [size_coverCols F _ c _, size_coverRow]

theorem column_uncoverRow : ∀ (F : Nat) (s : Matrix) (i j x : Nat),
    ((uncoverRow s F i j).get x).column = ((s.get x).column)
  | 0, _, _, _, _ => rfl
  | F + 1, s, i, j, x => by
    rw [uncoverRow]
    split
    · rfl
    · rw [column_uncoverRow F _ i _ x, relinkV_column]

theorem mat_uncoverRow : ∀ (F : Nat) (s : Matrix) (i j x : Nat),
    ((uncoverRow s F i j).get x).mat = ((s.get x).mat)
  | 0, _, _, _, _ => rfl
  | F + 1, s, i, j, x => by
    rw [uncoverRow]
    split
    · rfl
    · rw [mat_uncoverRow F _ i _ x, relinkV_mat]

theorem left_uncoverRow : ∀ (F : Nat) (s : Matrix) (i j x : Nat),
    ((uncoverRow s F i j).get x).left = ((s.get x).left)
  | 0, _, _, _, _ => rfl
  | F + 1, s, i, j, x => by
    rw [uncoverRow]
    split
    · rfl
    · rw [left_uncoverRow F _ i _ x, relinkV_left]

theorem right_uncoverRow : ∀ (F : Nat) (s : Matrix) (i j x : Nat),
    ((uncoverRow s F i j).get x).right = ((s.get x).right)
  | 0, _, _, _, _ => rfl
  | F + 1, s, i, j, x => by
    rw [uncoverRow]
    split
    · rfl
    · rw [right_uncoverRow F _ i _ x, relinkV_right]

theorem valName_uncoverRow : ∀ (F : Nat) (s : Matrix) (i j x : Nat),
    valName ((uncoverRow s F i j).get x).val = valName ((s.get x).val)
  | 0, _, _, _, _ => rfl
  | F + 1, s, i, j, x => by
    rw [uncoverRow]
    split
    · rfl
    · rw [valName_uncoverRow F _ i _ x, valName_relinkV]

theorem isItemV_uncoverRow : ∀ (F : Nat) (s : Matrix) (i j x : Nat),
    isItemV ((uncoverRow s F i j).get x).val = isItemV ((s.get x).val)
  | 0, _, _, _, _ => rfl
  | F + 1, s, i, j, x => by
    rw [uncoverRow]
    split
    · rfl
    · rw [isItemV_uncoverRow F _ i _ x, isItemV_relinkV]

theorem size_uncoverRow : ∀ (F : Nat) (s : Matrix) (i j : Nat),
    (uncoverRow s F i j).elems.size = s.elems.size
  | 0, _, _, _ => rfl
  | F + 1, s, i, j => by
    rw [uncoverRow]
    split
    · rfl
    · rw [size_uncoverRow F _ i _, size_relinkV]

theorem column_uncoverCols : ∀ (F : Nat) (s : Matrix) (c i x : Nat),
    ((uncoverCols s F c i).get x).column = ((s.get x).column)
  | 0, _, _, _, _ => rfl
  | F + 1, s, c, i, x => by
    rw [uncoverCols]
    split
    · rfl
    · rw [column_uncoverCols F _ c _ x, column_uncoverRow]

theorem mat_uncoverCols : ∀ (F : Nat) (s : Matrix) (c i x : Nat),
    ((uncoverCols s F c i).get x).mat = ((s.get x).mat)
  | 0, _, _, _, _ => rfl
  | F + 1, s, c, i, x => by
    rw [uncoverCols]
    split
    · rfl
    · rw [mat_uncoverCols F _ c _ x, mat_uncoverRow]

theorem left_uncoverCols : ∀ (F : Nat) (s : Matrix) (c i x : Nat),
    ((uncoverCols s F c i).get x).left = ((s.get x).left)
  | 0, _, _, _, _ => rfl
  | F + 1, s, c, i, x => by
    rw [uncoverCols]
    split
    · rfl
    · rw [left_uncoverCols F _ c _ x, left_uncoverRow]

theorem right_uncoverCols : ∀ (F : Nat) (s : Matrix) (c i x : Nat),
    ((uncoverCols s F c i).get x).right = ((s.get x).right)
  | 0, _, _, _, _ => rfl
  | F + 1, s, c, i, x => by
    rw [uncoverCols]
    split
    · rfl
    · rw [right_uncoverCols F _ c _ x, right_uncoverRow]

theorem valName_uncoverCols : ∀ (F : Nat) (s : Matrix) (c i x : Nat),
    valName ((uncoverCols s F c i).get x).val = valName ((s.get x).val)
  | 0, _, _, _, _ => rfl
  | F + 1, s, c, i, x => by
    rw [uncoverCols]
    split
    · rfl
    · rw [valName_uncoverCols F _ c _ x, valName_uncoverRow]

theorem isItemV_uncoverCols : ∀ (F : Nat) (s : Matrix) (c i x : Nat),
    isItemV ((uncoverCols s F c i).get x).val = isItemV ((s.get x).val)
  | 0, _, _, _, _ => rfl
  | F + 1, s, c, i, x => by
    rw [uncoverCols]
    split
    · rfl
    · rw [isItemV_uncoverCols F _ c _ x, isItemV_uncoverRow]

theorem size_uncoverCols : ∀ (F : Nat) (s : Matrix) (c i : Nat),
    (uncoverCols s F c i).elems.size = s.elems.size
  | 0, _, _, _ => rfl
  | F + 1, s, c, i => by
    rw [uncoverCols]
    split
    · rfl
    · rw [size_uncoverCols F _ c _, size_uncoverRow]

theorem column_cover (s : Matrix) (c x : Nat) :
    ((s.cover c).get x).column = (s.get x).column := by
  rw [Matrix.cover]
  show ((coverCols (hdrUnlink s c) ((hdrUnlink s c).elems.size + 1) c
    ((hdrUnlink s c).DownE c)).get x).column = (s.get x).column
  rw [column_coverCols, hdrUnlink_column]

theorem mat_cover (s : Matrix) (c x : Nat) :
    ((s.cover c).get x).mat = (s.get x).mat := by
  rw [Matrix.cover]
  show ((coverCols (hdrUnlink s c) ((hdrUnlink s c).elems.size + 1) c
    ((hdrUnlink s c).DownE c)).get x).mat = (s.get x).mat
  rw [mat_coverCols, hdrUnlink_mat]

theorem valName_cover (s : Matrix) (c x : Nat) :
    valName ((s.cover c).get x).val = valName (s.get x).val := by
  rw [Matrix.cover]
  show valName ((coverCols (hdrUnlink s c) ((hdrUnlink s c).elems.size + 1) c
    ((hdrUnlink s c).DownE c)).get x).val = valName (s.get x).val
  rw [valName_coverCols, hdrUnlink_val]

theorem isItemV_cover (s : Matrix) (c x : Nat) :
    isItemV ((s.cover c).get x).val = isItemV (s.get x).val := by
  rw [Matrix.cover]
  show isItemV ((coverCols (hdrUnlink s c) ((hdrUnlink s c).elems.size + 1) c
    ((hdrUnlink s c).DownE c)).get x).val = isItemV (s.get x).val
  rw [isItemV_coverCols, hdrUnlink_val]

theorem size_cover (s : Matrix) (c : Nat) :
    (s.cover c).elems.size = s.elems.size := by
  rw [Matrix.cover]
  show (coverCols (hdrUnlink s c) ((hdrUnlink s c).elems.size + 1) c
    ((hdrUnlink s c).DownE c)).elems.size = s.elems.size
  rw [size_coverCols, size_hdrUnlink]

theorem column_uncover (s : Matrix) (c x : Nat) :
    ((s.uncover c).get x).column = (s.get x).column := by
  rw [Matrix.uncover]
  show ((hdrRelink (uncoverCols s (s.elems.size + 1) c (s.UpE c)) c).get x).column =
    (s.get x).column
  rw [hdrRelink_column, column_uncoverCols]

theorem mat_uncover (s : Matrix) (c x : Nat) :
    ((s.uncover c).get x).mat = (s.get x).mat := by
  rw [Matrix.uncover]
  show ((hdrRelink (uncoverCols s (s.elems.size + 1) c (s.UpE c)) c).get x).mat =
    (s.get x).mat
  rw [hdrRelink_mat, mat_uncoverCols]

theorem valName_uncover (s : Matrix) (c x : Nat) :
    valName ((s.uncover c).get x).val = valName (s.get x).val := by
  rw [Matrix.uncover]
  show valName ((hdrRelink (uncoverCols s (s.elems.size + 1) c (s.UpE c)) c).get x).val =
    valName (s.get x).val
  rw [hdrRelink_val, valName_uncoverCols]

theorem isItemV_uncover (s : Matrix) (c x : Nat) :
    isItemV ((s.uncover c).get x).val = isItemV (s.get x).val := by
  rw [Matrix.uncover]
  show isItemV ((hdrRelink (uncoverCols s (s.elems.size + 1) c (s.UpE c)) c).get x).val =
    isItemV (s.get x).val
  rw [hdrRelink_val, isItemV_uncoverCols]

theorem size_uncover (s : Matrix) (c : Nat) :
    (s.uncover c).elems.size = s.elems.size := by
  rw [Matrix.uncover]
  show (hdrRelink (uncoverCols s (s.elems.size + 1) c (s.UpE c)) c).elems.size =
    s.elems.size
  rw [size_hdrRelink, size_uncoverCols]

theorem column_coverJs : ∀ (F : Nat) (s : Matrix) (r j x : Nat),
    ((coverJs s F r j).get x).column = ((s.get x).column)
  | 0, _, _, _, _ => rfl
  | F + 1, s, r, j, x => by
    rw [coverJs]
    split
    · rfl
    · rw [column_coverJs F _ r _ x, column_cover]

theorem mat_coverJs : ∀ (F : Nat) (s : Matrix) (r j x : Nat),
    ((coverJs s F r j).get x).mat = ((s.get x).mat)
  | 0, _, _, _, _ => rfl
  | F + 1, s, r, j, x => by
    rw [coverJs]
    split
    · rfl
    · rw [mat_coverJs F _ r _ x, mat_cover]

theorem valName_coverJs : ∀ (F : Nat) (s : Matrix) (r j x : Nat),
    valName ((coverJs s F r j).get x).val = valName ((s.get x).val)
  | 0, _, _, _, _ => rfl
  | F + 1, s, r, j, x => by
    rw [coverJs]
    split
    · rfl
    · rw [valName_coverJs F _ r _ x, valName_cover]

theorem isItemV_coverJs : ∀ (F : Nat) (s : Matrix) (r j x : Nat),
    isItemV ((coverJs s F r j).get x).val = isItemV ((s.get x).val)
  | 0, _, _, _, _ => rfl
  | F + 1, s, r, j, x => by
    rw [coverJs]
    split
    · rfl
    · rw [isItemV_coverJs F _ r _ x, isItemV_cover]

theorem size_coverJs : ∀ (F : Nat) (s : Matrix) (r j : Nat),
    (coverJs s F r j).elems.size = s.elems.size
  | 0, _, _, _ => rfl
  | F + 1, s, r, j => by
    rw [coverJs]
    split
    · rfl
    · rw [size_coverJs F _ r _, size_cover]

theorem column_uncoverJs : ∀ (F : Nat) (s : Matrix) (r j x : Nat),
    ((uncoverJs s F r j).get x).column = ((s.get x).column)
  | 0, _, _, _, _ => rfl
  | F + 1, s, r, j, x => by
    rw [uncoverJs]
    split
    · rfl
    · rw [column_uncoverJs F _ r _ x, column_uncover]

theorem mat_uncoverJs : ∀ (F : Nat) (s : Matrix) (r j x : Nat),
    ((uncoverJs s F r j).get x).mat = ((s.get x).mat)
  | 0, _, _, _, _ => rfl
  | F + 1, s, r, j, x => by
    rw [uncoverJs]
    split
    · rfl
    · rw [mat_uncoverJs F _ r _ x, mat_uncover]

theorem valName_uncoverJs : ∀ (F : Nat) (s : Matrix) (r j x : Nat),
    valName ((uncoverJs s F r j).get x).val = valName ((s.get x).val)
  | 0, _, _, _, _ => rfl
  | F + 1, s, r, j, x => by
    rw [uncoverJs]
    split
    · rfl
    · rw [valName_uncoverJs F _ r _ x, valName_uncover]

theorem isItemV_uncoverJs : ∀ (F : Nat) (s : Matrix) (r j x : Nat),
    isItemV ((uncoverJs s F r j).get x).val = isItemV ((s.get x).val)
  | 0, _, _, _, _ => rfl
  | F + 1, s, r, j, x => by
    rw [uncoverJs]
    split
    · rfl
    · rw [isItemV_uncoverJs F _ r _ x, isItemV_uncover]

theorem size_uncoverJs : ∀ (F : Nat) (s : Matrix) (r j : Nat),
    (uncoverJs s F r j).elems.size = s.elems.size
  | 0, _, _, _ => rfl
  | F + 1, s, r, j => by
    rw [uncoverJs]
    split
    · rfl
    · rw [size_uncoverJs F _ r _, size_uncover]

theorem chainTo_length (step : Nat → Nat) (stop : Nat) : ∀ (F x : Nat) (L : List Nat),
    chainTo step stop F x = some L → L.length < F := by
  intro F
  induction F with
  | zero =>
    intro x L h
    cases h
  | succ F ih =>
    intro x L h
    rw [chainTo] at h
    split_ifs at h with hx
    · injection h with h'
      subst h'
      simp
    · cases hc : chainTo step stop F (step x) with
      | none =>
        rw [hc] at h
        cases h
      | some l =>
        rw [hc] at h
        injection h with h'
        subst h'
        simpa using ih (step x) l hc

theorem chainTo_fuel_mono (step : Nat → Nat) (stop : Nat) : ∀ (F F' x : Nat) (L : List Nat),
    chainTo step stop F x = some L → F ≤ F' → chainTo step stop F' x = some L := by
  intro F
  induction F with
  | zero =>
    intro F' x L h
    cases h
  | succ F ih =>
    intro F' x L h hle
    obtain ⟨F'', rfl⟩ : ∃ G, F' = G + 1 :=
      ⟨F' - 1, by omega⟩
    rw [chainTo] at h
    rw [chainTo]
    split_ifs at h with hx
    · rw [if_pos hx]
      exact h
    · rw [if_neg hx]
      cases hc : chainTo step stop F (step x) with
      | none =>
        rw [hc] at h
        cases h
      | some l =>
        rw [hc] at h
        rw [ih F'' (step x) l hc (by omega)]
        exact h

theorem chainTo_head (step : Nat → Nat) (stop F x : Nat) (a : Nat) (l : List Nat)
    (h : chainTo step stop F x = some (a :: l)) : x = a := by
  match F with
  | 0 => cases h
  | F + 1 =>
    rw [chainTo] at h
    split_ifs at h with hx
    · cases h
    · cases hc : chainTo step stop F (step x) with
      | none =>
        rw [hc] at h
        cases h
      | some l' =>
        rw [hc] at h
        injection h with h'
        simp only [List.cons.injEq] at h'
        exact h'.1

theorem chainTo_tail (step : Nat → Nat) (stop F x : Nat) (a : Nat) (l : List Nat)
    (h : chainTo step stop (F + 1) x = some (a :: l)) :
    chainTo step stop F (step x) = some l := by
  rw [chainTo] at h
  split_ifs at h with hx
  · cases h
  · cases hc : chainTo step stop F (step x) with
    | none =>
      rw [hc] at h
      cases h
    | some l' =>
      rw [hc] at h
      injection h with h'
      simp only [List.cons.injEq] at h'
      rw [h'.2]

theorem chainTo_nil (step : Nat → Nat) (stop F x : Nat)
    (h : chainTo step stop F x = some []) : x = stop := by
  match F with
  | 0 => cases h
  | F + 1 =>
    rw [chainTo] at h
    split_ifs at h with hx
    · exact hx
    · cases hc : chainTo step stop F (step x) with
      | none =>
        rw [hc] at h
        cases h
      | some l' =>
        rw [hc] at h
        cases h

theorem chainTo_stop (step : Nat → Nat) (stop F : Nat) :
    chainTo step stop (F + 1) stop = some [] := by
  rw [chainTo, if_pos rfl]

theorem chainTo_build (step : Nat → Nat) (stop F x : Nat) (l : List Nat)
    (hx : x ≠ stop) (h : chainTo step stop F (step x) = some l) :
    chainTo step stop (F + 1) x = some (x :: l) := by
  rw [chainTo, if_neg hx, h]

theorem headD_reverse_cons (a prev : Nat) (l : List Nat) :
    ((a :: l).reverse).headD prev = (l.reverse).headD a := by
  rw [List.reverse_cons]
  cases hl : l.reverse with
  | nil => rfl
  | cons b r => rfl

theorem chainTo_ne_stop (step : Nat → Nat) (stop : Nat) : ∀ (fuel x : Nat) (L : List Nat),
    chainTo step stop fuel x = some L → ∀ y ∈ L, y ≠ stop := by
  intro fuel
  induction fuel with
  | zero =>
    intro x L h
    cases h
  | succ fuel ih =>
    intro x L h
    rw [chainTo] at h
    split_ifs at h with hx
    · injection h with h'
      subst h'
      intro y hy
      cases hy
    · cases hc : chainTo step stop fuel (step x) with
      | none =>
        rw [hc] at h
        cases h
      | some l =>
        rw [hc] at h
        injection h with h'
        subst h'
        intro y hy
        rcases List.mem_cons.mp hy with rfl | hy'
        · exact hx
        · exact ih (step x) l hc y hy'

theorem DownE_unlinkV_of_ne (s : Matrix) (j x : Nat) (hx : x ≠ (s.get j).up) :
    (unlinkV s j).DownE x = s.DownE x := by
  have hd : ((unlinkV s j).get x).down = (s.get x).down := by
    rw [unlink_down, if_neg]
    rintro ⟨h', _⟩
    exact hx h'
  rw [Matrix.DownE, Matrix.DownE, unlinkV_mat, hd]

theorem UpE_unlinkV_of_ne (s : Matrix) (j x : Nat) (hx : x ≠ (s.get j).down) :
    (unlinkV s j).UpE x = s.UpE x := by
  have hu : ((unlinkV s j).get x).up = (s.get x).up := by
    rw [unlink_up, if_neg]
    rintro ⟨h', _⟩
    exact hx h'
  rw [Matrix.UpE, Matrix.UpE, unlinkV_mat, hu]

/-- Removing one linked element from a down-ring removes it from the ring
scan: the scan from the element whose `down` pointer was rerouted continues
with the rest of the ring. -/
theorem dchain_unlink_aux (s : Matrix) (d j : Nat) (l2 : List Nat)
    (hmatj : (s.get j).mat = true)
    (hq : (s.get j).up < s.elems.size) :
    ∀ (F : Nat) (l1 : List Nat) (prev : Nat),
    chainTo (s.DownE) d F (s.DownE prev) = some (l1 ++ j :: l2) →
    (s.get j).up = l1.reverse.headD prev →
    (s.get prev).mat = true →
    (∀ m ∈ l1, (s.get m).mat = true) →
    l1.Nodup →
    (∀ m ∈ l1, m ∉ l2 ∧ m ≠ j) →
    prev ∉ l1 → prev ∉ l2 → prev ≠ j →
    chainTo ((unlinkV s j).DownE) d F ((unlinkV s j).DownE prev) = some (l1 ++ l2)
  | F, [], prev => by
    intro h hp hmp _ _ _ _ hpl2 hpj
    have hp0 : (s.get j).up = prev := by simpa using hp
    match F, h with
    | F + 1, h =>
      have hhead : s.DownE prev = j := chainTo_head _ _ _ _ _ _ h
      have htail : chainTo (s.DownE) d F (s.DownE j) = some l2 :=
        hhead ▸ chainTo_tail _ _ _ _ _ _ h
      have hdp : ((unlinkV s j).get prev).down = (s.get j).down := by
        rw [unlink_down, if_pos ⟨hp0.symm, hq⟩]
      have hcur : (unlinkV s j).DownE prev = s.DownE j := by
        rw [Matrix.DownE, Matrix.DownE, unlinkV_mat, hdp, hmp, hmatj]
      rw [hcur]
      have hnew : chainTo ((unlinkV s j).DownE) d F (s.DownE j) = some l2 := by
        apply chainTo_congr (s.DownE) _ d F _ l2 htail
        intro y hy
        apply DownE_unlinkV_of_ne
        intro h'
        rw [hp0] at h'
        exact hpl2 (h' ▸ hy)
      exact chainTo_fuel_mono _ _ F (F + 1) _ _ hnew (by omega)
  | F, a :: l1', prev => by
    intro h hp hmp hmats hnd hdisj hpl1 hpl2 hpj
    match F, h with
    | F + 1, h =>
      have hhead : s.DownE prev = a := chainTo_head _ _ _ _ _ _ h
      have htail : chainTo (s.DownE) d F (s.DownE a) = some (l1' ++ j :: l2) :=
        hhead ▸ chainTo_tail _ _ _ _ _ _ h
      have hp' : (s.get j).up = l1'.reverse.headD a := by
        rw [hp, headD_reverse_cons]
      have hpne : prev ≠ (s.get j).up := by
        rw [hp']
        cases hl1' : l1'.reverse with
        | nil =>
          rw [List.reverse_eq_nil_iff] at hl1'
          subst hl1'
          intro h'
          exact hpl1 (h' ▸ List.mem_cons_self ..)
        | cons b r =>
          intro h'
          have hb : b ∈ l1' := by
            have : b ∈ l1'.reverse := hl1' ▸ List.mem_cons_self ..
            simpa using this
          simp only [hl1', List.headD_cons] at h'
          exact hpl1 (h' ▸ List.mem_cons_of_mem a hb)
      have hcur : (unlinkV s j).DownE prev = a := by
        rw [DownE_unlinkV_of_ne s j prev hpne, hhead]
      have hrec := dchain_unlink_aux s d j l2 hmatj hq F l1' a htail hp'
        (hmats a (List.mem_cons_self ..))
        (fun m hm => hmats m (List.mem_cons_of_mem a hm))
        (List.Nodup.of_cons hnd)
        (fun m hm => hdisj m (List.mem_cons_of_mem a hm))
        (List.Nodup.not_mem hnd)
        (hdisj a (List.mem_cons_self ..)).1
        (hdisj a (List.mem_cons_self ..)).2
      have hane : a ≠ d :=
        chainTo_ne_stop _ _ _ _ _ h a (List.mem_append_left _ (List.mem_cons_self ..))
      rw [hcur]
      show chainTo ((unlinkV s j).DownE) d (F + 1) a = some (a :: (l1' ++ l2))
      exact chainTo_build ((unlinkV s j).DownE) d F a (l1' ++ l2) hane hrec
  termination_by F l1 => l1.length


/-- Mirror of `dchain_unlink_aux` for up-rings: the scan from the element
whose `up` pointer was rerouted continues with the rest of the ring. -/
theorem uchain_unlink_aux (s : Matrix) (d j : Nat) (l2 : List Nat)
    (hmatj : (s.get j).mat = true)
    (hq : (s.get j).down < s.elems.size) :
    ∀ (F : Nat) (l1 : List Nat) (prev : Nat),
    chainTo (s.UpE) d F (s.UpE prev) = some (l1 ++ j :: l2) →
    (s.get j).down = l1.reverse.headD prev →
    (s.get prev).mat = true →
    (∀ m ∈ l1, (s.get m).mat = true) →
    l1.Nodup →
    (∀ m ∈ l1, m ∉ l2 ∧ m ≠ j) →
    prev ∉ l1 → prev ∉ l2 → prev ≠ j →
    chainTo ((unlinkV s j).UpE) d F ((unlinkV s j).UpE prev) = some (l1 ++ l2)
  | F, [], prev => by
    intro h hp hmp _ _ _ _ hpl2 hpj
    have hp0 : (s.get j).down = prev := by simpa using hp
    match F, h with
    | F + 1, h =>
      have hhead : s.UpE prev = j := chainTo_head _ _ _ _ _ _ h
      have htail : chainTo (s.UpE) d F (s.UpE j) = some l2 :=
        hhead ▸ chainTo_tail _ _ _ _ _ _ h
      have hdp : ((unlinkV s j).get prev).up = (s.get j).up := by
        rw [unlink_up, if_pos ⟨hp0.symm, hq⟩]
      have hcur : (unlinkV s j).UpE prev = s.UpE j := by
        rw [Matrix.UpE, Matrix.UpE, unlinkV_mat, hdp, hmp, hmatj]
      rw [hcur]
      have hnew : chainTo ((unlinkV s j).UpE) d F (s.UpE j) = some l2 := by
        apply chainTo_congr (s.UpE) _ d F _ l2 htail
        intro y hy
        apply UpE_unlinkV_of_ne
        intro h'
        rw [hp0] at h'
        exact hpl2 (h' ▸ hy)
      exact chainTo_fuel_mono _ _ F (F + 1) _ _ hnew (by omega)
  | F, a :: l1', prev => by
    intro h hp hmp hmats hnd hdisj hpl1 hpl2 hpj
    match F, h with
    | F + 1, h =>
      have hhead : s.UpE prev = a := chainTo_head _ _ _ _ _ _ h
      have htail : chainTo (s.UpE) d F (s.UpE a) = some (l1' ++ j :: l2) :=
        hhead ▸ chainTo_tail _ _ _ _ _ _ h
      have hp' : (s.get j).down = l1'.reverse.headD a := by
        rw [hp, headD_reverse_cons]
      have hpne : prev ≠ (s.get j).down := by
        rw [hp']
        cases hl1' : l1'.reverse with
        | nil =>
          rw [List.reverse_eq_nil_iff] at hl1'
          subst hl1'
          intro h'
          exact hpl1 (h' ▸ List.mem_cons_self ..)
        | cons b r =>
          intro h'
          have hb : b ∈ l1' := by
            have : b ∈ l1'.reverse := hl1' ▸ List.mem_cons_self ..
            simpa using this
          simp only [hl1', List.headD_cons] at h'
          exact hpl1 (h' ▸ List.mem_cons_of_mem a hb)
      have hcur : (unlinkV s j).UpE prev = a := by
        rw [UpE_unlinkV_of_ne s j prev hpne, hhead]
      have hrec := uchain_unlink_aux s d j l2 hmatj hq F l1' a htail hp'
        (hmats a (List.mem_cons_self ..))
        (fun m hm => hmats m (List.mem_cons_of_mem a hm))
        (List.Nodup.of_cons hnd)
        (fun m hm => hdisj m (List.mem_cons_of_mem a hm))
        (List.Nodup.not_mem hnd)
        (hdisj a (List.mem_cons_self ..)).1
        (hdisj a (List.mem_cons_self ..)).2
      have hane : a ≠ d :=
        chainTo_ne_stop _ _ _ _ _ h a (List.mem_append_left _ (List.mem_cons_self ..))
      rw [hcur]
      show chainTo ((unlinkV s j).UpE) d (F + 1) a = some (a :: (l1' ++ l2))
      exact chainTo_build ((unlinkV s j).UpE) d F a (l1' ++ l2) hane hrec
  termination_by F l1 => l1.length

theorem RightE_hdrUnlink_at (s : Matrix) (c : Nat)
    (hrc : (s.get c).right ≠ c) (hbd : (s.get c).left < s.elems.size) :
    ((hdrUnlink s c).get ((s.get c).left)).right = (s.get c).right := by
  rw [hdrUnlink_decomp s c hrc, get_updRight, if_pos ⟨rfl, by simpa using hbd⟩]

/-- Mirror of `dchain_unlink_aux` for the header scan: unlinking a header
from the horizontal ring removes it from the scan. -/
theorem hchain_unlink_aux (s : Matrix) (c : Nat) (l2 : List Nat)
    (hmatc : (s.get c).mat = true)
    (hrc : (s.get c).right ≠ c)
    (hbd : (s.get c).left < s.elems.size) :
    ∀ (F : Nat) (l1 : List Nat) (prev : Nat),
    chainTo (s.RightE) 0 F (s.RightE prev) = some (l1 ++ c :: l2) →
    (s.get c).left = l1.reverse.headD prev →
    (s.get prev).mat = true →
    (∀ m ∈ l1, (s.get m).mat = true) →
    l1.Nodup →
    (∀ m ∈ l1, m ∉ l2 ∧ m ≠ c) →
    prev ∉ l1 → prev ∉ l2 → prev ≠ c →
    chainTo ((hdrUnlink s c).RightE) 0 F ((hdrUnlink s c).RightE prev) = some (l1 ++ l2)
  | F, [], prev => by
    intro h hp hmp _ _ _ _ hpl2 hpj
    have hp0 : (s.get c).left = prev := by simpa using hp
    match F, h with
    | F + 1, h =>
      have hhead : s.RightE prev = c := chainTo_head _ _ _ _ _ _ h
      have htail : chainTo (s.RightE) 0 F (s.RightE c) = some l2 :=
        hhead ▸ chainTo_tail _ _ _ _ _ _ h
      have hdp : ((hdrUnlink s c).get prev).right = (s.get c).right := by
        rw [← hp0]
        exact RightE_hdrUnlink_at s c hrc hbd
      have hcur : (hdrUnlink s c).RightE prev = s.RightE c := by
        rw [Matrix.RightE, Matrix.RightE, hdrUnlink_mat, hdp, hmp, hmatc]
      rw [hcur]
      have hnew : chainTo ((hdrUnlink s c).RightE) 0 F (s.RightE c) = some l2 := by
        apply chainTo_congr (s.RightE) _ 0 F _ l2 htail
        intro y hy
        apply RightE_hdrUnlink_of_ne s c y hrc
        intro h'
        rw [hp0] at h'
        exact hpl2 (h' ▸ hy)
      exact chainTo_fuel_mono _ _ F (F + 1) _ _ hnew (by omega)
  | F, a :: l1', prev => by
    intro h hp hmp hmats hnd hdisj hpl1 hpl2 hpj
    match F, h with
    | F + 1, h =>
      have hhead : s.RightE prev = a := chainTo_head _ _ _ _ _ _ h
      have htail : chainTo (s.RightE) 0 F (s.RightE a) = some (l1' ++ c :: l2) :=
        hhead ▸ chainTo_tail _ _ _ _ _ _ h
      have hp' : (s.get c).left = l1'.reverse.headD a := by
        rw [hp, headD_reverse_cons]
      have hpne : prev ≠ (s.get c).left := by
        rw [hp']
        cases hl1' : l1'.reverse with
        | nil =>
          rw [List.reverse_eq_nil_iff] at hl1'
          subst hl1'
          intro h'
          exact hpl1 (h' ▸ List.mem_cons_self ..)
        | cons b r =>
          intro h'
          have hb : b ∈ l1' := by
            have : b ∈ l1'.reverse := hl1' ▸ List.mem_cons_self ..
            simpa using this
          simp only [hl1', List.headD_cons] at h'
          exact hpl1 (h' ▸ List.mem_cons_of_mem a hb)
      have hcur : (hdrUnlink s c).RightE prev = a := by
        rw [RightE_hdrUnlink_of_ne s c prev hrc hpne, hhead]
      have hrec := hchain_unlink_aux s c l2 hmatc hrc hbd F l1' a htail hp'
        (hmats a (List.mem_cons_self ..))
        (fun m hm => hmats m (List.mem_cons_of_mem a hm))
        (List.Nodup.of_cons hnd)
        (fun m hm => hdisj m (List.mem_cons_of_mem a hm))
        (List.Nodup.not_mem hnd)
        (hdisj a (List.mem_cons_self ..)).1
        (hdisj a (List.mem_cons_self ..)).2
      have hane : a ≠ 0 :=
        chainTo_ne_stop _ _ _ _ _ h a (List.mem_append_left _ (List.mem_cons_self ..))
      rw [hcur]
      show chainTo ((hdrUnlink s c).RightE) 0 (F + 1) a = some (a :: (l1' ++ l2))
      exact chainTo_build ((hdrUnlink s c).RightE) 0 F a (l1' ++ l2) hane hrec
  termination_by F l1 => l1.length

theorem chainTo_pred (step : Nat → Nat) (stop : Nat) (j : Nat) (l2 : List Nat) :
    ∀ (l1 : List Nat) (F : Nat) (prev : Nat),
    chainTo step stop F (step prev) = some (l1 ++ j :: l2) →
    step (l1.reverse.headD prev) = j
  | [], F, prev => fun h => by
    have := chainTo_head _ _ _ _ _ _ h
    simpa using this
  | a :: l1', F, prev => fun h => by
    match F, h with
    | F + 1, h =>
      have hhead : step prev = a := chainTo_head _ _ _ _ _ _ h
      have htail : chainTo step stop F (step a) = some (l1' ++ j :: l2) :=
        hhead ▸ chainTo_tail _ _ _ _ _ _ h
      rw [headD_reverse_cons]
      exact chainTo_pred step stop j l2 l1' F a htail

theorem chainTo_next (step : Nat → Nat) (stop : Nat) (j : Nat) (l2 : List Nat) :
    ∀ (l1 : List Nat) (F : Nat) (x : Nat),
    chainTo step stop F x = some (l1 ++ j :: l2) →
    step j = l2.headD stop
  | [], F, x => fun h => by
    have hhead : x = j := chainTo_head _ _ _ _ _ _ h
    subst hhead
    match F, h with
    | F + 1, h =>
      have htail : chainTo step stop F (step x) = some l2 := chainTo_tail _ _ _ _ _ _ h
      cases l2 with
      | nil =>
        have := chainTo_nil _ _ _ _ htail
        simpa using this
      | cons b r =>
        have := chainTo_head _ _ _ _ _ _ htail
        simpa using this
  | a :: l1', F, x => fun h => by
    match F, h with
    | F + 1, h =>
      have hhead : x = a := chainTo_head _ _ _ _ _ _ h
      subst hhead
      have htail : chainTo step stop F (step x) = some (l1' ++ j :: l2) :=
        chainTo_tail _ _ _ _ _ _ h
      exact chainTo_next step stop j l2 l1' F (step x) htail

theorem DownE_inv (s : Matrix) (x y : Nat) (h : s.DownE x = y) (hy : y ≠ 0) :
    (s.get x).down = y ∧ (s.get x).mat = true ∧ y ≠ 1 := by
  rw [Matrix.DownE] at h
  split_ifs at h with hc
  · exact ⟨h, hc.1, h ▸ hc.2⟩
  · exact absurd h.symm hy

theorem UpE_inv (s : Matrix) (x y : Nat) (h : s.UpE x = y) (hy : y ≠ 0) :
    (s.get x).up = y ∧ (s.get x).mat = true ∧ y ≠ 1 := by
  rw [Matrix.UpE] at h
  split_ifs at h with hc
  · exact ⟨h, hc.1, h ▸ hc.2⟩
  · exact absurd h.symm hy

theorem RightE_inv (s : Matrix) (x y : Nat) (h : s.RightE x = y) (hy : y ≠ 0) :
    (s.get x).right = y ∧ (s.get x).mat = true ∧ y ≠ 1 := by
  rw [Matrix.RightE] at h
  split_ifs at h with hc
  · exact ⟨h, hc.1, h ▸ hc.2⟩
  · exact absurd h.symm hy

theorem LeftE_inv (s : Matrix) (x y : Nat) (h : s.LeftE x = y) (hy : y ≠ 0) :
    (s.get x).left = y ∧ (s.get x).mat = true ∧ y ≠ 1 := by
  rw [Matrix.LeftE] at h
  split_ifs at h with hc
  · exact ⟨h, hc.1, h ▸ hc.2⟩
  · exact absurd h.symm hy

theorem HeadE_inv (s : Matrix) (y : Nat) (h : s.HeadE = y) (hy : y ≠ 0) :
    (s.get 1).right = y ∧ y ≠ 1 := by
  rw [Matrix.HeadE] at h
  split_ifs at h with hc
  · exact absurd h.symm hy
  · exact ⟨h, h ▸ hc⟩

/-- The scan of a column's vertical ring downward from the header. -/
def dChain (s : Matrix) (c : Nat) : Option (List Nat) :=
  chainTo (s.DownE) c (s.elems.size + 1) (s.DownE c)

/-- The scan of a column's vertical ring upward from the header. -/
def uChain (s : Matrix) (c : Nat) : Option (List Nat) :=
  chainTo (s.UpE) c (s.elems.size + 1) (s.UpE c)

/-- The scan of an element's row ring rightward. -/
def rChain (s : Matrix) (i : Nat) : Option (List Nat) :=
  chainTo (s.RightE) i (s.elems.size + 1) (s.RightE i)

/-- The scan of an element's row ring leftward. -/
def lChain (s : Matrix) (i : Nat) : Option (List Nat) :=
  chainTo (s.LeftE) i (s.elems.size + 1) (s.LeftE i)

/-- Well-formedness of a matrix state, relative to explicit ring data: `hs`
is the live header list, `cls h` the vertical ring of a live header `h`, and
`rowF x` the row ring of an item `x`. -/
structure WFd (s : Matrix) (hs : List Nat) (cls : Nat → List Nat)
    (rowF : Nat → List Nat) : Prop where
  hsz1 : 1 < s.elems.size
  hszM : s.elems.size < M64 - 1
  hmst : (s.get 1).mat = false
  hmstval : (s.get 1).val = Val.vnil
  hchain : hChain s = some hs
  hnd : hs.Nodup
  hhd : ∀ h ∈ hs, (s.get h).mat = true ∧ 1 < h ∧ h < s.elems.size ∧
      (s.get h).column = h ∧ ∃ n, (s.get h).val = Val.vhead n (cls h).length
  hlen : ∀ h ∈ hs, (cls h).length < M64 - 1
  hHsym : ∀ h ∈ 1 :: hs, (s.get ((s.get h).right)).left = h ∧
      (s.get ((s.get h).left)).right = h
  hHnbr : ∀ h ∈ 1 :: hs, (s.get h).right ∈ 1 :: hs ∧ (s.get h).left ∈ 1 :: hs
  hcol : ∀ h ∈ hs, dChain s h = some (cls h) ∧ uChain s h = some (cls h).reverse
  hitem : ∀ h ∈ hs, ∀ j ∈ cls h, (s.get j).mat = true ∧ 1 < j ∧ j < s.elems.size ∧
      (s.get j).column = h ∧ (s.get j).val = Val.vitem
  hvsymv : ∀ h ∈ hs, ∀ x ∈ h :: cls h,
      (s.get ((s.get x).down)).up = x ∧ (s.get ((s.get x).up)).down = x
  hallnd : ((hs.map (fun h => h :: cls h)).flatten).Nodup
  hrow : ∀ x, x < s.elems.size → (s.get x).val = Val.vitem →
      rChain s x = some (rowF x) ∧ lChain s x = some (rowF x).reverse ∧
      x ∉ rowF x ∧
      (∀ m ∈ rowF x, (s.get m).val = Val.vitem ∧ m < s.elems.size ∧
        (s.get m).mat = true ∧ (s.get m).column ≠ (s.get x).column ∧
        (∀ y, y ∈ x :: rowF x ↔ y ∈ m :: rowF m)) ∧
      ((x :: rowF x).map (fun m => (s.get m).column)).Nodup
  hliverow : ∀ h ∈ hs, ∀ i ∈ cls h, ∀ m ∈ rowF i,
      (s.get m).column ∈ hs ∧ m ∈ cls ((s.get m).column)
  hrownd : ∀ h ∈ hs, (((cls h).map rowF).flatten).Nodup
  hvals : ValsOK s

/-- Well-formedness with the ring data existentially hidden. -/
def WF (s : Matrix) : Prop :=
  ∃ hs cls rowF, WFd s hs cls rowF

theorem headD_mem (l : List Nat) (a : Nat) : l.headD a ∈ a :: l := by
  cases l with
  | nil => simp
  | cons b r => simp

theorem headD_reverse_mem (l : List Nat) (a : Nat) : l.reverse.headD a ∈ a :: l := by
  cases hl : l.reverse with
  | nil => simp
  | cons b r =>
    have hb : b ∈ l := by
      have : b ∈ l.reverse := hl ▸ List.mem_cons_self ..
      simpa using this
    simp only [List.headD_cons]
    exact List.mem_cons_of_mem a hb

theorem WFd.vert_pred (s : Matrix) (hs : List Nat) (cls : Nat → List Nat)
    (rowF : Nat → List Nat) (w : WFd s hs cls rowF) (h : Nat) (hh : h ∈ hs)
    (j : Nat) (l1 l2 : List Nat) (hdec : cls h = l1 ++ j :: l2) :
    (s.get j).up = l1.reverse.headD h ∧ (s.get j).down = l2.headD h := by
  obtain ⟨hdc, _⟩ := w.hcol h hh
  rw [dChain, hdec] at hdc
  have hjmem : j ∈ cls h := by
    rw [hdec]
    exact List.mem_append_right _ (List.mem_cons_self ..)
  obtain ⟨_, hj1, _, _, _⟩ := w.hitem h hh j hjmem
  have hh1 : 1 < h := (w.hhd h hh).2.1
  have hpred := chainTo_pred (s.DownE) h j l2 l1 (s.elems.size + 1) h hdc
  obtain ⟨hdn, _, _⟩ := DownE_inv _ _ _ hpred (by omega)
  have hpm : l1.reverse.headD h ∈ h :: cls h := by
    have := headD_reverse_mem l1 h
    rcases List.mem_cons.mp this with heq | hm
    · rw [heq]
      exact List.mem_cons_self ..
    · refine List.mem_cons_of_mem _ ?_
      rw [hdec]
      exact List.mem_append_left _ hm
  have hsym := (w.hvsymv h hh _ hpm).1
  rw [hdn] at hsym
  refine ⟨hsym, ?_⟩
  have hnext := chainTo_next (s.DownE) h j l2 l1 (s.elems.size + 1) (s.DownE h) hdc
  have hne0 : l2.headD h ≠ 0 := by
    rcases List.mem_cons.mp (headD_mem l2 h) with heq | hm
    · rw [heq]
      omega
    · have hmem2 : l2.headD h ∈ cls h := by
        rw [hdec]
        exact List.mem_append_right _ (List.mem_cons_of_mem _ hm)
      obtain ⟨_, hgt, _, _, _⟩ := w.hitem h hh _ hmem2
      omega
  exact (DownE_inv _ _ _ hnext hne0).1

theorem WFd.hdr_updown (s : Matrix) (hs : List Nat) (cls : Nat → List Nat)
    (rowF : Nat → List Nat) (w : WFd s hs cls rowF) (h : Nat) (hh : h ∈ hs) :
    (s.get h).down ∈ h :: cls h ∧ (s.get h).up ∈ h :: cls h := by
  obtain ⟨hdc, huc⟩ := w.hcol h hh
  rw [dChain] at hdc
  rw [uChain] at huc
  have hh1 : 1 < h := (w.hhd h hh).2.1
  constructor
  · cases hcl : cls h with
    | nil =>
      rw [hcl] at hdc
      have := chainTo_nil _ _ _ _ hdc
      obtain ⟨hd, _, _⟩ := DownE_inv s h h this (by omega)
      rw [hd]
      exact List.mem_cons_self ..
    | cons b r =>
      rw [hcl] at hdc
      have := chainTo_head _ _ _ _ _ _ hdc
      have hbm : b ∈ cls h := hcl ▸ List.mem_cons_self ..
      obtain ⟨_, hb1, _, _, _⟩ := w.hitem h hh b hbm
      obtain ⟨hd, _, _⟩ := DownE_inv s h b this (by omega)
      rw [hd]
      simp
  · cases hcl : (cls h).reverse with
    | nil =>
      rw [hcl] at huc
      have := chainTo_nil _ _ _ _ huc
      obtain ⟨hu, _, _⟩ := UpE_inv s h h this (by omega)
      rw [hu]
      exact List.mem_cons_self ..
    | cons b r =>
      rw [hcl] at huc
      have := chainTo_head _ _ _ _ _ _ huc
      have hbm : b ∈ cls h := by
        have : b ∈ (cls h).reverse := hcl ▸ List.mem_cons_self ..
        simpa using this
      obtain ⟨_, hb1, _, _, _⟩ := w.hitem h hh b hbm
      obtain ⟨hu, _, _⟩ := UpE_inv s h b this (by omega)
      rw [hu]
      exact List.mem_cons_of_mem _ hbm

theorem WFd.vert_updown_mem (s : Matrix) (hs : List Nat) (cls : Nat → List Nat)
    (rowF : Nat → List Nat) (w : WFd s hs cls rowF) (h : Nat) (hh : h ∈ hs)
    (j : Nat) (hj : j ∈ cls h) :
    (s.get j).up ∈ h :: cls h ∧ (s.get j).down ∈ h :: cls h := by
  obtain ⟨l1, l2, hdec⟩ := List.append_of_mem hj
  obtain ⟨hu, hd⟩ := WFd.vert_pred s hs cls rowF w h hh j l1 l2 hdec
  constructor
  · rw [hu]
    rcases List.mem_cons.mp (headD_reverse_mem l1 h) with heq | hm
    · rw [heq]
      exact List.mem_cons_self ..
    · refine List.mem_cons_of_mem _ ?_
      rw [hdec]
      exact List.mem_append_left _ hm
  · rw [hd]
    rcases List.mem_cons.mp (headD_mem l2 h) with heq | hm
    · rw [heq]
      exact List.mem_cons_self ..
    · refine List.mem_cons_of_mem _ ?_
      rw [hdec]
      exact List.mem_append_right _ (List.mem_cons_of_mem _ hm)


theorem mem_L_of (hs : List Nat) (cls : Nat → List Nat) (h y : Nat) (hh : h ∈ hs)
    (hy : y ∈ h :: cls h) : y ∈ (hs.map (fun h => h :: cls h)).flatten := by
  exact List.mem_flatten.mpr ⟨h :: cls h, List.mem_map.mpr ⟨h, hh, rfl⟩, hy⟩

theorem WFd.val_disj (s : Matrix) (hs : List Nat) (cls : Nat → List Nat)
    (rowF : Nat → List Nat) (w : WFd s hs cls rowF) (y : Nat) (hy : y ∈ 1 :: hs)
    (z : Nat) (hz : (s.get z).val = Val.vitem) : y ≠ z := by
  intro heq
  subst heq
  rcases List.mem_cons.mp hy with rfl | hm
  · rw [w.hmstval] at hz
    cases hz
  · obtain ⟨_, _, _, _, n, hval⟩ := w.hhd y hm
    rw [hval] at hz
    cases hz

theorem WFd.seq_facts (s : Matrix) (hs : List Nat) (cls : Nat → List Nat)
    (rowF : Nat → List Nat) (w : WFd s hs cls rowF) (c : Nat) (hc : c ∈ hs)
    (j : Nat) (hj : j ∈ ((cls c).map rowF).flatten) :
    (s.get j).val = Val.vitem ∧ (s.get j).mat = true ∧ 1 < j ∧ j < s.elems.size ∧
    (s.get j).column ≠ c ∧ (s.get j).column ∈ hs ∧ j ∈ cls ((s.get j).column) := by
  obtain ⟨l, hlmem, hjl⟩ := List.mem_flatten.mp hj
  obtain ⟨i, hi, rfl⟩ := List.mem_map.mp hlmem
  obtain ⟨hmi, hi1, hisz, hicol, hival⟩ := w.hitem c hc i hi
  obtain ⟨_, _, _, hmem, _⟩ := w.hrow i hisz hival
  obtain ⟨hjval, hjsz, hjmat, hjcol, _⟩ := hmem j hjl
  obtain ⟨hcolhs, hincls⟩ := w.hliverow c hc i hi j hjl
  refine ⟨hjval, hjmat, ?_, hjsz, by rw [← hicol]; exact hjcol, hcolhs, hincls⟩
  obtain ⟨_, hj1, _, _, _⟩ := w.hitem _ hcolhs j hincls
  exact hj1

theorem WFd.fam_of (s : Matrix) (hs : List Nat) (cls : Nat → List Nat)
    (rowF : Nat → List Nat) (w : WFd s hs cls rowF) (d : Nat) (hd : d ∈ hs)
    (y : Nat) (hy : y ∈ d :: cls d) : inFam s d y := by
  rcases List.mem_cons.mp hy with rfl | hm
  · exact Or.inr rfl
  · exact Or.inl (w.hitem d hd y hm).2.2.2.1

theorem WFd.hrcne (s : Matrix) (hs : List Nat) (cls : Nat → List Nat)
    (rowF : Nat → List Nat) (w : WFd s hs cls rowF) (c : Nat) (hc : c ∈ hs) :
    (s.get c).right ≠ c := by
  obtain ⟨hmatc, hc1, _, _, _⟩ := w.hhd c hc
  obtain ⟨l1, l2, hdec⟩ := List.append_of_mem hc
  have hch := w.hchain
  rw [hChain, hdec] at hch
  have hnext := chainTo_next (s.RightE) 0 c l2 l1 (s.elems.size + 1) s.HeadE hch
  cases l2 with
  | nil =>
    simp only [List.headD_nil] at hnext
    rw [Matrix.RightE] at hnext
    split_ifs at hnext with hcond
    · exfalso
      rcases List.mem_cons.mp (w.hHnbr c (List.mem_cons_of_mem _ hc)).1 with h1 | hm
      · rw [hnext] at h1
        cases h1
      · obtain ⟨_, hgt, _, _, _⟩ := w.hhd _ hm
        rw [hnext] at hgt
        omega
    · push_neg at hcond
      rw [hcond hmatc]
      omega
  | cons b r =>
    simp only [List.headD_cons] at hnext
    have hbm : b ∈ hs := by
      rw [hdec]
      exact List.mem_append_right _ (List.mem_cons_of_mem _ (List.mem_cons_self ..))
    obtain ⟨_, hb1, _, _, _⟩ := w.hhd b hbm
    obtain ⟨hr, _, _⟩ := RightE_inv _ _ _ hnext (by omega)
    rw [hr]
    have hcnot : c ∉ b :: r := by
      have := w.hnd
      rw [hdec] at this
      have h2 := (List.nodup_append.mp this).2.1
      exact (List.nodup_cons.mp h2).1
    intro heq
    exact hcnot (List.mem_cons.mpr (Or.inl heq.symm))

theorem WFd_cover_uncover (s : Matrix) (hs : List Nat) (cls : Nat → List Nat)
    (rowF : Nat → List Nat) (w : WFd s hs cls rowF) (c : Nat) (hc : c ∈ hs) :
    (s.cover c).uncover c = s := by
  obtain ⟨hmatc, hc1, hcsz, hccol, n, hcval⟩ := w.hhd c hc
  have hrcne := WFd.hrcne s hs cls rowF w c hc
  have hlcne : (s.get c).left ≠ c := by
    intro heq
    have := (w.hHsym c (List.mem_cons_of_mem _ hc)).2
    rw [heq] at this
    exact hrcne this
  have hfst : ((cls c).map (fun i => (i, rowF i))).map Prod.fst = cls c := by
    rw [List.map_map]
    exact List.map_id _
  have hsnd : ((cls c).map (fun i => (i, rowF i))).map Prod.snd = (cls c).map rowF := by
    rw [List.map_map]
    rfl
  apply cover_uncover s c ((cls c).map (fun i => (i, rowF i)))
    ((hs.map (fun h => h :: cls h)).flatten)
  case hDn =>
    rw [hfst]
    exact (w.hcol c hc).1
  case hUp =>
    rw [hfst]
    exact (w.hcol c hc).2
  case hR =>
    intro p hp
    obtain ⟨i, hi, rfl⟩ := List.mem_map.mp hp
    obtain ⟨_, _, hisz, _, hival⟩ := w.hitem c hc i hi
    exact (w.hrow i hisz hival).1
  case hL =>
    intro p hp
    obtain ⟨i, hi, rfl⟩ := List.mem_map.mp hp
    obtain ⟨_, _, hisz, _, hival⟩ := w.hitem c hc i hi
    exact (w.hrow i hisz hival).2.1
  case hseqnd =>
    rw [hsnd]
    exact w.hrownd c hc
  case hvf =>
    intro j hj
    rw [hsnd] at hj
    obtain ⟨_, _, _, _, _, hcolhs, hincls⟩ := WFd.seq_facts s hs cls rowF w c hc j hj
    obtain ⟨hup, hdn⟩ := WFd.vert_updown_mem s hs cls rowF w _ hcolhs j hincls
    exact ⟨WFd.fam_of s hs cls rowF w _ hcolhs _ hup,
      WFd.fam_of s hs cls rowF w _ hcolhs _ hdn⟩
  case hid =>
    intro j hj
    rw [hsnd] at hj
    obtain ⟨_, _, _, _, _, hcolhs, _⟩ := WFd.seq_facts s hs cls rowF w c hc j hj
    rw [(w.hhd _ hcolhs).2.2.2.1]
  case hnh =>
    intro j hj j' hj'
    rw [hsnd] at hj hj'
    obtain ⟨_, _, _, _, _, hcolhs, _⟩ := WFd.seq_facts s hs cls rowF w c hc j hj
    obtain ⟨hval', _, _, _, _, _, _⟩ := WFd.seq_facts s hs cls rowF w c hc j' hj'
    exact WFd.val_disj s hs cls rowF w _ (List.mem_cons_of_mem _ hcolhs) j' hval'
  case hnc =>
    intro j hj
    rw [hsnd] at hj
    exact (WFd.seq_facts s hs cls rowF w c hc j hj).2.2.2.2.1
  case hcc => exact hccol
  case hrcol =>
    intro p hp
    obtain ⟨i, hi, rfl⟩ := List.mem_map.mp hp
    exact (w.hitem c hc i hi).2.2.2.1
  case hLnd => exact w.hallnd
  case hLsym =>
    intro x hx
    obtain ⟨l, hlmem, hxl⟩ := List.mem_flatten.mp hx
    obtain ⟨h, hh, rfl⟩ := List.mem_map.mp hlmem
    exact w.hvsymv h hh x hxl
  case hLcl =>
    intro x hx
    obtain ⟨l, hlmem, hxl⟩ := List.mem_flatten.mp hx
    obtain ⟨h, hh, rfl⟩ := List.mem_map.mp hlmem
    rcases List.mem_cons.mp hxl with rfl | hm
    · obtain ⟨hdn, hup⟩ := WFd.hdr_updown s hs cls rowF w x hh
      exact ⟨mem_L_of hs cls x _ hh hdn, mem_L_of hs cls x _ hh hup⟩
    · obtain ⟨hup, hdn⟩ := WFd.vert_updown_mem s hs cls rowF w h hh x hm
      exact ⟨mem_L_of hs cls h _ hh hdn, mem_L_of hs cls h _ hh hup⟩
  case hLbd =>
    intro x hx
    obtain ⟨l, hlmem, hxl⟩ := List.mem_flatten.mp hx
    obtain ⟨h, hh, rfl⟩ := List.mem_map.mp hlmem
    rcases List.mem_cons.mp hxl with rfl | hm
    · exact (w.hhd x hh).2.2.1
    · exact (w.hitem h hh x hm).2.2.1
  case hvals => exact w.hvals
  case hsubL =>
    intro j hj
    rw [hsnd] at hj
    obtain ⟨_, _, _, _, _, hcolhs, hincls⟩ := WFd.seq_facts s hs cls rowF w c hc j hj
    exact mem_L_of hs cls _ j hcolhs (List.mem_cons_of_mem _ hincls)
  case hH1 => exact (w.hHsym c (List.mem_cons_of_mem _ hc)).1
  case hH2 => exact (w.hHsym c (List.mem_cons_of_mem _ hc)).2
  case hrcne => exact hrcne
  case hlcne => exact hlcne
  case hhdrL =>
    intro p hp
    obtain ⟨i, hi, rfl⟩ := List.mem_map.mp hp
    have hlmem := (w.hHnbr c (List.mem_cons_of_mem _ hc)).2
    constructor
    · exact WFd.val_disj s hs cls rowF w _ hlmem i (w.hitem c hc i hi).2.2.2.2
    · intro hmem
      have hseqm : i ∈ ((cls c).map rowF).flatten → True := fun _ => trivial
      obtain ⟨_, _, hisz, _, hival⟩ := w.hitem c hc i hi
      obtain ⟨_, _, _, hmemf, _⟩ := w.hrow i hisz hival
      exact WFd.val_disj s hs cls rowF w _ hlmem _ (hmemf _ hmem).1 rfl
  case hhdrR =>
    intro p hp
    obtain ⟨i, hi, rfl⟩ := List.mem_map.mp hp
    have hrmem := (w.hHnbr c (List.mem_cons_of_mem _ hc)).1
    constructor
    · exact WFd.val_disj s hs cls rowF w _ hrmem i (w.hitem c hc i hi).2.2.2.2
    · intro hmem
      obtain ⟨_, _, hisz, _, hival⟩ := w.hitem c hc i hi
      obtain ⟨_, _, _, hmemf, _⟩ := w.hrow i hisz hival
      exact WFd.val_disj s hs cls rowF w _ hrmem _ (hmemf _ hmem).1 rfl

theorem WFd_cover_eq (s : Matrix) (hs : List Nat) (cls : Nat → List Nat)
    (rowF : Nat → List Nat) (w : WFd s hs cls rowF) (c : Nat) (hc : c ∈ hs) :
    s.cover c = unlinkSeq (hdrUnlink s c) (((cls c).map rowF).flatten) := by
  obtain ⟨hmatc, hc1, hcsz, hccol, n, hcval⟩ := w.hhd c hc
  have hrcne := WFd.hrcne s hs cls rowF w c hc
  have hfst : ((cls c).map (fun i => (i, rowF i))).map Prod.fst = cls c := by
    rw [List.map_map]
    exact List.map_id _
  have hsnd : ((cls c).map (fun i => (i, rowF i))).map Prod.snd = (cls c).map rowF := by
    rw [List.map_map]
    rfl
  have hDfun : (hdrUnlink s c).DownE = s.DownE := funext fun y => DownE_hdrUnlink ..
  have hsz0 : (hdrUnlink s c).elems.size = s.elems.size := size_hdrUnlink ..
  have hget0 : ∀ y, ((hdrUnlink s c).get y).column = (s.get y).column :=
    fun y => hdrUnlink_column ..
  have hval0 : ∀ y, ((hdrUnlink s c).get y).val = (s.get y).val :=
    fun y => hdrUnlink_val ..
  rw [Matrix.cover]
  show coverCols (hdrUnlink s c) ((hdrUnlink s c).elems.size + 1) c
    ((hdrUnlink s c).DownE c) = unlinkSeq (hdrUnlink s c) (((cls c).map rowF).flatten)
  rw [← hsnd]
  apply coverCols_eq c ((hdrUnlink s c).elems.size + 1)
    ((cls c).map (fun i => (i, rowF i))) (hdrUnlink s c) ((hdrUnlink s c).DownE c)
  · rw [hfst, hDfun, hsz0]
    exact (w.hcol c hc).1
  · intro p hp
    obtain ⟨i, hi, rfl⟩ := List.mem_map.mp hp
    obtain ⟨_, _, hisz, _, hival⟩ := w.hitem c hc i hi
    have hch := (w.hrow i hisz hival).1
    rw [rChain] at hch
    have hlmem := (w.hHnbr c (List.mem_cons_of_mem _ hc)).2
    have hstart : (hdrUnlink s c).RightE i = s.RightE i :=
      RightE_hdrUnlink_of_ne s c i hrcne
        (fun h' => WFd.val_disj s hs cls rowF w _ hlmem i hival h'.symm)
    rw [hsz0, hstart]
    apply chainTo_congr (s.RightE) ((hdrUnlink s c).RightE) i (s.elems.size + 1) _ _ hch
    intro y hy
    obtain ⟨_, _, _, hmemf, _⟩ := w.hrow i hisz hival
    exact RightE_hdrUnlink_of_ne s c y hrcne
      (fun h' => WFd.val_disj s hs cls rowF w _ hlmem y (hmemf y hy).1 h'.symm)
  · intro j hj
    rw [hsnd] at hj
    obtain ⟨_, _, _, _, _, hcolhs, hincls⟩ := WFd.seq_facts s hs cls rowF w c hc j hj
    obtain ⟨hup, hdn⟩ := WFd.vert_updown_mem s hs cls rowF w _ hcolhs j hincls
    have h1 := WFd.fam_of s hs cls rowF w _ hcolhs _ hup
    have h2 := WFd.fam_of s hs cls rowF w _ hcolhs _ hdn
    constructor
    · rw [hget0, hdrUnlink_up]
      exact (inFam_congr s (hdrUnlink s c) _ _ (hget0 _)).mpr h1
    · rw [hget0, hdrUnlink_down]
      exact (inFam_congr s (hdrUnlink s c) _ _ (hget0 _)).mpr h2
  · intro j hj
    rw [hsnd] at hj
    obtain ⟨_, _, _, _, _, hcolhs, _⟩ := WFd.seq_facts s hs cls rowF w c hc j hj
    rw [hget0, hget0]
    rw [(w.hhd _ hcolhs).2.2.2.1]
  · intro j hj j' hj'
    rw [hsnd] at hj hj'
    obtain ⟨_, _, _, _, _, hcolhs, _⟩ := WFd.seq_facts s hs cls rowF w c hc j hj
    obtain ⟨hval', _, _, _, _, _, _⟩ := WFd.seq_facts s hs cls rowF w c hc j' hj'
    rw [hget0]
    exact WFd.val_disj s hs cls rowF w _ (List.mem_cons_of_mem _ hcolhs) j' hval'
  · intro j hj
    rw [hsnd] at hj
    rw [hget0]
    exact (WFd.seq_facts s hs cls rowF w c hc j hj).2.2.2.2.1
  · rw [hget0]
    exact hccol
  · intro p hp
    obtain ⟨i, hi, rfl⟩ := List.mem_map.mp hp
    rw [hget0]
    exact (w.hitem c hc i hi).2.2.2.1


/-- All live vertical elements: each live header with its ring. -/
def Lof (hs : List Nat) (cls : Nat → List Nat) : List Nat :=
  (hs.map (fun h => h :: cls h)).flatten

theorem mem_Lof (hs : List Nat) (cls : Nat → List Nat) (h y : Nat) (hh : h ∈ hs)
    (hy : y ∈ h :: cls h) : y ∈ Lof hs cls :=
  List.mem_flatten.mpr ⟨h :: cls h, List.mem_map.mpr ⟨h, hh, rfl⟩, hy⟩

theorem Lof_congr (hs : List Nat) (a b : Nat → List Nat)
    (h : ∀ x ∈ hs, a x = b x) : Lof hs a = Lof hs b := by
  unfold Lof
  congr 1
  exact List.map_congr_left (fun x hx => by rw [h x hx])

theorem Lof_cons (a : Nat) (hs : List Nat) (cls : Nat → List Nat) :
    Lof (a :: hs) cls = (a :: cls a) ++ Lof hs cls := by
  unfold Lof
  rw [List.map_cons, List.flatten_cons]

theorem Lof_group_nodup : ∀ (hs : List Nat) (cls : Nat → List Nat),
    (Lof hs cls).Nodup → ∀ h ∈ hs, (h :: cls h).Nodup
  | [], _ => by
    intro _ h hh
    exact absurd hh (List.not_mem_nil _)
  | a :: hs', cls => by
    intro hnd h hh
    rw [Lof_cons] at hnd
    obtain ⟨h1, h2, _⟩ := List.nodup_append.mp hnd
    rcases List.mem_cons.mp hh with rfl | hm
    · exact h1
    · exact Lof_group_nodup hs' cls h2 h hm

theorem Lof_disjoint : ∀ (hs : List Nat) (cls : Nat → List Nat),
    (Lof hs cls).Nodup → ∀ g ∈ hs, ∀ d ∈ hs, g ≠ d →
    ∀ y ∈ g :: cls g, y ∉ d :: cls d
  | [], _ => by
    intro _ g hg
    exact absurd hg (List.not_mem_nil _)
  | a :: hs', cls => by
    intro hnd g hg d hd hne y hyg
    rw [Lof_cons] at hnd
    obtain ⟨h1, h2, hdisj⟩ := List.nodup_append.mp hnd
    rcases List.mem_cons.mp hg with rfl | hgm
    · rcases List.mem_cons.mp hd with rfl | hdm
      · exact absurd rfl hne
      · intro hyd
        exact hdisj hyg (mem_Lof hs' cls d y hdm hyd)
    · rcases List.mem_cons.mp hd with rfl | hdm
      · intro hyd
        exact hdisj hyd (mem_Lof hs' cls g y hgm hyg)
      · exact Lof_disjoint hs' cls h2 g hgm d hdm hne y hyg

theorem Lof_erase : ∀ (hs : List Nat) (cls : Nat → List Nat) (d j : Nat),
    (Lof hs cls).Nodup → d ∈ hs → j ∈ cls d → j ≠ d →
    Lof hs (fun h => if h = d then (cls d).erase j else cls h) = (Lof hs cls).erase j
  | [], _, _, _ => by
    intro _ hd
    exact absurd hd (List.not_mem_nil _)
  | a :: hs', cls, d, j => by
    intro hnd hd hj hjd
    rw [Lof_cons] at hnd
    obtain ⟨h1, h2, hdisj⟩ := List.nodup_append.mp hnd
    rcases List.mem_cons.mp hd with rfl | hdm
    · have hdnot : d ∉ hs' := by
        intro hd'
        exact hdisj (List.mem_cons_self ..)
          (mem_Lof hs' cls d d hd' (List.mem_cons_self ..))
      rw [Lof_cons, Lof_cons]
      have hrest : Lof hs' (fun h => if h = d then (cls d).erase j else cls h) =
          Lof hs' cls := by
        apply Lof_congr
        intro x hx
        rw [if_neg (fun heq => hdnot (by rw [← heq]; exact hx))]
      rw [hrest]
      have hjin : j ∈ d :: cls d := List.mem_cons_of_mem _ hj
      rw [List.erase_append_left _ hjin]
      have hstep : (d :: cls d).erase j = d :: (cls d).erase j := by
        rw [List.erase_cons]
        split
        · rename_i hbeq
          exact absurd (by simpa using hbeq : d = j) (fun h => hjd h.symm)
        · rfl
      rw [hstep, if_pos rfl]
    · have hane : a ≠ d := by
        intro heq
        subst heq
        exact hdisj (List.mem_cons_self ..)
          (mem_Lof hs' cls a a hdm (List.mem_cons_self ..))
      rw [Lof_cons, Lof_cons, if_neg hane]
      have hrest := Lof_erase hs' cls d j h2 hdm hj hjd
      rw [hrest]
      have hjnot : j ∉ a :: cls a := by
        intro hjin
        exact hdisj hjin (mem_Lof hs' cls d j hdm (List.mem_cons_of_mem _ hj))
      rw [List.erase_append_right _ hjnot]

/-- Identification of a ring member's vertical neighbors from the downward
scan and pointwise symmetry. -/
theorem ring_updown (t : Matrix) (d j : Nat) (l1 l2 : List Nat)
    (hdc : chainTo (t.DownE) d (t.elems.size + 1) (t.DownE d) = some (l1 ++ j :: l2))
    (hsymP : ∀ x ∈ d :: (l1 ++ j :: l2), (t.get ((t.get x).down)).up = x)
    (hd1 : 1 < d) (hmem1 : ∀ x ∈ l1 ++ j :: l2, 1 < x) :
    (t.get j).up = l1.reverse.headD d ∧ (t.get j).down = l2.headD d := by
  have hj1 : 1 < j := hmem1 j (List.mem_append_right _ (List.mem_cons_self ..))
  have hpred := chainTo_pred (t.DownE) d j l2 l1 (t.elems.size + 1) d hdc
  obtain ⟨hdn, _, _⟩ := DownE_inv _ _ _ hpred (by omega)
  have hpm : l1.reverse.headD d ∈ d :: (l1 ++ j :: l2) := by
    rcases List.mem_cons.mp (headD_reverse_mem l1 d) with heq | hm
    · rw [heq]
      exact List.mem_cons_self ..
    · exact List.mem_cons_of_mem _ (List.mem_append_left _ hm)
  have hsym := hsymP _ hpm
  rw [hdn] at hsym
  refine ⟨hsym, ?_⟩
  have hnext := chainTo_next (t.DownE) d j l2 l1 (t.elems.size + 1) (t.DownE d) hdc
  have hne0 : l2.headD d ≠ 0 := by
    rcases List.mem_cons.mp (headD_mem l2 d) with heq | hm
    · rw [heq]
      omega
    · have := hmem1 _ (List.mem_append_right _ (List.mem_cons_of_mem _ hm))
      omega
  exact (DownE_inv _ _ _ hnext hne0).1

/-- Mirror of `ring_updown` read off the upward scan. -/
theorem ring_updown_up (t : Matrix) (d j : Nat) (l1 l2 : List Nat)
    (huc : chainTo (t.UpE) d (t.elems.size + 1) (t.UpE d) = some (l1 ++ j :: l2))
    (hsymP : ∀ x ∈ d :: (l1 ++ j :: l2), (t.get ((t.get x).up)).down = x)
    (hd1 : 1 < d) (hmem1 : ∀ x ∈ l1 ++ j :: l2, 1 < x) :
    (t.get j).down = l1.reverse.headD d ∧ (t.get j).up = l2.headD d := by
  have hj1 : 1 < j := hmem1 j (List.mem_append_right _ (List.mem_cons_self ..))
  have hpred := chainTo_pred (t.UpE) d j l2 l1 (t.elems.size + 1) d huc
  obtain ⟨hdn, _, _⟩ := UpE_inv _ _ _ hpred (by omega)
  have hpm : l1.reverse.headD d ∈ d :: (l1 ++ j :: l2) := by
    rcases List.mem_cons.mp (headD_reverse_mem l1 d) with heq | hm
    · rw [heq]
      exact List.mem_cons_self ..
    · exact List.mem_cons_of_mem _ (List.mem_append_left _ hm)
  have hsym := hsymP _ hpm
  rw [hdn] at hsym
  refine ⟨hsym, ?_⟩
  have hnext := chainTo_next (t.UpE) d j l2 l1 (t.elems.size + 1) (t.UpE d) huc
  have hne0 : l2.headD d ≠ 0 := by
    rcases List.mem_cons.mp (headD_mem l2 d) with heq | hm
    · rw [heq]
      omega
    · have := hmem1 _ (List.mem_append_right _ (List.mem_cons_of_mem _ hm))
      omega
  exact (UpE_inv _ _ _ hnext hne0).1

/-- The evolving part of well-formedness along the unlink sequence of a
cover call: the live vertical rings, their sizes, and their symmetry. -/
structure VMid (t : Matrix) (hs : List Nat) (cls : Nat → List Nat) : Prop where
  hsz1 : 1 < t.elems.size
  hszM : t.elems.size < M64 - 1
  hmstval : (t.get 1).val = Val.vnil
  hhd : ∀ h ∈ hs, (t.get h).mat = true ∧ 1 < h ∧ h < t.elems.size ∧
      (t.get h).column = h ∧ ∃ n, (t.get h).val = Val.vhead n (cls h).length
  hlen : ∀ h ∈ hs, (cls h).length < M64 - 1
  hcol : ∀ h ∈ hs, dChain t h = some (cls h) ∧ uChain t h = some (cls h).reverse
  hitem : ∀ h ∈ hs, ∀ j ∈ cls h, (t.get j).mat = true ∧ 1 < j ∧ j < t.elems.size ∧
      (t.get j).column = h ∧ (t.get j).val = Val.vitem
  hsymL : VSymOn t (Lof hs cls)
  hclL : VClosed t (Lof hs cls)
  hallnd : (Lof hs cls).Nodup
  hvals : ValsOK t

theorem VMid_congr (t : Matrix) (hs : List Nat) (a b : Nat → List Nat)
    (hab : ∀ h ∈ hs, a h = b h) (v : VMid t hs a) : VMid t hs b := by
  have hL : Lof hs a = Lof hs b := Lof_congr hs a b hab
  refine ⟨v.hsz1, v.hszM, v.hmstval, ?_, ?_, ?_, ?_, ?_, ?_, ?_, v.hvals⟩
  · intro h hh
    rw [← hab h hh]
    exact v.hhd h hh
  · intro h hh
    rw [← hab h hh]
    exact v.hlen h hh
  · intro h hh
    rw [← hab h hh]
    exact v.hcol h hh
  · intro h hh
    rw [← hab h hh]
    exact v.hitem h hh
  · rw [← hL]
    exact v.hsymL
  · rw [← hL]
    exact v.hclL
  · rw [← hL]
    exact v.hallnd

theorem VMid.bounds (t : Matrix) (hs : List Nat) (cls : Nat → List Nat)
    (v : VMid t hs cls) : BoundsOn t (Lof hs cls) := by
  intro x hx
  obtain ⟨l, hlmem, hxl⟩ := List.mem_flatten.mp hx
  obtain ⟨h, hh, rfl⟩ := List.mem_map.mp hlmem
  rcases List.mem_cons.mp hxl with rfl | hm
  · exact (v.hhd x hh).2.2.1
  · exact (v.hitem h hh x hm).2.2.1


/-- Effective `val`-field formula of `decSize`. -/
theorem decSize_val (s : Matrix) (i x : Nat) :
    ((s.decSize i).get x).val =
      if x = i ∧ i < s.elems.size then decVal ((s.get x).val) else (s.get x).val := by
  rw [get_decSize]
  split_ifs <;> rfl

/-- Effective `val`-field formula of `unlinkV`, unconditionally. -/
theorem unlink_val (s : Matrix) (j x : Nat) :
    ((unlinkV s j).get x).val =
      if x = (s.get j).column ∧ (s.get j).column < s.elems.size
      then decVal ((s.get x).val) else (s.get x).val := by
  rw [unlinkV_decomp, decSize_val]
  simp only [size_updDown, size_updUp, updDown_val, updUp_val]

/-- The size decrement on a positive reduced residue is plain subtraction. -/
theorem decVal_len (len : Nat) (h1 : 0 < len) (h2 : len < M64) :
    (len + (M64 - 1)) % M64 = len - 1 := by
  have hM := M64_pos
  have he : len + (M64 - 1) = (len - 1) + 1 * M64 := by omega
  rw [he, Nat.add_mul_mod_self_right, Nat.mod_eq_of_lt (by omega)]

/-- One step of a cover call's inner loop preserves the evolving vertical
invariant: unlinking item `j` of column `d` removes it from `d`'s ring data
and decrements `d`'s size, leaving every other live ring untouched. -/
theorem VMid_unlink (t : Matrix) (hs : List Nat) (cls : Nat → List Nat)
    (v : VMid t hs cls) (d j : Nat) (hd : d ∈ hs) (hjd : j ∈ cls d) :
    VMid (unlinkV t j) hs (fun h => if h = d then (cls d).erase j else cls h) := by
  obtain ⟨hmatd, hd1, hdsz, hdcol, n, hdval⟩ := v.hhd d hd
  obtain ⟨hmatj, hj1, hjsz, hjcol, hjval⟩ := v.hitem d hd j hjd
  have hgnd : (d :: cls d).Nodup := Lof_group_nodup hs cls v.hallnd d hd
  have hdnotin : d ∉ cls d := List.Nodup.not_mem hgnd
  have hclsnd : (cls d).Nodup := List.Nodup.of_cons hgnd
  have hjned : j ≠ d := fun h => hdnotin (h ▸ hjd)
  obtain ⟨l1, l2, hdec⟩ := List.append_of_mem hjd
  have hclsnd' := hclsnd
  rw [hdec] at hclsnd'
  have hl1nd : l1.Nodup := (List.nodup_append.mp hclsnd').1
  have hjl2nd : (j :: l2).Nodup := (List.nodup_append.mp hclsnd').2.1
  have hdisj12 : l1.Disjoint (j :: l2) := (List.nodup_append.mp hclsnd').2.2
  have hl2nd : l2.Nodup := List.Nodup.of_cons hjl2nd
  have hjnl2 : j ∉ l2 := List.Nodup.not_mem hjl2nd
  have hjnl1 : j ∉ l1 := fun h => hdisj12 h (List.mem_cons_self ..)
  have hdnl1 : d ∉ l1 := fun h => hdnotin (by rw [hdec]; exact List.mem_append_left _ h)
  have hdnl2 : d ∉ l2 := fun h =>
    hdnotin (by rw [hdec]; exact List.mem_append_right _ (List.mem_cons_of_mem _ h))
  have hdisj' : ∀ m ∈ l1, m ∉ l2 ∧ m ≠ j := fun m hm =>
    ⟨fun h2 => hdisj12 hm (List.mem_cons_of_mem _ h2),
     fun he => hdisj12 hm (by rw [he]; exact List.mem_cons_self ..)⟩
  have hmem1 : ∀ x ∈ cls d, 1 < x := fun x hx => (v.hitem d hd x hx).2.1
  have hmemsz : ∀ x ∈ cls d, x < t.elems.size := fun x hx => (v.hitem d hd x hx).2.2.1
  have hmats : ∀ x ∈ cls d, (t.get x).mat = true := fun x hx => (v.hitem d hd x hx).1
  obtain ⟨hdc, huc⟩ := v.hcol d hd
  rw [dChain, hdec] at hdc
  have hsymP : ∀ x ∈ d :: (l1 ++ j :: l2), (t.get ((t.get x).down)).up = x := by
    intro x hx
    rw [← hdec] at hx
    exact (v.hsymL x (mem_Lof hs cls d x hd hx)).1
  have hmem1' : ∀ x ∈ l1 ++ j :: l2, 1 < x := by
    intro x hx
    exact hmem1 x (by rw [hdec]; exact hx)
  have hud := ring_updown t d j l1 l2 hdc hsymP hd1 hmem1'
  have hupmem : (t.get j).up ∈ d :: cls d := by
    rw [hud.1, hdec]
    rcases List.mem_cons.mp (headD_reverse_mem l1 d) with heq | hm
    · rw [heq]; exact List.mem_cons_self ..
    · exact List.mem_cons_of_mem _ (List.mem_append_left _ hm)
  have hdownmem : (t.get j).down ∈ d :: cls d := by
    rw [hud.2, hdec]
    rcases List.mem_cons.mp (headD_mem l2 d) with heq | hm
    · rw [heq]; exact List.mem_cons_self ..
    · exact List.mem_cons_of_mem _
        (List.mem_append_right _ (List.mem_cons_of_mem _ hm))
  have hupsz : (t.get j).up < t.elems.size := by
    rcases List.mem_cons.mp hupmem with heq | hm
    · rw [heq]; exact hdsz
    · exact hmemsz _ hm
  have hdownsz : (t.get j).down < t.elems.size := by
    rcases List.mem_cons.mp hdownmem with heq | hm
    · rw [heq]; exact hdsz
    · exact hmemsz _ hm
  have hdc' : chainTo ((unlinkV t j).DownE) d (t.elems.size + 1)
      ((unlinkV t j).DownE d) = some (l1 ++ l2) :=
    dchain_unlink_aux t d j l2 hmatj hupsz (t.elems.size + 1) l1 d hdc hud.1 hmatd
      (fun m hm => hmats m (by rw [hdec]; exact List.mem_append_left _ hm))
      hl1nd hdisj' hdnl1 hdnl2 (Ne.symm hjned)
  have hdchain : dChain (unlinkV t j) d = some ((cls d).erase j) := by
    rw [dChain, size_unlinkV, hdc', hdec, List.erase_append_right _ hjnl1,
      List.erase_cons_head]
  have hrev : ((l1 : List Nat) ++ j :: l2).reverse = l2.reverse ++ j :: l1.reverse := by
    rw [List.reverse_append, List.reverse_cons, List.append_assoc, List.singleton_append]
  rw [uChain, hdec, hrev] at huc
  have hup' : (t.get j).down = (l2.reverse).reverse.headD d := by
    rw [List.reverse_reverse]
    exact hud.2
  have huc' : chainTo ((unlinkV t j).UpE) d (t.elems.size + 1)
      ((unlinkV t j).UpE d) = some (l2.reverse ++ l1.reverse) :=
    uchain_unlink_aux t d j (l1.reverse) hmatj hdownsz (t.elems.size + 1)
      (l2.reverse) d huc hup' hmatd
      (fun m hm => hmats m (by
        rw [hdec]
        exact List.mem_append_right _ (List.mem_cons_of_mem _ (List.mem_reverse.mp hm))))
      (List.nodup_reverse.mpr hl2nd)
      (fun m hm => by
        have hm2 : m ∈ l2 := List.mem_reverse.mp hm
        refine ⟨fun hc => ?_, fun he => ?_⟩
        · exact hdisj12 (List.mem_reverse.mp hc) (List.mem_cons_of_mem _ hm2)
        · exact hjnl2 (by rw [← he]; exact hm2))
      (fun h => hdnl2 (List.mem_reverse.mp h))
      (fun h => hdnl1 (List.mem_reverse.mp h))
      (Ne.symm hjned)
  have huchain : uChain (unlinkV t j) d = some (((cls d).erase j).reverse) := by
    rw [uChain, size_unlinkV, huc', hdec, List.erase_append_right _ hjnl1,
      List.erase_cons_head, List.reverse_append]
  have hother : ∀ h ∈ hs, h ≠ d → dChain (unlinkV t j) h = some (cls h) ∧
      uChain (unlinkV t j) h = some (cls h).reverse := by
    intro h hh hne
    have hdisjG := Lof_disjoint hs cls v.hallnd h hh d hd hne
    have hnotd : ∀ y ∈ h :: cls h, y ≠ (t.get j).up ∧ y ≠ (t.get j).down := by
      intro y hy
      have hnd' := hdisjG y hy
      constructor
      · intro he
        exact hnd' (by rw [he]; exact hupmem)
      · intro he
        exact hnd' (by rw [he]; exact hdownmem)
    obtain ⟨hcd, hcu⟩ := v.hcol h hh
    rw [dChain] at hcd
    rw [uChain] at hcu
    constructor
    · rw [dChain, size_unlinkV,
        DownE_unlinkV_of_ne t j h (hnotd h (List.mem_cons_self ..)).1]
      apply chainTo_congr (t.DownE) _ h _ _ _ hcd
      intro y hy
      exact DownE_unlinkV_of_ne t j y (hnotd y (List.mem_cons_of_mem _ hy)).1
    · rw [uChain, size_unlinkV,
        UpE_unlinkV_of_ne t j h (hnotd h (List.mem_cons_self ..)).2]
      apply chainTo_congr (t.UpE) _ h _ _ _ hcu
      intro y hy
      exact UpE_unlinkV_of_ne t j y
        (hnotd y (List.mem_cons_of_mem _ (List.mem_reverse.mp hy))).2
  have hjLof : j ∈ Lof hs cls := mem_Lof hs cls d j hd (List.mem_cons_of_mem _ hjd)
  have htriple := vsym_closed_unlink t (Lof hs cls) j v.hallnd v.hsymL v.hclL
    (VMid.bounds t hs cls v) hjLof
  have hLof : Lof hs (fun h => if h = d then (cls d).erase j else cls h) =
      (Lof hs cls).erase j := Lof_erase hs cls d j v.hallnd hd hjd hjned
  have hpos : 0 < (cls d).length := List.length_pos.mpr (List.ne_nil_of_mem hjd)
  have hltM : (cls d).length < M64 := by
    have h1 := v.hlen d hd
    have h2 := M64_pos
    omega
  refine ⟨?_, ?_, ?_, ?_, ?_, ?_, ?_, ?_, ?_, ?_, ?_⟩
  · rw [size_unlinkV]
    exact v.hsz1
  · rw [size_unlinkV]
    exact v.hszM
  · rw [unlink_val, if_neg]
    · exact v.hmstval
    · rintro ⟨h1x, _⟩
      rw [hjcol] at h1x
      omega
  · intro h hh
    obtain ⟨hm, h1, hsz, hcol', n', hval'⟩ := v.hhd h hh
    refine ⟨by rw [unlinkV_mat]; exact hm, h1, by rw [size_unlinkV]; exact hsz,
      by rw [unlinkV_column]; exact hcol', n', ?_⟩
    by_cases hhd' : h = d
    · rw [if_pos hhd', unlink_val,
        if_pos ⟨hhd'.trans hjcol.symm, by rw [hjcol]; exact hdsz⟩, hval', hhd']
      simp only [decVal]
      rw [decVal_len ((cls d).length) hpos hltM, List.length_erase_of_mem hjd]
    · rw [if_neg hhd', unlink_val, if_neg (fun hc => hhd' (hjcol ▸ hc.1))]
      exact hval'
  · intro h hh
    by_cases hhd' : h = d
    · rw [if_pos hhd', List.length_erase_of_mem hjd]
      have := v.hlen d hd
      omega
    · rw [if_neg hhd']
      exact v.hlen h hh
  · intro h hh
    by_cases hhd' : h = d
    · rw [if_pos hhd', hhd']
      exact ⟨hdchain, huchain⟩
    · rw [if_neg hhd']
      exact hother h hh hhd'
  · intro h hh j' hj'
    by_cases hhd' : h = d
    · rw [if_pos hhd'] at hj'
      have hfacts := v.hitem d hd j' (List.mem_of_mem_erase hj')
      refine ⟨by rw [unlinkV_mat]; exact hfacts.1, hfacts.2.1,
        by rw [size_unlinkV]; exact hfacts.2.2.1,
        by rw [unlinkV_column, hfacts.2.2.2.1, hhd'], ?_⟩
      rw [unlink_val]
      split_ifs with hc
      · rw [hfacts.2.2.2.2]
        rfl
      · exact hfacts.2.2.2.2
    · rw [if_neg hhd'] at hj'
      have hfacts := v.hitem h hh j' hj'
      refine ⟨by rw [unlinkV_mat]; exact hfacts.1, hfacts.2.1,
        by rw [size_unlinkV]; exact hfacts.2.2.1,
        by rw [unlinkV_column]; exact hfacts.2.2.2.1, ?_⟩
      rw [unlink_val]
      split_ifs with hc
      · rw [hfacts.2.2.2.2]
        rfl
      · exact hfacts.2.2.2.2
  · rw [hLof]
    exact htriple.1
  · rw [hLof]
    exact htriple.2.1
  · rw [hLof]
    exact v.hallnd.erase j
  · exact valsOK_unlinkV t j v.hvals


/-- `flatten` is monotone under sublists. -/
theorem sublist_flatten {l1 l2 : List (List Nat)} (h : l1.Sublist l2) :
    l1.flatten.Sublist l2.flatten := by
  induction h with
  | slnil => exact List.Sublist.refl _
  | cons a h ih => exact List.Sublist.trans ih (List.sublist_append_right a _)
  | cons₂ a h ih =>
    simp only [List.flatten_cons]
    exact ih.append_left a

/-- Iterated erase of a batch of elements. -/
def eraseSeq (l : List Nat) (q : List Nat) : List Nat :=
  q.foldl (fun acc j => acc.erase j) l

theorem eraseSeq_nil (l : List Nat) : eraseSeq l [] = l := rfl

theorem eraseSeq_cons (l : List Nat) (j : Nat) (q : List Nat) :
    eraseSeq l (j :: q) = eraseSeq (l.erase j) q := rfl

theorem eraseSeq_sublist : ∀ (q l : List Nat), (eraseSeq l q).Sublist l
  | [], l => List.Sublist.refl l
  | j :: q, l => by
    rw [eraseSeq_cons]
    exact List.Sublist.trans (eraseSeq_sublist q (l.erase j)) (List.erase_sublist j l)

theorem mem_eraseSeq : ∀ (q l : List Nat), l.Nodup → ∀ x,
    (x ∈ eraseSeq l q ↔ x ∈ l ∧ x ∉ q)
  | [], l => by
    intro _ x
    simp [eraseSeq_nil]
  | j :: q, l => by
    intro hnd x
    rw [eraseSeq_cons, mem_eraseSeq q (l.erase j) (hnd.erase j) x, hnd.mem_erase_iff]
    constructor
    · rintro ⟨⟨hne, hl⟩, hq⟩
      refine ⟨hl, ?_⟩
      intro hm
      rcases List.mem_cons.mp hm with rfl | hm'
      · exact hne rfl
      · exact hq hm'
    · rintro ⟨hl, hq⟩
      refine ⟨⟨fun he => hq (by rw [he]; exact List.mem_cons_self ..), hl⟩, ?_⟩
      intro hm
      exact hq (List.mem_cons_of_mem _ hm)

theorem eraseSeq_eq_of_disjoint : ∀ (q l : List Nat), (∀ j ∈ q, j ∉ l) →
    eraseSeq l q = l
  | [], _ => fun _ => rfl
  | j :: q, l => by
    intro h
    rw [eraseSeq_cons, List.erase_of_not_mem (h j (List.mem_cons_self ..))]
    exact eraseSeq_eq_of_disjoint q l (fun j' hj' => h j' (List.mem_cons_of_mem _ hj'))

theorem eraseSeq_nodup (q l : List Nat) (h : l.Nodup) : (eraseSeq l q).Nodup :=
  h.sublist (eraseSeq_sublist q l)

/-- The unlink fold of a cover call preserves the evolving vertical
invariant: the batch of unlinked elements is erased from the respective
column rings. -/
theorem VMid_unlinkSeq : ∀ (q : List Nat) (t : Matrix) (cls : Nat → List Nat)
    (hs : List Nat), VMid t hs cls → q.Nodup →
    (∀ j ∈ q, (t.get j).column ∈ hs ∧ j ∈ cls ((t.get j).column)) →
    VMid (unlinkSeq t q) hs (fun h => eraseSeq (cls h) q)
  | [], t, cls, hs => by
    intro v _ _
    exact VMid_congr t hs cls _ (fun h _ => (eraseSeq_nil (cls h)).symm) v
  | j :: q, t, cls, hs => by
    intro v hnd hcond
    obtain ⟨hdmem, hjmem⟩ := hcond j (List.mem_cons_self ..)
    have v' := VMid_unlink t hs cls v ((t.get j).column) j hdmem hjmem
    show VMid (unlinkSeq (unlinkV t j) q) hs _
    have hcond' : ∀ j' ∈ q, ((unlinkV t j).get j').column ∈ hs ∧
        j' ∈ (fun h => if h = (t.get j).column
          then (cls ((t.get j).column)).erase j else cls h)
          (((unlinkV t j).get j').column) := by
      intro j' hj'
      obtain ⟨hd', hm'⟩ := hcond j' (List.mem_cons_of_mem _ hj')
      rw [unlinkV_column]
      refine ⟨hd', ?_⟩
      have hne : j' ≠ j := fun heq => List.Nodup.not_mem hnd (by rw [← heq]; exact hj')
      show j' ∈ if (t.get j').column = (t.get j).column
        then (cls ((t.get j).column)).erase j else cls ((t.get j').column)
      by_cases he : (t.get j').column = (t.get j).column
      · rw [if_pos he]
        exact (List.mem_erase_of_ne hne).mpr (by rw [← he]; exact hm')
      · rw [if_neg he]
        exact hm'
    have hres := VMid_unlinkSeq q (unlinkV t j) _ hs v' (List.Nodup.of_cons hnd) hcond'
    apply VMid_congr _ hs _ _ _ hres
    intro h hh
    rw [eraseSeq_cons]
    by_cases he : h = (t.get j).column
    · rw [if_pos he, he]
    · rw [if_neg he]
      have hjnotin : j ∉ cls h := by
        intro hin
        have := (v.hitem h hh j hin).2.2.2.1
        exact he (by rw [← this])
      rw [List.erase_of_not_mem hjnotin]

theorem Lof_sublist (hs1 hs2 : List Nat) (cls : Nat → List Nat)
    (h : hs1.Sublist hs2) : (Lof hs1 cls).Sublist (Lof hs2 cls) :=
  sublist_flatten (h.map _)

/-- Pointwise vertical symmetry of all live elements, from full
well-formedness. -/
theorem WFd.symLof (s : Matrix) (hs : List Nat) (cls : Nat → List Nat)
    (rowF : Nat → List Nat) (w : WFd s hs cls rowF) : VSymOn s (Lof hs cls) := by
  intro x hx
  obtain ⟨l, hlmem, hxl⟩ := List.mem_flatten.mp hx
  obtain ⟨h, hh, rfl⟩ := List.mem_map.mp hlmem
  exact w.hvsymv h hh x hxl

/-- Vertical closure of the live elements, from full well-formedness. -/
theorem WFd.closedLof (s : Matrix) (hs : List Nat) (cls : Nat → List Nat)
    (rowF : Nat → List Nat) (w : WFd s hs cls rowF) : VClosed s (Lof hs cls) := by
  intro x hx
  obtain ⟨l, hlmem, hxl⟩ := List.mem_flatten.mp hx
  obtain ⟨h, hh, rfl⟩ := List.mem_map.mp hlmem
  rcases List.mem_cons.mp hxl with rfl | hm
  · obtain ⟨hdch, huch⟩ := w.hcol x hh
    obtain ⟨hmx, hx1, _, _, _⟩ := w.hhd x hh
    constructor
    · rw [dChain] at hdch
      cases hcl : cls x with
      | nil =>
        rw [hcl] at hdch
        have h0 : s.DownE x = x := chainTo_nil _ _ _ _ hdch
        rw [(DownE_inv s x x h0 (by omega)).1]
        exact mem_Lof hs cls x x hh (List.mem_cons_self ..)
      | cons a r =>
        rw [hcl] at hdch
        have h0 : s.DownE x = a := chainTo_head _ _ _ _ _ _ hdch
        have ham : a ∈ cls x := by rw [hcl]; exact List.mem_cons_self ..
        have ha1 : 1 < a := (w.hitem x hh a ham).2.1
        rw [(DownE_inv s x a h0 (by omega)).1]
        exact mem_Lof hs cls x a hh (List.mem_cons_of_mem _ ham)
    · rw [uChain] at huch
      cases hcl : (cls x).reverse with
      | nil =>
        rw [hcl] at huch
        have h0 : s.UpE x = x := chainTo_nil _ _ _ _ huch
        rw [(UpE_inv s x x h0 (by omega)).1]
        exact mem_Lof hs cls x x hh (List.mem_cons_self ..)
      | cons b r =>
        rw [hcl] at huch
        have h0 : s.UpE x = b := chainTo_head _ _ _ _ _ _ huch
        have hbm : b ∈ cls x := by
          have : b ∈ (cls x).reverse := by rw [hcl]; exact List.mem_cons_self ..
          simpa using this
        have hb1 : 1 < b := (w.hitem x hh b hbm).2.1
        rw [(UpE_inv s x b h0 (by omega)).1]
        exact mem_Lof hs cls x b hh (List.mem_cons_of_mem _ hbm)
  · obtain ⟨l1, l2, hdec⟩ := List.append_of_mem hm
    have hud := WFd.vert_pred s hs cls rowF w h hh x l1 l2 hdec
    constructor
    · rw [hud.2]
      have hmem : l2.headD h ∈ h :: cls h := by
        rcases List.mem_cons.mp (headD_mem l2 h) with heq | hm2
        · rw [heq]; exact List.mem_cons_self ..
        · exact List.mem_cons_of_mem _
            (by rw [hdec]
                exact List.mem_append_right _ (List.mem_cons_of_mem _ hm2))
      exact mem_Lof hs cls h _ hh hmem
    · rw [hud.1]
      have hmem : l1.reverse.headD h ∈ h :: cls h := by
        rcases List.mem_cons.mp (headD_reverse_mem l1 h) with heq | hm2
        · rw [heq]; exact List.mem_cons_self ..
        · exact List.mem_cons_of_mem _ (by rw [hdec]; exact List.mem_append_left _ hm2)
      exact mem_Lof hs cls h _ hh hmem

/-- The vertical invariant holds at the header-unlinked state, read off the
full well-formedness of the original matrix. -/
theorem VMid_hdrUnlink (s : Matrix) (hs : List Nat) (cls : Nat → List Nat)
    (rowF : Nat → List Nat) (w : WFd s hs cls rowF) (c : Nat) :
    VMid (hdrUnlink s c) hs cls := by
  have hsz := size_hdrUnlink s c
  have hDfun : (hdrUnlink s c).DownE = s.DownE := funext fun y => DownE_hdrUnlink s c y
  have hUfun : (hdrUnlink s c).UpE = s.UpE := funext fun y => UpE_hdrUnlink s c y
  refine ⟨?_, ?_, ?_, ?_, ?_, ?_, ?_, ?_, ?_, ?_, ?_⟩
  · rw [hsz]; exact w.hsz1
  · rw [hsz]; exact w.hszM
  · rw [hdrUnlink_val]; exact w.hmstval
  · intro h hh
    obtain ⟨hm, h1, hszh, hcol, n, hval⟩ := w.hhd h hh
    exact ⟨by rw [hdrUnlink_mat]; exact hm, h1, by rw [hsz]; exact hszh,
      by rw [hdrUnlink_column]; exact hcol, n, by rw [hdrUnlink_val]; exact hval⟩
  · exact w.hlen
  · intro h hh
    obtain ⟨hd, hu⟩ := w.hcol h hh
    rw [dChain] at hd
    rw [uChain] at hu
    constructor
    · rw [dChain, hsz, hDfun]
      exact hd
    · rw [uChain, hsz, hUfun]
      exact hu
  · intro h hh j hj
    obtain ⟨hm, h1, hszj, hcol, hval⟩ := w.hitem h hh j hj
    exact ⟨by rw [hdrUnlink_mat]; exact hm, h1, by rw [hsz]; exact hszj,
      by rw [hdrUnlink_column]; exact hcol, by rw [hdrUnlink_val]; exact hval⟩
  · exact vsymOn_hdrUnlink s c _ (WFd.symLof s hs cls rowF w)
  · exact vclosed_hdrUnlink s c _ (WFd.closedLof s hs cls rowF w)
  · exact w.hallnd
  · exact valsOK_hdrUnlink s c w.hvals

/-- Effective `right`-field formula of `hdrUnlink`. -/
theorem hdr_right (s : Matrix) (c y : Nat) (hrc : (s.get c).right ≠ c) :
    ((hdrUnlink s c).get y).right =
      if y = (s.get c).left ∧ (s.get c).left < s.elems.size then (s.get c).right
      else (s.get y).right := by
  rw [hdrUnlink_decomp s c hrc, get_updRight]
  simp only [size_updLeft]
  split_ifs with h
  · rfl
  · rw [updLeft_right]

/-- Effective `left`-field formula of `hdrUnlink`. -/
theorem hdr_left (s : Matrix) (c y : Nat) (hrc : (s.get c).right ≠ c) :
    ((hdrUnlink s c).get y).left =
      if y = (s.get c).right ∧ (s.get c).right < s.elems.size then (s.get c).left
      else (s.get y).left := by
  rw [hdrUnlink_decomp s c hrc, updRight_left, get_updLeft]
  split_ifs with h
  · rfl
  · rfl

/-- The left neighbor of a header, identified from the header chain. -/
theorem header_pred (s : Matrix) (hs : List Nat) (cls : Nat → List Nat)
    (rowF : Nat → List Nat) (w : WFd s hs cls rowF) (c : Nat) (l1 l2 : List Nat)
    (hdec : hs = l1 ++ c :: l2) : (s.get c).left = l1.reverse.headD 1 := by
  have hch := w.hchain
  rw [hChain, hdec] at hch
  have hcmem : c ∈ hs := by
    rw [hdec]
    exact List.mem_append_right _ (List.mem_cons_self ..)
  have hc1 : 1 < c := (w.hhd c hcmem).2.1
  cases l1 with
  | nil =>
    rw [List.nil_append] at hch
    have hhd : s.HeadE = c := chainTo_head _ _ _ _ _ _ hch
    have h1r : (s.get 1).right = c := (HeadE_inv s c hhd (by omega)).1
    have hsym1 := (w.hHsym 1 (List.mem_cons_self ..)).1
    rw [h1r] at hsym1
    simpa using hsym1
  | cons a l1' =>
    rw [List.cons_append] at hch
    have hhda : s.HeadE = a := chainTo_head _ _ _ _ _ _ hch
    have htail := chainTo_tail (s.RightE) 0 (s.elems.size) s.HeadE a (l1' ++ c :: l2) hch
    rw [hhda] at htail
    have hpred := chainTo_pred (s.RightE) 0 c l2 l1' _ a htail
    have hpc := (RightE_inv s _ c hpred (by omega)).1
    have hpm : l1'.reverse.headD a ∈ 1 :: hs := by
      rcases List.mem_cons.mp (headD_reverse_mem l1' a) with heq | hm
      · rw [heq]
        exact List.mem_cons_of_mem _
          (by rw [hdec]; exact List.mem_append_left _ (List.mem_cons_self ..))
      · exact List.mem_cons_of_mem _
          (by rw [hdec]; exact List.mem_append_left _ (List.mem_cons_of_mem _ hm))
    have hsymp := (w.hHsym _ hpm).1
    rw [hpc] at hsymp
    rw [hsymp, headD_reverse_cons]

/-- Unlinking a live header from the horizontal ring: the new header chain
drops it, and symmetry and closure of the header ring survive. -/
theorem WFd_hdr_cover (s : Matrix) (hs : List Nat) (cls : Nat → List Nat)
    (rowF : Nat → List Nat) (w : WFd s hs cls rowF) (c : Nat) (hc : c ∈ hs) :
    hChain (hdrUnlink s c) = some (hs.erase c) ∧
    (∀ h ∈ 1 :: hs.erase c,
      ((hdrUnlink s c).get (((hdrUnlink s c).get h).right)).left = h ∧
      ((hdrUnlink s c).get (((hdrUnlink s c).get h).left)).right = h) ∧
    (∀ h ∈ 1 :: hs.erase c,
      ((hdrUnlink s c).get h).right ∈ 1 :: hs.erase c ∧
      ((hdrUnlink s c).get h).left ∈ 1 :: hs.erase c) := by
  have hrc := WFd.hrcne s hs cls rowF w c hc
  obtain ⟨hmatc, hc1, hcsz, _, _⟩ := w.hhd c hc
  have hplmem : (s.get c).left ∈ 1 :: hs := (w.hHnbr c (List.mem_cons_of_mem _ hc)).2
  have hrcmem : (s.get c).right ∈ 1 :: hs := (w.hHnbr c (List.mem_cons_of_mem _ hc)).1
  have hbd : ∀ h ∈ 1 :: hs, h < s.elems.size := by
    intro h hh
    rcases List.mem_cons.mp hh with rfl | hm
    · exact w.hsz1
    · exact (w.hhd h hm).2.2.1
  have hplsz := hbd _ hplmem
  have hrcsz := hbd _ hrcmem
  have hsymc := w.hHsym c (List.mem_cons_of_mem _ hc)
  have hplrt : (s.get ((s.get c).left)).right = c := hsymc.2
  have hplne : (s.get c).left ≠ c := by
    intro he
    rw [he] at hplrt
    exact hrc hplrt
  have hmemdecomp : ∀ h, h ∈ 1 :: hs.erase c → h ∈ 1 :: hs ∧ h ≠ c := by
    intro h hh
    rcases List.mem_cons.mp hh with rfl | hm
    · exact ⟨List.mem_cons_self .., by omega⟩
    · obtain ⟨hne, hmem⟩ := (w.hnd.mem_erase_iff).mp hm
      exact ⟨List.mem_cons_of_mem _ hmem, hne⟩
  have hmemback : ∀ h, h ∈ 1 :: hs → h ≠ c → h ∈ 1 :: hs.erase c := by
    intro h hh hne
    rcases List.mem_cons.mp hh with rfl | hm
    · exact List.mem_cons_self ..
    · exact List.mem_cons_of_mem _ ((w.hnd.mem_erase_iff).mpr ⟨hne, hm⟩)
  have hrne : ∀ h ∈ 1 :: hs, h ≠ (s.get c).left → (s.get h).right ≠ c := by
    intro h hh hne he
    apply hne
    have hsh := (w.hHsym h hh).1
    rw [he] at hsh
    exact hsh.symm
  have hlne : ∀ h ∈ 1 :: hs, h ≠ (s.get c).right → (s.get h).left ≠ c := by
    intro h hh hne he
    apply hne
    have hsh := (w.hHsym h hh).2
    rw [he] at hsh
    exact hsh.symm
  have hrner : ∀ h ∈ 1 :: hs, h ≠ c → (s.get h).right ≠ (s.get c).right := by
    intro h hh hne he
    apply hne
    have hsh := (w.hHsym h hh).1
    rw [he, hsymc.1] at hsh
    exact hsh.symm
  have hlnel : ∀ h ∈ 1 :: hs, h ≠ c → (s.get h).left ≠ (s.get c).left := by
    intro h hh hne he
    apply hne
    have hsh := (w.hHsym h hh).2
    rw [he, hsymc.2] at hsh
    exact hsh.symm
  obtain ⟨l1, l2, hdec⟩ := List.append_of_mem hc
  have hndd := w.hnd
  rw [hdec] at hndd
  obtain ⟨hndl1, hndcl2, hdisj0⟩ := List.nodup_append.mp hndd
  have hcnl1 : c ∉ l1 := fun h => hdisj0 h (List.mem_cons_self ..)
  have herase : hs.erase c = l1 ++ l2 := by
    rw [hdec, List.erase_append_right _ hcnl1, List.erase_cons_head]
  have hleft := header_pred s hs cls rowF w c l1 l2 hdec
  refine ⟨?_, ?_, ?_⟩
  · have hch := w.hchain
    rw [hChain, hdec] at hch
    cases l1 with
    | nil =>
      have hpl1 : (s.get c).left = 1 := by simpa using hleft
      have h1r : ((hdrUnlink s c).get 1).right = (s.get c).right := by
        rw [hdr_right s c 1 hrc, if_pos ⟨hpl1.symm, by rw [hpl1]; exact w.hsz1⟩]
      rw [List.nil_append] at hch
      have hhdc : s.HeadE = c := chainTo_head _ _ _ _ _ _ hch
      have htail := chainTo_tail (s.RightE) 0 (s.elems.size) s.HeadE c l2 hch
      rw [hhdc] at htail
      cases l2 with
      | nil =>
        have h0 : s.RightE c = 0 := chainTo_nil _ _ _ _ htail
        have hrc1 : (s.get c).right = 1 := by
          rw [Matrix.RightE] at h0
          split_ifs at h0 with hx
          · exfalso
            rcases List.mem_cons.mp hrcmem with h1 | hm
            · rw [h0] at h1
              cases h1
            · have h2 := (w.hhd _ hm).2.1
              rw [h0] at h2
              omega
          · push_neg at hx
            exact hx hmatc
        have hH0 : (hdrUnlink s c).HeadE = 0 := by
          rw [Matrix.HeadE, h1r, hrc1, if_pos rfl]
        rw [hChain, hH0, herase, size_hdrUnlink]
        exact chainTo_stop _ 0 _
      | cons b l2' =>
        have hb : s.RightE c = b := chainTo_head _ _ _ _ _ _ htail
        have hbmem : b ∈ hs := by
          rw [hdec]
          exact List.mem_cons_of_mem _ (List.mem_cons_self ..)
        have hb1 : 1 < b := (w.hhd b hbmem).2.1
        have hrcb : (s.get c).right = b := (RightE_inv s c b hb (by omega)).1
        have hH : (hdrUnlink s c).HeadE = b := by
          rw [Matrix.HeadE, h1r, hrcb, if_neg (by omega)]
        rw [hChain, hH, herase, size_hdrUnlink]
        rw [hb] at htail
        have hnew : chainTo ((hdrUnlink s c).RightE) 0 (s.elems.size) b =
            some (b :: l2') := by
          apply chainTo_congr (s.RightE) _ 0 _ _ _ htail
          intro y hy
          have hym : y ∈ hs := by
            rw [hdec]
            exact List.mem_cons_of_mem _ hy
          have hy1 := (w.hhd y hym).2.1
          apply RightE_hdrUnlink_of_ne s c y hrc
          rw [hpl1]
          omega
        exact chainTo_fuel_mono _ _ _ (s.elems.size + 1) _ _ hnew (by omega)
    | cons a l1' =>
      have hplhs : (s.get c).left ∈ hs := by
        cases hrev : (a :: l1').reverse with
        | nil => exact absurd hrev (by simp)
        | cons p r =>
          have hp : p ∈ a :: l1' := by
            have hpr : p ∈ (a :: l1').reverse := by
              rw [hrev]
              exact List.mem_cons_self ..
            exact List.mem_reverse.mp hpr
          rw [hleft, hrev]
          simp only [List.headD_cons]
          rw [hdec]
          exact List.mem_append_left _ hp
      have hpl1ne : (s.get c).left ≠ 1 := by
        have := (w.hhd _ hplhs).2.1
        omega
      have h1r : ((hdrUnlink s c).get 1).right = (s.get 1).right := by
        rw [hdr_right s c 1 hrc, if_neg (fun hx => hpl1ne hx.1.symm)]
      rw [List.cons_append] at hch
      have hhda : s.HeadE = a := chainTo_head _ _ _ _ _ _ hch
      have hahs : a ∈ hs := by
        rw [hdec]
        exact List.mem_append_left _ (List.mem_cons_self ..)
      have ha1 : 1 < a := (w.hhd a hahs).2.1
      have hmata : (s.get a).mat = true := (w.hhd a hahs).1
      have htail := chainTo_tail (s.RightE) 0 (s.elems.size) s.HeadE a (l1' ++ c :: l2) hch
      rw [hhda] at htail
      have hple : (s.get c).left = l1'.reverse.headD a := by
        rw [hleft, headD_reverse_cons]
      have hmats1' : ∀ m ∈ l1', (s.get m).mat = true := by
        intro m hm
        have hmhs : m ∈ hs := by
          rw [hdec]
          exact List.mem_append_left _ (List.mem_cons_of_mem _ hm)
        exact (w.hhd m hmhs).1
      have hdisj' : ∀ m ∈ l1', m ∉ l2 ∧ m ≠ c := by
        intro m hm
        constructor
        · intro hm2
          exact hdisj0 (List.mem_cons_of_mem _ hm) (List.mem_cons_of_mem _ hm2)
        · intro he
          exact hdisj0 (List.mem_cons_of_mem _ hm) (by rw [he]; exact List.mem_cons_self ..)
      have hanl2 : a ∉ l2 := fun h =>
        hdisj0 (List.mem_cons_self ..) (List.mem_cons_of_mem _ h)
      have hanec : a ≠ c := fun he =>
        hdisj0 (List.mem_cons_self ..) (by rw [he]; exact List.mem_cons_self ..)
      have haux := hchain_unlink_aux s c l2 hmatc hrc hplsz (s.elems.size) l1' a
        htail hple hmata hmats1' (List.Nodup.of_cons hndl1) hdisj'
        (List.Nodup.not_mem hndl1) hanl2 hanec
      have hH : (hdrUnlink s c).HeadE = a := by
        rw [Matrix.HeadE, h1r]
        have h1a : (s.get 1).right = a := (HeadE_inv s a hhda (by omega)).1
        rw [h1a, if_neg (by omega)]
      rw [hChain, hH, herase, size_hdrUnlink]
      have hbuild := chainTo_build ((hdrUnlink s c).RightE) 0 (s.elems.size) a
        (l1' ++ l2) (by omega) haux
      rw [List.cons_append]
      exact hbuild
  · intro h hh
    obtain ⟨hh1, hhnec⟩ := hmemdecomp h hh
    constructor
    · by_cases hpl : h = (s.get c).left
      · rw [hdr_right s c h hrc, if_pos ⟨hpl, hplsz⟩, hdr_left s c _ hrc,
          if_pos ⟨rfl, hrcsz⟩]
        exact hpl.symm
      · rw [hdr_right s c h hrc, if_neg (fun hx => hpl hx.1), hdr_left s c _ hrc,
          if_neg (fun hx => hrner h hh1 hhnec hx.1)]
        exact (w.hHsym h hh1).1
    · by_cases hrcc : h = (s.get c).right
      · rw [hdr_left s c h hrc, if_pos ⟨hrcc, hrcsz⟩, hdr_right s c _ hrc,
          if_pos ⟨rfl, hplsz⟩]
        exact hrcc.symm
      · rw [hdr_left s c h hrc, if_neg (fun hx => hrcc hx.1), hdr_right s c _ hrc,
          if_neg (fun hx => hlnel h hh1 hhnec hx.1)]
        exact (w.hHsym h hh1).2
  · intro h hh
    obtain ⟨hh1, hhnec⟩ := hmemdecomp h hh
    constructor
    · by_cases hpl : h = (s.get c).left
      · rw [hdr_right s c h hrc, if_pos ⟨hpl, hplsz⟩]
        exact hmemback _ hrcmem hrc
      · rw [hdr_right s c h hrc, if_neg (fun hx => hpl hx.1)]
        exact hmemback _ ((w.hHnbr h hh1).1) (hrne h hh1 hpl)
    · by_cases hrcc : h = (s.get c).right
      · rw [hdr_left s c h hrc, if_pos ⟨hrcc, hrcsz⟩]
        exact hmemback _ hplmem hplne
      · rw [hdr_left s c h hrc, if_neg (fun hx => hrcc hx.1)]
        exact hmemback _ ((w.hHnbr h hh1).2) (hlne h hh1 hrcc)


/-- `isItemV` recognizes exactly `vitem`. -/
theorem isItemV_eq_true (v : Val) : isItemV v = true ↔ v = Val.vitem := by
  cases v <;> simp [isItemV]

/-- `cover` changes `right` fields only in its header-unlink phase. -/
theorem cover_right_hdr (s : Matrix) (c x : Nat) :
    ((s.cover c).get x).right = ((hdrUnlink s c).get x).right := by
  rw [Matrix.cover]
  show ((coverCols (hdrUnlink s c) ((hdrUnlink s c).elems.size + 1) c
    ((hdrUnlink s c).DownE c)).get x).right = ((hdrUnlink s c).get x).right
  rw [right_coverCols]

/-- `cover` changes `left` fields only in its header-unlink phase. -/
theorem cover_left_hdr (s : Matrix) (c x : Nat) :
    ((s.cover c).get x).left = ((hdrUnlink s c).get x).left := by
  rw [Matrix.cover]
  show ((coverCols (hdrUnlink s c) ((hdrUnlink s c).elems.size + 1) c
    ((hdrUnlink s c).DownE c)).get x).left = ((hdrUnlink s c).get x).left
  rw [left_coverCols]

/-- Covering a live column of a well-formed matrix yields a well-formed
matrix whose live data drops the column from the header ring and erases
the unlinked batch from every remaining vertical ring. -/
theorem WFd_cover (s : Matrix) (hs : List Nat) (cls : Nat → List Nat)
    (rowF : Nat → List Nat) (w : WFd s hs cls rowF) (c : Nat) (hc : c ∈ hs) :
    WFd (s.cover c) (hs.erase c)
      (fun h => eraseSeq (cls h) (((cls c).map rowF).flatten)) rowF := by
  have hcovEq := WFd_cover_eq s hs cls rowF w c hc
  have hqnd : (((cls c).map rowF).flatten).Nodup := w.hrownd c hc
  have hvm0 := VMid_hdrUnlink s hs cls rowF w c
  have hcond : ∀ j ∈ ((cls c).map rowF).flatten,
      ((hdrUnlink s c).get j).column ∈ hs ∧
      j ∈ cls (((hdrUnlink s c).get j).column) := by
    intro j hj
    obtain ⟨_, _, _, _, _, hin, hincls⟩ := WFd.seq_facts s hs cls rowF w c hc j hj
    rw [hdrUnlink_column]
    exact ⟨hin, hincls⟩
  have hvm1 := VMid_unlinkSeq (((cls c).map rowF).flatten) (hdrUnlink s c) cls hs
    hvm0 hqnd hcond
  rw [← hcovEq] at hvm1
  have hhdr := WFd_hdr_cover s hs cls rowF w c hc
  have hrcne := WFd.hrcne s hs cls rowF w c hc
  have hrt : ∀ x, ((s.cover c).get x).right = ((hdrUnlink s c).get x).right :=
    fun x => cover_right_hdr s c x
  have hlt : ∀ x, ((s.cover c).get x).left = ((hdrUnlink s c).get x).left :=
    fun x => cover_left_hdr s c x
  have hmt : ∀ x, ((s.cover c).get x).mat = ((hdrUnlink s c).get x).mat := by
    intro x
    rw [mat_cover, hdrUnlink_mat]
  have hchain' : hChain (s.cover c) = some (hs.erase c) := by
    have hRfun : (s.cover c).RightE = (hdrUnlink s c).RightE := funext fun y => by
      rw [Matrix.RightE, Matrix.RightE, hrt y, hmt y]
    have hHd : (s.cover c).HeadE = (hdrUnlink s c).HeadE := by
      rw [Matrix.HeadE, Matrix.HeadE, hrt 1]
    have h1 := hhdr.1
    rw [hChain, size_hdrUnlink] at h1
    rw [hChain, hRfun, hHd, size_cover]
    exact h1
  have hgrpnd : ∀ h ∈ hs, (cls h).Nodup := by
    intro h hh
    exact List.Nodup.of_cons (Lof_group_nodup hs cls w.hallnd h hh)
  -- items never sit in a header-unlink slot
  have hplmem : (s.get c).left ∈ 1 :: hs := (w.hHnbr c (List.mem_cons_of_mem _ hc)).2
  have hrcmem : (s.get c).right ∈ 1 :: hs := (w.hHnbr c (List.mem_cons_of_mem _ hc)).1
  have hitemne : ∀ y p, (s.get y).val = Val.vitem → p ∈ (1 : Nat) :: hs → y ≠ p := by
    intro y p hy hp he
    rcases List.mem_cons.mp hp with rfl | hm
    · rw [he, w.hmstval] at hy
      cases hy
    · obtain ⟨_, _, _, _, n, hv⟩ := w.hhd p hm
      rw [he, hv] at hy
      cases hy
  have hRitem : ∀ y, (s.get y).val = Val.vitem → (s.cover c).RightE y = s.RightE y := by
    intro y hy
    rw [Matrix.RightE, Matrix.RightE, hrt y, hmt y, hdrUnlink_mat,
      hdrUnlink_right_of_ne s c y hrcne (hitemne y _ hy hplmem)]
  have hLitem : ∀ y, (s.get y).val = Val.vitem → (s.cover c).LeftE y = s.LeftE y := by
    intro y hy
    rw [Matrix.LeftE, Matrix.LeftE, hlt y, hmt y, hdrUnlink_mat,
      hdrUnlink_left_of_ne s c y hrcne (hitemne y _ hy hrcmem)]
  refine ⟨hvm1.hsz1, hvm1.hszM, ?_, hvm1.hmstval, hchain', w.hnd.erase c, ?_, ?_,
    ?_, ?_, ?_, ?_, ?_, ?_, ?_, ?_, ?_, hvm1.hvals⟩
  · rw [mat_cover]
    exact w.hmst
  · intro h hh
    exact hvm1.hhd h (List.mem_of_mem_erase hh)
  · intro h hh
    exact hvm1.hlen h (List.mem_of_mem_erase hh)
  · intro h hh
    constructor
    · rw [hrt, hlt]
      exact (hhdr.2.1 h hh).1
    · rw [hlt, hrt]
      exact (hhdr.2.1 h hh).2
  · intro h hh
    constructor
    · rw [hrt]
      exact (hhdr.2.2 h hh).1
    · rw [hlt]
      exact (hhdr.2.2 h hh).2
  · intro h hh
    exact hvm1.hcol h (List.mem_of_mem_erase hh)
  · intro h hh
    exact hvm1.hitem h (List.mem_of_mem_erase hh)
  · intro h hh x hx
    exact hvm1.hsymL x (mem_Lof hs _ h x (List.mem_of_mem_erase hh) hx)
  · exact hvm1.hallnd.sublist (Lof_sublist _ hs _ (List.erase_sublist c hs))
  · intro x hxsz hxval
    rw [size_cover] at hxsz
    have hxval' : (s.get x).val = Val.vitem := by
      have h2 := isItemV_cover s c x
      rw [hxval] at h2
      exact (isItemV_eq_true _).mp h2.symm
    obtain ⟨hrc0, hlc0, hxnot, hmem, hndcols⟩ := w.hrow x hxsz hxval'
    have hval_tr : ∀ m, (s.get m).val = Val.vitem →
        ((s.cover c).get m).val = Val.vitem := by
      intro m hm
      have h2 := isItemV_cover s c m
      rw [hm] at h2
      exact (isItemV_eq_true _).mp h2
    refine ⟨?_, ?_, hxnot, ?_, ?_⟩
    · rw [rChain] at hrc0
      rw [rChain, size_cover, hRitem x hxval']
      apply chainTo_congr (s.RightE) _ x _ _ _ hrc0
      intro y hy
      exact hRitem y (hmem y hy).1
    · rw [lChain] at hlc0
      rw [lChain, size_cover, hLitem x hxval']
      apply chainTo_congr (s.LeftE) _ x _ _ _ hlc0
      intro y hy
      exact hLitem y (hmem y (List.mem_reverse.mp hy)).1
    · intro m hm
      obtain ⟨hv, hsz, hmat, hcolne, hiff⟩ := hmem m hm
      refine ⟨hval_tr m hv, by rw [size_cover]; exact hsz,
        by rw [mat_cover]; exact hmat,
        by rw [column_cover, column_cover]; exact hcolne, hiff⟩
    · have hmapeq : (x :: rowF x).map (fun m => ((s.cover c).get m).column) =
          (x :: rowF x).map (fun m => (s.get m).column) :=
        List.map_congr_left (fun m _ => column_cover s c m)
      rw [hmapeq]
      exact hndcols
  · intro h hh i hi m hm
    obtain ⟨hhne, hh'⟩ := (w.hnd.mem_erase_iff).mp hh
    have hi' : i ∈ eraseSeq (cls h) (((cls c).map rowF).flatten) := hi
    obtain ⟨hicls, hinotq⟩ :=
      (mem_eraseSeq (((cls c).map rowF).flatten) (cls h) (hgrpnd h hh') i).mp hi'
    obtain ⟨hcolhs, hmcls⟩ := w.hliverow h hh' i hicls m hm
    obtain ⟨hmi, hi1, hisz, hicol, hival⟩ := w.hitem h hh' i hicls
    obtain ⟨_, _, _, hrmem, _⟩ := w.hrow i hisz hival
    obtain ⟨hmval, hmsz, _, _, hiff_im⟩ := hrmem m hm
    have hself : i ∈ m :: rowF m := (hiff_im i).mp (List.mem_cons_self ..)
    have hmnec : (s.get m).column ≠ c := by
      intro he
      have hmclsc : m ∈ cls c := by rw [← he]; exact hmcls
      have hine : i ≠ m := by
        intro heq
        apply hhne
        rw [← hicol, heq, he]
      have hirow : i ∈ rowF m := by
        rcases List.mem_cons.mp hself with heq | hmm
        · exact absurd heq hine
        · exact hmm
      apply hinotq
      exact List.mem_flatten.mpr ⟨rowF m, List.mem_map.mpr ⟨m, hmclsc, rfl⟩, hirow⟩
    have hmnotq : m ∉ ((cls c).map rowF).flatten := by
      intro hmq
      obtain ⟨l, hlmem, hml⟩ := List.mem_flatten.mp hmq
      obtain ⟨r, hrcls, rfl⟩ := List.mem_map.mp hlmem
      obtain ⟨hmr, hr1, hrsz, hrcol, hrval⟩ := w.hitem c hc r hrcls
      obtain ⟨_, _, _, hrmem2, _⟩ := w.hrow r hrsz hrval
      obtain ⟨_, _, _, _, hiff_rm⟩ := hrmem2 m hml
      have hir : i ∈ r :: rowF r := (hiff_rm i).mpr hself
      rcases List.mem_cons.mp hir with heq | hmm
      · apply hhne
        rw [← hicol, heq, hrcol]
      · exact hinotq (List.mem_flatten.mpr
          ⟨rowF r, List.mem_map.mpr ⟨r, hrcls, rfl⟩, hmm⟩)
    constructor
    · rw [column_cover]
      exact (w.hnd.mem_erase_iff).mpr ⟨hmnec, hcolhs⟩
    · rw [column_cover]
      show m ∈ eraseSeq (cls ((s.get m).column)) (((cls c).map rowF).flatten)
      exact (mem_eraseSeq _ _ (hgrpnd _ hcolhs) m).mpr ⟨hmcls, hmnotq⟩
  · intro h hh
    exact (w.hrownd h (List.mem_of_mem_erase hh)).sublist
      (sublist_flatten ((eraseSeq_sublist _ _).map rowF))


/-- `cover` keeps item values intact. -/
theorem cover_val_item (s : Matrix) (c m : Nat) (h : (s.get m).val = Val.vitem) :
    ((s.cover c).get m).val = Val.vitem := by
  have h2 := isItemV_cover s c m
  rw [h] at h2
  exact (isItemV_eq_true _).mp h2

/-- Covering a live column never reroutes an item's `right` pointer. -/
theorem cover_RightE_item (s : Matrix) (hs : List Nat) (cls : Nat → List Nat)
    (rowF : Nat → List Nat) (w : WFd s hs cls rowF) (c : Nat) (hc : c ∈ hs)
    (y : Nat) (hy : (s.get y).val = Val.vitem) :
    (s.cover c).RightE y = s.RightE y := by
  have hrcne := WFd.hrcne s hs cls rowF w c hc
  have hplmem : (s.get c).left ∈ 1 :: hs := (w.hHnbr c (List.mem_cons_of_mem _ hc)).2
  have hne : y ≠ (s.get c).left := by
    intro he
    rcases List.mem_cons.mp hplmem with h1 | hm
    · rw [he, h1, w.hmstval] at hy
      cases hy
    · obtain ⟨_, _, _, _, n, hv⟩ := w.hhd _ hm
      rw [he, hv] at hy
      cases hy
  rw [Matrix.RightE, Matrix.RightE, mat_cover, cover_right_hdr]
  have hr := hdrUnlink_right_of_ne s c y hrcne hne
  rw [hr]

/-- Covering a live column never reroutes an item's `left` pointer. -/
theorem cover_LeftE_item (s : Matrix) (hs : List Nat) (cls : Nat → List Nat)
    (rowF : Nat → List Nat) (w : WFd s hs cls rowF) (c : Nat) (hc : c ∈ hs)
    (y : Nat) (hy : (s.get y).val = Val.vitem) :
    (s.cover c).LeftE y = s.LeftE y := by
  have hrcne := WFd.hrcne s hs cls rowF w c hc
  have hrcmem : (s.get c).right ∈ 1 :: hs := (w.hHnbr c (List.mem_cons_of_mem _ hc)).1
  have hne : y ≠ (s.get c).right := by
    intro he
    rcases List.mem_cons.mp hrcmem with h1 | hm
    · rw [he, h1, w.hmstval] at hy
      cases hy
    · obtain ⟨_, _, _, _, n, hv⟩ := w.hhd _ hm
      rw [he, hv] at hy
      cases hy
  rw [Matrix.LeftE, Matrix.LeftE, mat_cover, cover_left_hdr]
  have hl := hdrUnlink_left_of_ne s c y hrcne hne
  rw [hl]

/-- Fold of `cover` over a list of column indices (the sequence of covers
performed by the `coverJs` loop). -/
def coverSeq : Matrix → List Nat → Matrix
  | z, [] => z
  | z, d :: ds => coverSeq (z.cover d) ds

theorem coverSeq_append (z : Matrix) (l1 l2 : List Nat) :
    coverSeq z (l1 ++ l2) = coverSeq (coverSeq z l1) l2 := by
  induction l1 generalizing z with
  | nil => rfl
  | cons d l ih => exact ih (z.cover d)

theorem coverSeq_column : ∀ (ds : List Nat) (z : Matrix) (x : Nat),
    ((coverSeq z ds).get x).column = (z.get x).column
  | [], _, _ => rfl
  | d :: ds, z, x => by
    show ((coverSeq (z.cover d) ds).get x).column = (z.get x).column
    rw [coverSeq_column ds (z.cover d) x, column_cover]

theorem coverSeq_size : ∀ (ds : List Nat) (z : Matrix),
    (coverSeq z ds).elems.size = z.elems.size
  | [], _ => rfl
  | d :: ds, z => by
    show (coverSeq (z.cover d) ds).elems.size = z.elems.size
    rw [coverSeq_size ds (z.cover d), size_cover]

theorem coverSeq_o : ∀ (ds : List Nat) (z : Matrix), (coverSeq z ds).o = z.o
  | [], _ => rfl
  | d :: ds, z => by
    show (coverSeq (z.cover d) ds).o = z.o
    rw [coverSeq_o ds (z.cover d), o_cover]

theorem coverSeq_sol : ∀ (ds : List Nat) (z : Matrix),
    (coverSeq z ds).solutions = z.solutions
  | [], _ => rfl
  | d :: ds, z => by
    show (coverSeq (z.cover d) ds).solutions = z.solutions
    rw [coverSeq_sol ds (z.cover d), sol_cover]

/-- Well-formedness only depends on the arena. -/
theorem WFd_elems_congr (s t : Matrix) (he : t.elems = s.elems) (hs : List Nat)
    (cls : Nat → List Nat) (rowF : Nat → List Nat) (w : WFd s hs cls rowF) :
    WFd t hs cls rowF := by
  have hget : ∀ x, t.get x = s.get x := get_meshCongr s t he
  have hsz : t.elems.size = s.elems.size := by rw [he]
  have hR : t.RightE = s.RightE := funext (RightE_meshCongr s t he)
  have hL : t.LeftE = s.LeftE := funext (LeftE_meshCongr s t he)
  have hD : t.DownE = s.DownE := funext (DownE_meshCongr s t he)
  have hU : t.UpE = s.UpE := funext (UpE_meshCongr s t he)
  have hH : t.HeadE = s.HeadE := HeadE_meshCongr s t he
  refine ⟨?_, ?_, ?_, ?_, ?_, w.hnd, ?_, w.hlen, ?_, ?_, ?_, ?_, ?_, w.hallnd,
    ?_, ?_, w.hrownd, ?_⟩
  · rw [hsz]; exact w.hsz1
  · rw [hsz]; exact w.hszM
  · rw [hget]; exact w.hmst
  · rw [hget]; exact w.hmstval
  · rw [hChain, hR, hH, hsz, ← hChain]
    exact w.hchain
  · intro h hh
    obtain ⟨hm, h1, hszh, hcol, n, hval⟩ := w.hhd h hh
    exact ⟨by rw [hget]; exact hm, h1, by rw [hsz]; exact hszh,
      by rw [hget]; exact hcol, n, by rw [hget]; exact hval⟩
  · intro h hh
    obtain ⟨h1, h2⟩ := w.hHsym h hh
    constructor
    · simp only [hget]; exact h1
    · simp only [hget]; exact h2
  · intro h hh
    obtain ⟨h1, h2⟩ := w.hHnbr h hh
    constructor
    · rw [hget]; exact h1
    · rw [hget]; exact h2
  · intro h hh
    obtain ⟨h1, h2⟩ := w.hcol h hh
    constructor
    · rw [dChain, hD, hsz, ← dChain]; exact h1
    · rw [uChain, hU, hsz, ← uChain]; exact h2
  · intro h hh j hj
    obtain ⟨hm, h1, hszj, hcol, hval⟩ := w.hitem h hh j hj
    exact ⟨by rw [hget]; exact hm, h1, by rw [hsz]; exact hszj,
      by rw [hget]; exact hcol, by rw [hget]; exact hval⟩
  · intro h hh x hx
    obtain ⟨h1, h2⟩ := w.hvsymv h hh x hx
    constructor
    · simp only [hget]; exact h1
    · simp only [hget]; exact h2
  · intro x hxsz hxval
    rw [hsz] at hxsz
    rw [hget] at hxval
    obtain ⟨h1, h2, h3, h4, h5⟩ := w.hrow x hxsz hxval
    refine ⟨by rw [rChain, hR, hsz, ← rChain]; exact h1,
      by rw [lChain, hL, hsz, ← lChain]; exact h2, h3, ?_, ?_⟩
    · intro m hm
      obtain ⟨g1, g2, g3, g4, g5⟩ := h4 m hm
      exact ⟨by rw [hget]; exact g1, by rw [hsz]; exact g2,
        by rw [hget]; exact g3, by simp only [hget]; exact g4, g5⟩
    · have hmapeq : (x :: rowF x).map (fun m => (t.get m).column) =
          (x :: rowF x).map (fun m => (s.get m).column) :=
        List.map_congr_left (fun m _ => by rw [hget])
      rw [hmapeq]
      exact h5
  · intro h hh i hi m hm
    obtain ⟨h1, h2⟩ := w.hliverow h hh i hi m hm
    constructor
    · rw [hget]; exact h1
    · rw [hget]; exact h2
  · intro i hi n sz hv
    rw [hsz] at hi
    rw [hget] at hv
    exact w.hvals i hi n sz hv

/-- The vertical data of the covered matrix: the covered column's own ring
is intact, every other live ring loses the unlinked batch. -/
theorem VMid_cover (s : Matrix) (hs : List Nat) (cls : Nat → List Nat)
    (rowF : Nat → List Nat) (w : WFd s hs cls rowF) (c : Nat) (hc : c ∈ hs) :
    VMid (s.cover c) hs (fun h => eraseSeq (cls h) (((cls c).map rowF).flatten)) := by
  have hcovEq := WFd_cover_eq s hs cls rowF w c hc
  have hqnd : (((cls c).map rowF).flatten).Nodup := w.hrownd c hc
  have hvm0 := VMid_hdrUnlink s hs cls rowF w c
  have hcond : ∀ j ∈ ((cls c).map rowF).flatten,
      ((hdrUnlink s c).get j).column ∈ hs ∧
      j ∈ cls (((hdrUnlink s c).get j).column) := by
    intro j hj
    obtain ⟨_, _, _, _, _, hin, hincls⟩ := WFd.seq_facts s hs cls rowF w c hc j hj
    rw [hdrUnlink_column]
    exact ⟨hin, hincls⟩
  have hvm1 := VMid_unlinkSeq (((cls c).map rowF).flatten) (hdrUnlink s c) cls hs
    hvm0 hqnd hcond
  rw [← hcovEq] at hvm1
  exact hvm1

/-- Covering a column leaves its own vertical ring's scan unchanged. -/
theorem cover_dChain_self (s : Matrix) (hs : List Nat) (cls : Nat → List Nat)
    (rowF : Nat → List Nat) (w : WFd s hs cls rowF) (c : Nat) (hc : c ∈ hs) :
    dChain (s.cover c) c = some (cls c) := by
  have hvm1 := VMid_cover s hs cls rowF w c hc
  have h1 := (hvm1.hcol c hc).1
  have hdisj : ∀ j ∈ ((cls c).map rowF).flatten, j ∉ cls c := by
    intro j hj hjc
    obtain ⟨_, _, _, _, hne, _, _⟩ := WFd.seq_facts s hs cls rowF w c hc j hj
    exact hne ((w.hitem c hc j hjc).2.2.2.1)
  have h2 : eraseSeq (cls c) (((cls c).map rowF).flatten) = cls c :=
    eraseSeq_eq_of_disjoint _ _ hdisj
  rw [h1, h2]

/-- Iterated covers of distinct live columns keep the matrix well formed;
the header list shrinks by the covered batch and the row data survives. -/
theorem WFd_coverSeq : ∀ (ds : List Nat) (z : Matrix) (hs : List Nat)
    (cls : Nat → List Nat) (rowF : Nat → List Nat), WFd z hs cls rowF →
    (∀ d ∈ ds, d ∈ hs) → ds.Nodup →
    ∃ cls', WFd (coverSeq z ds) (eraseSeq hs ds) cls' rowF
  | [], z, hs, cls, rowF => fun w _ _ => ⟨cls, w⟩
  | d :: ds, z, hs, cls, rowF => by
    intro w hds hnd
    have hd : d ∈ hs := hds d (List.mem_cons_self ..)
    have w' := WFd_cover z hs cls rowF w d hd
    have hds' : ∀ d' ∈ ds, d' ∈ hs.erase d := by
      intro d' hd'
      refine (w.hnd.mem_erase_iff).mpr ⟨?_, hds d' (List.mem_cons_of_mem _ hd')⟩
      intro he
      exact List.Nodup.not_mem hnd (by rw [← he]; exact hd')
    exact WFd_coverSeq ds (z.cover d) (hs.erase d) _ rowF w' hds'
      (List.Nodup.of_cons hnd)

/-- Iterated covers never reroute an item's `left` pointer. -/
theorem coverSeq_LeftE_item : ∀ (ds : List Nat) (z : Matrix) (hs : List Nat)
    (cls : Nat → List Nat) (rowF : Nat → List Nat), WFd z hs cls rowF →
    (∀ d ∈ ds, d ∈ hs) → ds.Nodup →
    ∀ y, (z.get y).val = Val.vitem → (coverSeq z ds).LeftE y = z.LeftE y
  | [], _, _, _, _ => fun _ _ _ _ _ => rfl
  | d :: ds, z, hs, cls, rowF => by
    intro w hds hnd y hy
    have hd : d ∈ hs := hds d (List.mem_cons_self ..)
    have w' := WFd_cover z hs cls rowF w d hd
    have hds' : ∀ d' ∈ ds, d' ∈ hs.erase d := by
      intro d' hd'
      refine (w.hnd.mem_erase_iff).mpr ⟨?_, hds d' (List.mem_cons_of_mem _ hd')⟩
      intro he
      exact List.Nodup.not_mem hnd (by rw [← he]; exact hd')
    show (coverSeq (z.cover d) ds).LeftE y = z.LeftE y
    rw [coverSeq_LeftE_item ds (z.cover d) (hs.erase d) _ rowF w' hds'
      (List.Nodup.of_cons hnd) y (cover_val_item z d y hy)]
    exact cover_LeftE_item z hs cls rowF w d hd y hy

/-- The `coverJs` loop is the fold of `cover` over the columns of the
scanned row elements. -/
theorem coverJs_eq_seq : ∀ (js : List Nat) (F : Nat) (z : Matrix) (hs : List Nat)
    (cls : Nat → List Nat) (rowF : Nat → List Nat), WFd z hs cls rowF →
    ∀ (r x : Nat),
    chainTo (z.RightE) r F x = some js →
    (∀ j ∈ js, (z.get j).val = Val.vitem) →
    (∀ j ∈ js, (z.get j).column ∈ hs) →
    ((js.map (fun j => (z.get j).column)).Nodup) →
    coverJs z F r x = coverSeq z (js.map (fun j => (z.get j).column))
  | [], F, z, hs, cls, rowF => by
    intro w r x hch _ _ _
    have hx : x = r := chainTo_nil _ _ _ _ hch
    match F, hch with
    | F + 1, _ =>
      simp only [coverJs]
      rw [if_pos hx]
      rfl
  | j :: js', F, z, hs, cls, rowF => by
    intro w r x hch hitems hcols hndc
    match F, hch with
    | F + 1, hch =>
      have hx : x = j := chainTo_head _ _ _ _ _ _ hch
      have hjr : j ≠ r :=
        chainTo_ne_stop _ _ _ _ _ hch j (List.mem_cons_self ..)
      rw [hx]
      rw [hx] at hch
      simp only [coverJs]
      rw [if_neg hjr]
      have hd : (z.get j).column ∈ hs := hcols j (List.mem_cons_self ..)
      have hjval : (z.get j).val = Val.vitem := hitems j (List.mem_cons_self ..)
      have w' := WFd_cover z hs cls rowF w ((z.get j).column) hd
      have htail := chainTo_tail (z.RightE) r F j j js' hch
      have hcur : (z.cover ((z.get j).column)).RightE j = z.RightE j :=
        cover_RightE_item z hs cls rowF w _ hd j hjval
      have hch' : chainTo ((z.cover ((z.get j).column)).RightE) r F
          ((z.cover ((z.get j).column)).RightE j) = some js' := by
        rw [hcur]
        apply chainTo_congr (z.RightE) _ r F _ js' htail
        intro y hy
        exact cover_RightE_item z hs cls rowF w _ hd y (hitems y (List.mem_cons_of_mem _ hy))
      have hitems' : ∀ y ∈ js', ((z.cover ((z.get j).column)).get y).val = Val.vitem :=
        fun y hy => cover_val_item z _ y (hitems y (List.mem_cons_of_mem _ hy))
      have hcols' : ∀ y ∈ js',
          ((z.cover ((z.get j).column)).get y).column ∈ hs.erase ((z.get j).column) := by
        intro y hy
        rw [column_cover]
        refine (w.hnd.mem_erase_iff).mpr ⟨?_, hcols y (List.mem_cons_of_mem _ hy)⟩
        intro he
        rw [List.map_cons] at hndc
        exact List.Nodup.not_mem hndc
          (by rw [← he]; exact List.mem_map.mpr ⟨y, hy, rfl⟩)
      have hmapeq : js'.map (fun y => ((z.cover ((z.get j).column)).get y).column) =
          js'.map (fun y => (z.get y).column) :=
        List.map_congr_left (fun y _ => column_cover z _ y)
      have hndc' : (js'.map
          (fun y => ((z.cover ((z.get j).column)).get y).column)).Nodup := by
        rw [hmapeq]
        rw [List.map_cons] at hndc
        exact List.Nodup.of_cons hndc
      have hres := coverJs_eq_seq js' F (z.cover ((z.get j).column))
        (hs.erase ((z.get j).column)) _ rowF w' r
        ((z.cover ((z.get j).column)).RightE j) hch' hitems' hcols' hndc'
      rw [hres, hmapeq]
      rw [List.map_cons]
      rfl

/-- The `uncoverJs` loop peels iterated covers in reverse order, restoring
the pre-cover matrix. -/
theorem uncoverJs_peel : ∀ (js : List Nat) (F : Nat) (z : Matrix) (hs : List Nat)
    (cls : Nat → List Nat) (rowF : Nat → List Nat), WFd z hs cls rowF →
    ∀ (r x : Nat),
    chainTo (z.LeftE) r F x = some js →
    (∀ j ∈ js, (z.get j).val = Val.vitem) →
    (∀ j ∈ js, (z.get j).column ∈ hs) →
    ((js.map (fun j => (z.get j).column)).Nodup) →
    uncoverJs (coverSeq z ((js.reverse).map (fun j => (z.get j).column))) F r x = z
  | [], F, z, hs, cls, rowF => by
    intro w r x hch _ _ _
    have hx : x = r := chainTo_nil _ _ _ _ hch
    match F, hch with
    | F + 1, _ =>
      show uncoverJs z (F + 1) r x = z
      simp only [uncoverJs]
      rw [if_pos hx]
  | j :: js', F, z, hs, cls, rowF => by
    intro w r x hch hitems hcols hndc
    match F, hch with
    | F + 1, hch =>
      have hx : x = j := chainTo_head _ _ _ _ _ _ hch
      have hjr : j ≠ r :=
        chainTo_ne_stop _ _ _ _ _ hch j (List.mem_cons_self ..)
      rw [hx]
      rw [hx] at hch
      have hjval : (z.get j).val = Val.vitem := hitems j (List.mem_cons_self ..)
      have hd : (z.get j).column ∈ hs := hcols j (List.mem_cons_self ..)
      have hitems'' : ∀ y ∈ js', (z.get y).val = Val.vitem :=
        fun y hy => hitems y (List.mem_cons_of_mem _ hy)
      have hcols'' : ∀ y ∈ js', (z.get y).column ∈ hs :=
        fun y hy => hcols y (List.mem_cons_of_mem _ hy)
      have hndc'' : (js'.map (fun y => (z.get y).column)).Nodup := by
        rw [List.map_cons] at hndc
        exact List.Nodup.of_cons hndc
      have hds'' : ∀ d' ∈ js'.reverse.map (fun y => (z.get y).column), d' ∈ hs := by
        intro d' hd'
        obtain ⟨y, hy, rfl⟩ := List.mem_map.mp hd'
        exact hcols'' y (List.mem_reverse.mp hy)
      have hndrev : (js'.reverse.map (fun y => (z.get y).column)).Nodup := by
        rw [List.map_reverse]
        exact List.nodup_reverse.mpr hndc''
      -- decompose the cover fold: last cover is at j's column
      have hsplit : (j :: js').reverse.map (fun y => (z.get y).column) =
          js'.reverse.map (fun y => (z.get y).column) ++ [(z.get j).column] := by
        rw [List.reverse_cons, List.map_append]
        rfl
      obtain ⟨cls', w'⟩ := WFd_coverSeq (js'.reverse.map (fun y => (z.get y).column))
        z hs cls rowF w hds'' hndrev
      have hdmem : (z.get j).column ∈ eraseSeq hs (js'.reverse.map
          (fun y => (z.get y).column)) := by
        refine (mem_eraseSeq _ _ w.hnd _).mpr ⟨hd, ?_⟩
        intro hin
        obtain ⟨y, hy, hcoleq⟩ := List.mem_map.mp hin
        rw [List.map_cons] at hndc
        exact List.Nodup.not_mem hndc
          (by rw [← hcoleq]
              exact List.mem_map.mpr ⟨y, List.mem_reverse.mp hy, rfl⟩)
      rw [hsplit, coverSeq_append]
      simp only [uncoverJs]
      rw [if_neg hjr]
      have hucol : ((coverSeq (coverSeq z (js'.reverse.map
          (fun y => (z.get y).column))) [(z.get j).column]).get j).column =
          (z.get j).column := by
        show (((coverSeq z (js'.reverse.map (fun y => (z.get y).column))).cover
          ((z.get j).column)).get j).column = (z.get j).column
        rw [column_cover, coverSeq_column]
      rw [hucol]
      have hpeel : (coverSeq (coverSeq z (js'.reverse.map
          (fun y => (z.get y).column))) [(z.get j).column]).uncover
          ((z.get j).column) = coverSeq z (js'.reverse.map
          (fun y => (z.get y).column)) := by
        show ((coverSeq z _).cover ((z.get j).column)).uncover ((z.get j).column) = _
        exact WFd_cover_uncover _ _ cls' rowF w' _ hdmem
      rw [hpeel]
      have hcurs : (coverSeq z (js'.reverse.map
          (fun y => (z.get y).column))).LeftE j = z.LeftE j :=
        coverSeq_LeftE_item _ z hs cls rowF w hds'' hndrev j hjval
      rw [hcurs]
      have htail := chainTo_tail (z.LeftE) r F j j js' hch
      exact uncoverJs_peel js' F z hs cls rowF w r (z.LeftE j) htail
        hitems'' hcols'' hndc''


theorem withO_withO (u : Matrix) (Q Q' : List Nat) : withO (withO u Q) Q' = withO u Q' := rfl

theorem withSol_withSol (u : Matrix) (X Y : List (List String)) :
    withSol (withSol u X) Y = withSol u Y := rfl

theorem withSol_withO (u : Matrix) (Q : List Nat) (Y : List (List String)) :
    withSol (withO u Q) Y = withO (withSol u Y) Q := rfl

/-- Overriding the choice stack of one matrix with another's arena. -/
theorem withO_eq_mesh (u v : Matrix) (h : v.elems = u.elems) (Q : List Nat) :
    withO v Q = withO (withSol u v.solutions) Q := by
  show Matrix.mk v.elems Q v.solutions = Matrix.mk u.elems Q v.solutions
  rw [h]

/-- A cover fold ignores the choice stack and solution list. -/
theorem coverSeq_mesh : ∀ (ds : List Nat) (u : Matrix) (X : List (List String))
    (Q : List Nat),
    coverSeq (withO (withSol u X) Q) ds = withO (withSol (coverSeq u ds) X) Q
  | [], _, _, _ => rfl
  | d :: ds, u, X, Q => by
    show coverSeq ((withO (withSol u X) Q).cover d) ds = _
    rw [cover_withO, cover_withSol]
    exact coverSeq_mesh ds (u.cover d) X Q

/-- The row loop of `search` restores the matrix: whatever it does in the
middle, it ends by uncovering the selected column of the state it has
restored, yielding the original matrix with only `solutions` changed. -/
theorem searchRows_restore (s : Matrix) (hs : List Nat) (cls : Nat → List Nat)
    (rowF : Nat → List Nat) (w : WFd s hs cls rowF) (c : Nat) (hc : c ∈ hs)
    (fuel0 : Nat)
    (IH : ∀ (t : Matrix) (k' : Nat), WF t → t.o.length = k' →
      (search fuel0 t k').elems = t.elems ∧ (search fuel0 t k').o = t.o) :
    ∀ (F : Nat) (X : List (List String)) (r : Nat), r ∈ c :: cls c →
    ∃ Y, searchRows (fun t k' => search fuel0 t k') (withSol (s.cover c) X) F
      (s.o.length) c r = withSol s Y := by
  have w1 := WFd_cover s hs cls rowF w c hc
  intro F
  induction F with
  | zero =>
    intro X r _
    refine ⟨X, ?_⟩
    show (withSol (s.cover c) X).uncover c = withSol s X
    rw [uncover_withSol, WFd_cover_uncover s hs cls rowF w c hc]
  | succ F ihF =>
    intro X r hmem
    by_cases hrc : r = c
    · refine ⟨X, ?_⟩
      rw [searchRows_stop _ _ _ _ _ _ hrc, uncover_withSol,
        WFd_cover_uncover s hs cls rowF w c hc]
    · have hrcl : r ∈ cls c := by
        rcases List.mem_cons.mp hmem with h1 | h2
        · exact absurd h1 hrc
        · exact h2
      obtain ⟨hrmat, hr1, hrsz, hrcol, hrval⟩ := w.hitem c hc r hrcl
      have hrszc : r < (s.cover c).elems.size := by
        rw [size_cover]
        exact hrsz
      have hrvalc : ((s.cover c).get r).val = Val.vitem := cover_val_item s c r hrval
      obtain ⟨hrchain, hlchain, hrnot, hrmemb, hrndcols⟩ := w1.hrow r hrszc hrvalc
      obtain ⟨hrchainS, hlchainS, hrnotS, hrmembS, hrndcolsS⟩ := w.hrow r hrsz hrval
      -- named intermediate states
      obtain ⟨s2v, hs2v⟩ : ∃ u, u = withO (withSol (s.cover c) X) (s.o ++ [r]) :=
        ⟨_, rfl⟩
      obtain ⟨dsv, hdsv⟩ : ∃ l, l = (rowF r).map (fun m => (s.get m).column) :=
        ⟨_, rfl⟩
      obtain ⟨s3v, hs3v⟩ : ∃ u, u = coverSeq s2v dsv := ⟨_, rfl⟩
      obtain ⟨s4v, hs4v⟩ : ∃ u, u = search fuel0 s3v (s.o.length + 1) := ⟨_, rfl⟩
      obtain ⟨s5v, hs5v⟩ : ∃ u, u = withO s4v s.o := ⟨_, rfl⟩
      obtain ⟨zFv, hzFv⟩ : ∃ u, u = withO (withSol (s.cover c) s4v.solutions) s.o :=
        ⟨_, rfl⟩
      obtain ⟨s6v, hs6v⟩ : ∃ u, u = withSol (s.cover c) s4v.solutions := ⟨_, rfl⟩
      -- facts about the cover-fold entry state
      have heA : s2v.elems = (s.cover c).elems := by
        rw [hs2v]
        rfl
      have wA := WFd_elems_congr (s.cover c) s2v heA (hs.erase c) _ rowF w1
      have hcolA : ∀ m, (s2v.get m).column = (s.get m).column := by
        intro m
        rw [get_meshCongr (s.cover c) s2v heA, column_cover]
      have hdsA : (rowF r).map (fun m => (s2v.get m).column) = dsv := by
        rw [hdsv]
        exact List.map_congr_left (fun m _ => hcolA m)
      have hrszA : r < s2v.elems.size := by
        rw [heA]
        exact hrszc
      have hrvalA : (s2v.get r).val = Val.vitem := by
        rw [get_meshCongr (s.cover c) s2v heA]
        exact hrvalc
      have hAch : chainTo (s2v.RightE) r (s2v.elems.size + 1) (s2v.RightE r) =
          some (rowF r) := by
        have h1 := (wA.hrow r hrszA hrvalA).1
        rw [rChain] at h1
        exact h1
      have hAitems : ∀ m ∈ rowF r, (s2v.get m).val = Val.vitem := by
        intro m hm
        rw [get_meshCongr (s.cover c) s2v heA]
        exact (hrmemb m hm).1
      have hAcols : ∀ m ∈ rowF r, (s2v.get m).column ∈ hs.erase c := by
        intro m hm
        rw [hcolA]
        refine (w.hnd.mem_erase_iff).mpr ⟨?_, (w.hliverow c hc r hrcl m hm).1⟩
        have hcne := (hrmembS m hm).2.2.2.1
        rw [hrcol] at hcne
        exact hcne
      have hAnd : ((rowF r).map (fun m => (s2v.get m).column)).Nodup := by
        rw [hdsA, hdsv]
        have h0 := hrndcolsS
        rw [List.map_cons] at h0
        exact List.Nodup.of_cons h0
      have hdsmem : ∀ d ∈ dsv, d ∈ hs.erase c := by
        intro d hd
        rw [← hdsA] at hd
        obtain ⟨m, hm, rfl⟩ := List.mem_map.mp hd
        exact hAcols m hm
      have hdsnd : dsv.Nodup := by
        rw [← hdsA]
        exact hAnd
      -- coverJs unrolls to the cover fold
      have hBeq : coverJs s2v (s2v.elems.size + 1) r (s2v.RightE r) = s3v := by
        rw [hs3v, ← hdsA]
        exact coverJs_eq_seq (rowF r) _ s2v (hs.erase c) _ rowF wA r _
          hAch hAitems hAcols hAnd
      -- well-formedness and the stack at the fold result
      obtain ⟨clsB, wB⟩ := WFd_coverSeq dsv s2v (hs.erase c) _ rowF wA hdsmem hdsnd
      have wB' : WFd s3v (eraseSeq (hs.erase c) dsv) clsB rowF := by
        rw [hs3v]
        exact wB
      have ho3 : s3v.o = s.o ++ [r] := by
        rw [hs3v, coverSeq_o, hs2v]
        rfl
      have hlen3 : s3v.o.length = s.o.length + 1 := by
        rw [ho3, List.length_append]
        rfl
      -- the recursive search restores arena and stack
      obtain ⟨h4e, h4o⟩ := IH s3v (s.o.length + 1) ⟨_, _, _, wB'⟩ hlen3
      have h4e' : s4v.elems = s3v.elems := by
        rw [hs4v]
        exact h4e
      have ho4 : s4v.o = s.o ++ [r] := by
        rw [hs4v, h4o, ho3]
      -- the recorded element is r
      have hr2 : s4v.o.getD (s.o.length) 0 = r := by
        rw [ho4]
        simp
      -- the popped state is the cover fold with a fresh solution list
      have hs5A : s5v = withO (withSol s3v s4v.solutions) s.o := by
        rw [hs5v]
        exact withO_eq_mesh s3v s4v h4e' s.o
      have hs5C : s5v = coverSeq zFv dsv := by
        rw [hs5A, hs3v, hs2v, coverSeq_mesh, withSol_withO, withSol_withSol,
          withO_withO, ← coverSeq_mesh, ← hzFv]
      -- peeling the fold
      have heF : zFv.elems = (s.cover c).elems := by
        rw [hzFv]
        rfl
      have wF := WFd_elems_congr (s.cover c) zFv heF (hs.erase c) _ rowF w1
      have hrszF : r < zFv.elems.size := by
        rw [heF]
        exact hrszc
      have hrvalF : (zFv.get r).val = Val.vitem := by
        rw [get_meshCongr (s.cover c) zFv heF]
        exact hrvalc
      have hcolF : ∀ m, (zFv.get m).column = (s.get m).column := by
        intro m
        rw [get_meshCongr (s.cover c) zFv heF, column_cover]
      have hdsF : (rowF r).map (fun m => (zFv.get m).column) = dsv := by
        rw [hdsv]
        exact List.map_congr_left (fun m _ => hcolF m)
      have hFlch : chainTo (zFv.LeftE) r (zFv.elems.size + 1) (zFv.LeftE r) =
          some ((rowF r).reverse) := by
        have h1 := (wF.hrow r hrszF hrvalF).2.1
        rw [lChain] at h1
        exact h1
      have hFitems : ∀ j ∈ (rowF r).reverse, (zFv.get j).val = Val.vitem := by
        intro j hj
        rw [get_meshCongr (s.cover c) zFv heF]
        exact (hrmemb j (List.mem_reverse.mp hj)).1
      have hFcols : ∀ j ∈ (rowF r).reverse, (zFv.get j).column ∈ hs.erase c := by
        intro j hj
        rw [hcolF]
        have h0 := hAcols j (List.mem_reverse.mp hj)
        rw [hcolA] at h0
        exact h0
      have hFnd : (((rowF r).reverse).map (fun j => (zFv.get j).column)).Nodup := by
        rw [List.map_reverse]
        apply List.nodup_reverse.mpr
        rw [hdsF]
        exact hdsnd
      have hpeel := uncoverJs_peel ((rowF r).reverse) (zFv.elems.size + 1) zFv
        (hs.erase c) _ rowF wF r (zFv.LeftE r) hFlch hFitems hFcols hFnd
      rw [List.reverse_reverse, hdsF] at hpeel
      have hcurs : s5v.LeftE r = zFv.LeftE r := by
        rw [hs5C]
        exact coverSeq_LeftE_item dsv zFv (hs.erase c) _ rowF wF
          (by rw [← hdsF]; intro d hd
              obtain ⟨m, hm, rfl⟩ := List.mem_map.mp hd
              rw [hcolF]
              have h0 := hAcols m hm
              rw [hcolA] at h0
              exact h0)
          (by rw [← hdsF]
              rw [hdsF]
              exact hdsnd) r hrvalF
      have hsz5 : s5v.elems.size = zFv.elems.size := by
        rw [hs5C, coverSeq_size]
      have hzFs : zFv = s6v := by
        rw [hzFv, hs6v]
        have ho : (withSol (s.cover c) s4v.solutions).o = s.o := by
          rw [o_withSol, o_cover]
        rw [← ho, withO_self]
      have h6 : s6v = uncoverJs s5v (s5v.elems.size + 1) r (s5v.LeftE r) := by
        rw [hcurs, hsz5, hs5C, hpeel]
        exact hzFs.symm
      -- the popped column is the selected one
      have hc2 : c = (s5v.get r).column := by
        have h0 : (s5v.get r).column = c := by
          rw [hs5v]
          have hg : (withO s4v s.o).get r = s4v.get r := rfl
          rw [hg, get_meshCongr s3v s4v h4e', hs3v, coverSeq_column, hcolA, hrcol]
        exact h0.symm
      -- assemble the iteration and recurse
      have hnext : (s.cover c).DownE r ∈ c :: cls c := by
        have hdc := cover_dChain_self s hs cls rowF w c hc
        rw [dChain] at hdc
        obtain ⟨p1, p2, hpdec⟩ := List.append_of_mem hrcl
        rw [hpdec] at hdc
        have hn := chainTo_next ((s.cover c).DownE) c r p2 p1 _ _ hdc
        rw [hn]
        rcases List.mem_cons.mp (headD_mem p2 c) with heq | hm2
        · rw [heq]
          exact List.mem_cons_self ..
        · exact List.mem_cons_of_mem _
            (by rw [hpdec]
                exact List.mem_append_right _ (List.mem_cons_of_mem _ hm2))
      obtain ⟨Y, hY⟩ := ihF s4v.solutions ((s.cover c).DownE r) hnext
      refine ⟨Y, ?_⟩
      rw [searchRows_step_eq (fun t k' => search fuel0 t k')
        (withSol (s.cover c) X) F (s.o.length) c r hrc s2v s3v s4v r s5v c s6v
        (by rw [hs2v]
            show withO (withSol (s.cover c) X) (s.o ++ [r]) =
              withO (withSol (s.cover c) X) ((withSol (s.cover c) X).o ++ [r])
            rw [o_withSol, o_cover])
        hBeq.symm
        (by rw [hs4v, hs3v])
        hr2.symm
        (by rw [hs5v]
            show withO s4v s.o = withO s4v (s4v.o.take (s.o.length))
            rw [ho4, List.take_left s.o [r]])
        hc2 h6]
      rw [hs6v]
      have hD : (withSol (s.cover c) s4v.solutions).DownE r = (s.cover c).DownE r :=
        DownE_withSol _ _ r
      rw [hD]
      exact hY

/-- `search` restores the arena and the choice stack of any well-formed
matrix whose stack depth matches its level argument. -/
theorem search_restore : ∀ (fuel : Nat) (t : Matrix) (k : Nat), WF t →
    t.o.length = k →
    (search fuel t k).elems = t.elems ∧ (search fuel t k).o = t.o
  | 0, _, _ => fun _ _ => ⟨rfl, rfl⟩
  | fuel + 1, t, k => by
    intro hw hlen
    by_cases hH : t.HeadE = 0
    · rw [search_leaf_eq fuel t k hH]
      exact ⟨rfl, rfl⟩
    · obtain ⟨hs, cls, rowF, w⟩ := hw
      have hne : hs ≠ [] := by
        intro h0
        apply hH
        have hch := w.hchain
        rw [h0, hChain] at hch
        exact chainTo_nil _ _ _ _ hch
      have hszb : ∀ x ∈ hs, hdSize t x < M64 - 1 := by
        intro x hx
        obtain ⟨_, _, _, _, n, hv⟩ := w.hhd x hx
        have hh0 : hdSize t x = (cls x).length := by
          simp only [hdSize]
          rw [hv]
        rw [hh0]
        exact w.hlen x hx
      obtain ⟨l1, l2, hdec, _, _⟩ := getColumn_min t hs w.hchain hne hszb
      have hcmem : t.getColumn ∈ hs := by
        rw [hdec]
        exact List.mem_append_right _ (List.mem_cons_self ..)
      rw [search_step_eq fuel t k hH t.getColumn (t.cover t.getColumn) rfl rfl]
      have hdc := cover_dChain_self t hs cls rowF w t.getColumn hcmem
      rw [dChain] at hdc
      have hmem0 : (t.cover t.getColumn).DownE t.getColumn ∈
          t.getColumn :: cls t.getColumn := by
        cases hcl : cls t.getColumn with
        | nil =>
          rw [hcl] at hdc
          have h0 : (t.cover t.getColumn).DownE t.getColumn = t.getColumn :=
            chainTo_nil _ _ _ _ hdc
          rw [h0]
          exact List.mem_cons_self ..
        | cons a rest =>
          rw [hcl] at hdc
          have h0 : (t.cover t.getColumn).DownE t.getColumn = a :=
            chainTo_head _ _ _ _ _ _ hdc
          rw [h0]
          exact List.mem_cons_of_mem _ (List.mem_cons_self ..)
      obtain ⟨Y, hY⟩ := searchRows_restore t hs cls rowF w t.getColumn hcmem fuel
        (fun t' k' hw' hl' => search_restore fuel t' k' hw' hl')
        ((t.cover t.getColumn).elems.size + 1) t.solutions
        ((t.cover t.getColumn).DownE t.getColumn) hmem0
      have hws : withSol (t.cover t.getColumn) t.solutions = t.cover t.getColumn := by
        rw [show t.solutions = (t.cover t.getColumn).solutions from
          (sol_cover t t.getColumn).symm, withSol_self]
      rw [hws] at hY
      rw [← hlen, hY]
      exact ⟨rfl, rfl⟩


/-- The columns a chosen row covers: its own entry column followed by the
columns of the other elements on its row ring. -/
def covCols (s : Matrix) (rowF : Nat → List Nat) (r : Nat) : List Nat :=
  (s.get r).column :: (rowF r).map (fun m => (s.get m).column)

/-- `colName` only depends on the element's column and that slot's name. -/
theorem colName_congr (s t : Matrix) (e : Nat)
    (hcol : (t.get e).column = (s.get e).column)
    (hval : valName ((t.get ((s.get e).column)).val) =
      valName ((s.get ((s.get e).column)).val)) :
    t.colName e = s.colName e := by
  rw [Matrix.colName, Matrix.colName, hcol]
  cases hv : ((t.get ((s.get e).column)).val) <;>
    cases hw : ((s.get ((s.get e).column)).val) <;>
    rw [hv, hw] at hval <;>
    first
      | rfl
      | exact Option.noConfusion hval
      | injection hval with h1

/-- Covering never changes any element's displayed column name. -/
theorem cover_colName (s : Matrix) (c e : Nat) :
    (s.cover c).colName e = s.colName e :=
  colName_congr s (s.cover c) e (column_cover s c e) (by rw [valName_cover])

/-- Covers keep item values intact, along a fold. -/
theorem coverSeq_val_item : ∀ (ds : List Nat) (z : Matrix) (y : Nat),
    (z.get y).val = Val.vitem → ((coverSeq z ds).get y).val = Val.vitem
  | [], _, _ => fun h => h
  | d :: ds, z, y => fun h =>
    coverSeq_val_item ds (z.cover d) y (cover_val_item z d y h)

/-- Covers keep the item flag intact, along a fold. -/
theorem coverSeq_isItemV : ∀ (ds : List Nat) (z : Matrix) (y : Nat),
    isItemV ((coverSeq z ds).get y).val = isItemV ((z.get y).val)
  | [], _, _ => rfl
  | d :: ds, z, y => by
    show isItemV ((coverSeq (z.cover d) ds).get y).val = _
    rw [coverSeq_isItemV ds (z.cover d) y, isItemV_cover]

/-- The string-building loop only consults the traversal pointers and the
column names of the visited row elements. -/
theorem rowStrLoop_congr (s t : Matrix) (oi : Nat) : ∀ (js : List Nat) (F x : Nat)
    (acc : String),
    chainTo (s.RightE) oi F x = some js →
    (∀ y ∈ js, t.RightE y = s.RightE y) →
    (∀ y ∈ js, t.colName y = s.colName y) →
    rowStrLoop t F oi x acc = rowStrLoop s F oi x acc
  | [], F, x, acc => by
    intro hch _ _
    have hx : x = oi := chainTo_nil _ _ _ _ hch
    cases F with
    | zero => rfl
    | succ F =>
      simp only [rowStrLoop]
      rw [if_pos hx, if_pos hx]
  | y :: js', F, x, acc => by
    intro hch hR hC
    have hx : x = y := chainTo_head _ _ _ _ _ _ hch
    have hne : y ≠ oi := chainTo_ne_stop _ _ _ _ _ hch y (List.mem_cons_self ..)
    match F, hch with
    | F + 1, hch =>
      rw [hx]
      rw [hx] at hch
      simp only [rowStrLoop]
      rw [if_neg hne, if_neg hne, hR y (List.mem_cons_self ..),
        hC y (List.mem_cons_self ..)]
      exact rowStrLoop_congr s t oi js' F (s.RightE y) (acc ++ " " ++ s.colName y)
        (chainTo_tail _ _ _ _ _ _ hch)
        (fun y' hy' => hR y' (List.mem_cons_of_mem _ hy'))
        (fun y' hy' => hC y' (List.mem_cons_of_mem _ hy'))

/-- Covering a live column does not change the recorded string of any item
row. -/
theorem cover_rowString_item (s : Matrix) (hs : List Nat) (cls rowF : Nat → List Nat)
    (w : WFd s hs cls rowF) (c : Nat) (hc : c ∈ hs) (oi : Nat)
    (hsz : oi < s.elems.size) (hval : (s.get oi).val = Val.vitem) :
    (s.cover c).rowString oi = s.rowString oi := by
  obtain ⟨hrch, _, _, hmemb, _⟩ := w.hrow oi hsz hval
  rw [rChain] at hrch
  rw [Matrix.rowString, Matrix.rowString, size_cover,
    cover_RightE_item s hs cls rowF w c hc oi hval, cover_colName s c oi]
  exact rowStrLoop_congr s (s.cover c) oi (rowF oi) (s.elems.size + 1)
    (s.RightE oi) (s.colName oi) hrch
    (fun y hy => cover_RightE_item s hs cls rowF w c hc y (hmemb y hy).1)
    (fun y hy => cover_colName s c y)

/-- Iterated covers of live columns do not change item row strings. -/
theorem coverSeq_rowString_item : ∀ (ds : List Nat) (z : Matrix) (hs : List Nat)
    (cls rowF : Nat → List Nat), WFd z hs cls rowF →
    (∀ d ∈ ds, d ∈ hs) → ds.Nodup →
    ∀ y, y < z.elems.size → (z.get y).val = Val.vitem →
    (coverSeq z ds).rowString y = z.rowString y
  | [], _, _, _, _ => fun _ _ _ _ _ _ => rfl
  | d :: ds, z, hs, cls, rowF => by
    intro w hds hnd y hysz hyval
    have hd : d ∈ hs := hds d (List.mem_cons_self ..)
    have w' := WFd_cover z hs cls rowF w d hd
    have hds' : ∀ d' ∈ ds, d' ∈ hs.erase d := by
      intro d' hd'
      refine (w.hnd.mem_erase_iff).mpr ⟨?_, hds d' (List.mem_cons_of_mem _ hd')⟩
      intro he
      exact List.Nodup.not_mem hnd (by rw [← he]; exact hd')
    show (coverSeq (z.cover d) ds).rowString y = z.rowString y
    rw [coverSeq_rowString_item ds (z.cover d) (hs.erase d) _ rowF w' hds'
      (List.Nodup.of_cons hnd) y (by rw [size_cover]; exact hysz)
      (cover_val_item z d y hyval)]
    exact cover_rowString_item z hs cls rowF w d hd y hysz hyval

/-- Erasing a batch of distinct members splits a duplicate-free list, up to
permutation, into the batch and the remainder. -/
theorem perm_eraseSeq : ∀ (ds l : List Nat), l.Nodup → (∀ d ∈ ds, d ∈ l) →
    ds.Nodup → l.Perm (ds ++ eraseSeq l ds)
  | [], l => by
    intro _ _ _
    rw [List.nil_append, eraseSeq_nil]
  | d :: ds, l => by
    intro hnd hmem hdnd
    have h1 : l.Perm (d :: l.erase d) :=
      List.perm_cons_erase (hmem d (List.mem_cons_self ..))
    have h2 : (l.erase d).Perm (ds ++ eraseSeq (l.erase d) ds) :=
      perm_eraseSeq ds (l.erase d) (hnd.erase d)
        (fun d' hd' => (hnd.mem_erase_iff).mpr
          ⟨fun he => List.Nodup.not_mem hdnd (by rw [← he]; exact hd'),
           hmem d' (List.mem_cons_of_mem _ hd')⟩)
        (List.Nodup.of_cons hdnd)
    exact h1.trans (h2.cons d)

/-- The row loop of `search`, with solution accounting: besides restoring
the matrix, every solution it appends consists of the strings of a batch of
chosen item rows whose covered columns are, up to permutation, exactly the
live headers of the entry state. -/
theorem searchRows_solP (s : Matrix) (hs : List Nat) (cls : Nat → List Nat)
    (rowF : Nat → List Nat) (w : WFd s hs cls rowF) (c : Nat) (hc : c ∈ hs)
    (fuel0 : Nat)
    (IHr : ∀ (t : Matrix) (k' : Nat), WF t → t.o.length = k' →
      (search fuel0 t k').elems = t.elems ∧ (search fuel0 t k').o = t.o)
    (IHs : ∀ (t : Matrix) (k' : Nat) (hs' : List Nat) (cls' : Nat → List Nat),
      WFd t hs' cls' rowF → t.o.length = k' →
      (∀ y ∈ t.o, (t.get y).val = Val.vitem ∧ y < t.elems.size) →
      ∀ Z ∈ (search fuel0 t k').solutions, Z ∈ t.solutions ∨
        ∃ os, Z = (t.o ++ os).map t.rowString ∧
          ((os.map (covCols t rowF)).flatten).Perm hs' ∧
          (∀ y ∈ os, (t.get y).val = Val.vitem ∧ y < t.elems.size))
    (ho_items : ∀ y ∈ s.o, (s.get y).val = Val.vitem ∧ y < s.elems.size) :
    ∀ (F : Nat) (X : List (List String)) (r : Nat), r ∈ c :: cls c →
    ∃ Y, searchRows (fun t k' => search fuel0 t k') (withSol (s.cover c) X) F
      (s.o.length) c r = withSol s Y ∧
      ∀ Z ∈ Y, Z ∈ X ∨ ∃ os, Z = (s.o ++ os).map s.rowString ∧
        ((os.map (covCols s rowF)).flatten).Perm hs ∧
        (∀ y ∈ os, (s.get y).val = Val.vitem ∧ y < s.elems.size) := by
  have w1 := WFd_cover s hs cls rowF w c hc
  intro F
  induction F with
  | zero =>
    intro X r _
    refine ⟨X, ?_, fun Z hZ => Or.inl hZ⟩
    show (withSol (s.cover c) X).uncover c = withSol s X
    rw [uncover_withSol, WFd_cover_uncover s hs cls rowF w c hc]
  | succ F ihF =>
    intro X r hmem
    by_cases hrc : r = c
    · refine ⟨X, ?_, fun Z hZ => Or.inl hZ⟩
      rw [searchRows_stop _ _ _ _ _ _ hrc, uncover_withSol,
        WFd_cover_uncover s hs cls rowF w c hc]
    · have hrcl : r ∈ cls c := by
        rcases List.mem_cons.mp hmem with h1 | h2
        · exact absurd h1 hrc
        · exact h2
      obtain ⟨hrmat, hr1, hrsz, hrcol, hrval⟩ := w.hitem c hc r hrcl
      have hrszc : r < (s.cover c).elems.size := by
        rw [size_cover]
        exact hrsz
      have hrvalc : ((s.cover c).get r).val = Val.vitem := cover_val_item s c r hrval
      obtain ⟨hrchain, hlchain, hrnot, hrmemb, hrndcols⟩ := w1.hrow r hrszc hrvalc
      obtain ⟨hrchainS, hlchainS, hrnotS, hrmembS, hrndcolsS⟩ := w.hrow r hrsz hrval
      obtain ⟨s2v, hs2v⟩ : ∃ u, u = withO (withSol (s.cover c) X) (s.o ++ [r]) :=
        ⟨_, rfl⟩
      obtain ⟨dsv, hdsv⟩ : ∃ l, l = (rowF r).map (fun m => (s.get m).column) :=
        ⟨_, rfl⟩
      obtain ⟨s3v, hs3v⟩ : ∃ u, u = coverSeq s2v dsv := ⟨_, rfl⟩
      obtain ⟨s4v, hs4v⟩ : ∃ u, u = search fuel0 s3v (s.o.length + 1) := ⟨_, rfl⟩
      obtain ⟨s5v, hs5v⟩ : ∃ u, u = withO s4v s.o := ⟨_, rfl⟩
      obtain ⟨zFv, hzFv⟩ : ∃ u, u = withO (withSol (s.cover c) s4v.solutions) s.o :=
        ⟨_, rfl⟩
      obtain ⟨s6v, hs6v⟩ : ∃ u, u = withSol (s.cover c) s4v.solutions := ⟨_, rfl⟩
      have heA : s2v.elems = (s.cover c).elems := by
        rw [hs2v]
        rfl
      have wA := WFd_elems_congr (s.cover c) s2v heA (hs.erase c) _ rowF w1
      have hcolA : ∀ m, (s2v.get m).column = (s.get m).column := by
        intro m
        rw [get_meshCongr (s.cover c) s2v heA, column_cover]
      have hdsA : (rowF r).map (fun m => (s2v.get m).column) = dsv := by
        rw [hdsv]
        exact List.map_congr_left (fun m _ => hcolA m)
      have hrszA : r < s2v.elems.size := by
        rw [heA]
        exact hrszc
      have hrvalA : (s2v.get r).val = Val.vitem := by
        rw [get_meshCongr (s.cover c) s2v heA]
        exact hrvalc
      have hAch : chainTo (s2v.RightE) r (s2v.elems.size + 1) (s2v.RightE r) =
          some (rowF r) := by
        have h1 := (wA.hrow r hrszA hrvalA).1
        rw [rChain] at h1
        exact h1
      have hAitems : ∀ m ∈ rowF r, (s2v.get m).val = Val.vitem := by
        intro m hm
        rw [get_meshCongr (s.cover c) s2v heA]
        exact (hrmemb m hm).1
      have hAcols : ∀ m ∈ rowF r, (s2v.get m).column ∈ hs.erase c := by
        intro m hm
        rw [hcolA]
        refine (w.hnd.mem_erase_iff).mpr ⟨?_, (w.hliverow c hc r hrcl m hm).1⟩
        have hcne := (hrmembS m hm).2.2.2.1
        rw [hrcol] at hcne
        exact hcne
      have hAnd : ((rowF r).map (fun m => (s2v.get m).column)).Nodup := by
        rw [hdsA, hdsv]
        have h0 := hrndcolsS
        rw [List.map_cons] at h0
        exact List.Nodup.of_cons h0
      have hdsmem : ∀ d ∈ dsv, d ∈ hs.erase c := by
        intro d hd
        rw [← hdsA] at hd
        obtain ⟨m, hm, rfl⟩ := List.mem_map.mp hd
        exact hAcols m hm
      have hdsnd : dsv.Nodup := by
        rw [← hdsA]
        exact hAnd
      have hBeq : coverJs s2v (s2v.elems.size + 1) r (s2v.RightE r) = s3v := by
        rw [hs3v, ← hdsA]
        exact coverJs_eq_seq (rowF r) _ s2v (hs.erase c) _ rowF wA r _
          hAch hAitems hAcols hAnd
      obtain ⟨clsB, wB⟩ := WFd_coverSeq dsv s2v (hs.erase c) _ rowF wA hdsmem hdsnd
      have wB' : WFd s3v (eraseSeq (hs.erase c) dsv) clsB rowF := by
        rw [hs3v]
        exact wB
      have ho3 : s3v.o = s.o ++ [r] := by
        rw [hs3v, coverSeq_o, hs2v]
        rfl
      have hlen3 : s3v.o.length = s.o.length + 1 := by
        rw [ho3, List.length_append]
        rfl
      have hsol3 : s3v.solutions = X := by
        rw [hs3v, coverSeq_sol, hs2v]
        rfl
      have hszB : s3v.elems.size = s.elems.size := by
        rw [hs3v, coverSeq_size, heA, size_cover]
      have ho_items3 : ∀ y ∈ s3v.o, (s3v.get y).val = Val.vitem ∧
          y < s3v.elems.size := by
        intro y hy
        rw [ho3] at hy
        rcases List.mem_append.mp hy with hy1 | hy2
        · obtain ⟨hv, hsz⟩ := ho_items y hy1
          constructor
          · rw [hs3v]
            exact coverSeq_val_item dsv s2v y
              (by rw [get_meshCongr (s.cover c) s2v heA]
                  exact cover_val_item s c y hv)
          · rw [hszB]
            exact hsz
        · have hyr : y = r := List.mem_singleton.mp hy2
          rw [hyr]
          constructor
          · rw [hs3v]
            exact coverSeq_val_item dsv s2v r
              (by rw [get_meshCongr (s.cover c) s2v heA]
                  exact cover_val_item s c r hrval)
          · rw [hszB]
            exact hrsz
      obtain ⟨h4e, h4o⟩ := IHr s3v (s.o.length + 1) ⟨_, _, _, wB'⟩ hlen3
      have hsolB := IHs s3v (s.o.length + 1) (eraseSeq (hs.erase c) dsv) clsB wB'
        hlen3 ho_items3
      have h4e' : s4v.elems = s3v.elems := by
        rw [hs4v]
        exact h4e
      have ho4 : s4v.o = s.o ++ [r] := by
        rw [hs4v, h4o, ho3]
      have hr2 : s4v.o.getD (s.o.length) 0 = r := by
        rw [ho4]
        simp
      have hs5A : s5v = withO (withSol s3v s4v.solutions) s.o := by
        rw [hs5v]
        exact withO_eq_mesh s3v s4v h4e' s.o
      have hs5C : s5v = coverSeq zFv dsv := by
        rw [hs5A, hs3v, hs2v, coverSeq_mesh, withSol_withO, withSol_withSol,
          withO_withO, ← coverSeq_mesh, ← hzFv]
      have heF : zFv.elems = (s.cover c).elems := by
        rw [hzFv]
        rfl
      have wF := WFd_elems_congr (s.cover c) zFv heF (hs.erase c) _ rowF w1
      have hrszF : r < zFv.elems.size := by
        rw [heF]
        exact hrszc
      have hrvalF : (zFv.get r).val = Val.vitem := by
        rw [get_meshCongr (s.cover c) zFv heF]
        exact hrvalc
      have hcolF : ∀ m, (zFv.get m).column = (s.get m).column := by
        intro m
        rw [get_meshCongr (s.cover c) zFv heF, column_cover]
      have hdsF : (rowF r).map (fun m => (zFv.get m).column) = dsv := by
        rw [hdsv]
        exact List.map_congr_left (fun m _ => hcolF m)
      have hFlch : chainTo (zFv.LeftE) r (zFv.elems.size + 1) (zFv.LeftE r) =
          some ((rowF r).reverse) := by
        have h1 := (wF.hrow r hrszF hrvalF).2.1
        rw [lChain] at h1
        exact h1
      have hFitems : ∀ j ∈ (rowF r).reverse, (zFv.get j).val = Val.vitem := by
        intro j hj
        rw [get_meshCongr (s.cover c) zFv heF]
        exact (hrmemb j (List.mem_reverse.mp hj)).1
      have hFcols : ∀ j ∈ (rowF r).reverse, (zFv.get j).column ∈ hs.erase c := by
        intro j hj
        rw [hcolF]
        have h0 := hAcols j (List.mem_reverse.mp hj)
        rw [hcolA] at h0
        exact h0
      have hFnd : (((rowF r).reverse).map (fun j => (zFv.get j).column)).Nodup := by
        rw [List.map_reverse]
        apply List.nodup_reverse.mpr
        rw [hdsF]
        exact hdsnd
      have hpeel := uncoverJs_peel ((rowF r).reverse) (zFv.elems.size + 1) zFv
        (hs.erase c) _ rowF wF r (zFv.LeftE r) hFlch hFitems hFcols hFnd
      rw [List.reverse_reverse, hdsF] at hpeel
      have hcurs : s5v.LeftE r = zFv.LeftE r := by
        rw [hs5C]
        exact coverSeq_LeftE_item dsv zFv (hs.erase c) _ rowF wF
          (by rw [← hdsF]
              intro d hd
              obtain ⟨m, hm, rfl⟩ := List.mem_map.mp hd
              rw [hcolF]
              have h0 := hAcols m hm
              rw [hcolA] at h0
              exact h0)
          (by rw [← hdsF, hdsF]
              exact hdsnd) r hrvalF
      have hsz5 : s5v.elems.size = zFv.elems.size := by
        rw [hs5C, coverSeq_size]
      have hzFs : zFv = s6v := by
        rw [hzFv, hs6v]
        have ho : (withSol (s.cover c) s4v.solutions).o = s.o := by
          rw [o_withSol, o_cover]
        rw [← ho, withO_self]
      have h6 : s6v = uncoverJs s5v (s5v.elems.size + 1) r (s5v.LeftE r) := by
        rw [hcurs, hsz5, hs5C, hpeel]
        exact hzFs.symm
      have hc2 : c = (s5v.get r).column := by
        have h0 : (s5v.get r).column = c := by
          rw [hs5v]
          have hg : (withO s4v s.o).get r = s4v.get r := rfl
          rw [hg, get_meshCongr s3v s4v h4e', hs3v, coverSeq_column, hcolA, hrcol]
        exact h0.symm
      have hnext : (s.cover c).DownE r ∈ c :: cls c := by
        have hdc := cover_dChain_self s hs cls rowF w c hc
        rw [dChain] at hdc
        obtain ⟨p1, p2, hpdec⟩ := List.append_of_mem hrcl
        rw [hpdec] at hdc
        have hn := chainTo_next ((s.cover c).DownE) c r p2 p1 _ _ hdc
        rw [hn]
        rcases List.mem_cons.mp (headD_mem p2 c) with heq | hm2
        · rw [heq]
          exact List.mem_cons_self ..
        · exact List.mem_cons_of_mem _
            (by rw [hpdec]
                exact List.mem_append_right _ (List.mem_cons_of_mem _ hm2))
      -- lifting of the deep solution structure to the entry state
      have hcolB : ∀ x, (s3v.get x).column = (s.get x).column := by
        intro x
        rw [hs3v, coverSeq_column]
        exact hcolA x
      have hitemB : ∀ y, (s3v.get y).val = Val.vitem → (s.get y).val = Val.vitem := by
        intro y hv
        have hiso : isItemV ((s3v.get y).val) = isItemV ((s.get y).val) := by
          rw [hs3v, coverSeq_isItemV, get_meshCongr (s.cover c) s2v heA,
            isItemV_cover]
        rw [hv] at hiso
        exact (isItemV_eq_true _).mp hiso.symm
      have hrowstr : ∀ y, (s.get y).val = Val.vitem → y < s.elems.size →
          s3v.rowString y = s.rowString y := by
        intro y hv hsz
        rw [hs3v]
        have h1 : (coverSeq s2v dsv).rowString y = s2v.rowString y :=
          coverSeq_rowString_item dsv s2v (hs.erase c) _ rowF wA hdsmem hdsnd y
            (by rw [show s2v.elems.size = s.elems.size from by
                  rw [heA, size_cover]]
                exact hsz)
            (by rw [get_meshCongr (s.cover c) s2v heA]
                exact cover_val_item s c y hv)
        rw [h1, rowString_meshCongr (s.cover c) s2v heA y]
        exact cover_rowString_item s hs cls rowF w c hc y hsz hv
      have hcovB : ∀ y, covCols s3v rowF y = covCols s rowF y := by
        intro y
        rw [covCols, covCols]
        simp only [hcolB]
      have hlift : ∀ Z ∈ s4v.solutions, Z ∈ X ∨
          ∃ os, Z = (s.o ++ os).map s.rowString ∧
            ((os.map (covCols s rowF)).flatten).Perm hs ∧
            (∀ y ∈ os, (s.get y).val = Val.vitem ∧ y < s.elems.size) := by
        intro Z hZ
        rw [hs4v] at hZ
        rcases hsolB Z hZ with hin | ⟨os', heq, hperm, hositems⟩
        · left
          rw [hsol3] at hin
          exact hin
        · right
          refine ⟨r :: os', ?_, ?_, ?_⟩
          · rw [heq, ho3, List.append_assoc, List.singleton_append]
            apply List.map_congr_left
            intro y hy
            rcases List.mem_append.mp hy with hy1 | hy2
            · exact hrowstr y (ho_items y hy1).1 (ho_items y hy1).2
            · rcases List.mem_cons.mp hy2 with rfl | hy3
              · exact hrowstr y hrval hrsz
              · obtain ⟨hv3, hsz3'⟩ := hositems y hy3
                exact hrowstr y (hitemB y hv3) (by rw [← hszB]; exact hsz3')
          · rw [List.map_cons, List.flatten_cons]
            have hcovr : covCols s rowF r = c :: dsv := by
              rw [covCols, hrcol, hdsv]
            rw [hcovr]
            have hos'eq : os'.map (covCols s3v rowF) = os'.map (covCols s rowF) :=
              List.map_congr_left (fun y _ => hcovB y)
            rw [hos'eq] at hperm
            have hp1 : hs.Perm (c :: hs.erase c) := List.perm_cons_erase hc
            have hp2 : (hs.erase c).Perm (dsv ++ eraseSeq (hs.erase c) dsv) :=
              perm_eraseSeq dsv (hs.erase c) (w.hnd.erase c) hdsmem hdsnd
            show ((c :: dsv) ++ (os'.map (covCols s rowF)).flatten).Perm hs
            exact (hp1.trans ((hp2.trans
              ((hperm.symm).append_left dsv)).cons c)).symm
          · intro y hy
            rcases List.mem_cons.mp hy with rfl | hy2
            · exact ⟨hrval, hrsz⟩
            · obtain ⟨hv3, hsz3'⟩ := hositems y hy2
              exact ⟨hitemB y hv3, by rw [← hszB]; exact hsz3'⟩
      obtain ⟨Y, hY, hYchar⟩ := ihF s4v.solutions ((s.cover c).DownE r) hnext
      refine ⟨Y, ?_, ?_⟩
      · rw [searchRows_step_eq (fun t k' => search fuel0 t k')
          (withSol (s.cover c) X) F (s.o.length) c r hrc s2v s3v s4v r s5v c s6v
          (by rw [hs2v]
              show withO (withSol (s.cover c) X) (s.o ++ [r]) =
                withO (withSol (s.cover c) X) ((withSol (s.cover c) X).o ++ [r])
              rw [o_withSol, o_cover])
          hBeq.symm
          (by rw [hs4v, hs3v])
          hr2.symm
          (by rw [hs5v]
              show withO s4v s.o = withO s4v (s4v.o.take (s.o.length))
              rw [ho4, List.take_left s.o [r]])
          hc2 h6]
        rw [hs6v]
        have hD : (withSol (s.cover c) s4v.solutions).DownE r =
            (s.cover c).DownE r := DownE_withSol _ _ r
        rw [hD]
        exact hY
      · intro Z hZ
        rcases hYchar Z hZ with h1 | h2
        · exact hlift Z h1
        · exact Or.inr h2

/-- `search` solution accounting: every solution appended by a run on a
well-formed matrix is the string list of a batch of chosen item rows whose
covered columns are, up to permutation, exactly the live headers. -/
theorem search_solP : ∀ (fuel : Nat) (t : Matrix) (k : Nat) (hs : List Nat)
    (cls rowF : Nat → List Nat), WFd t hs cls rowF → t.o.length = k →
    (∀ y ∈ t.o, (t.get y).val = Val.vitem ∧ y < t.elems.size) →
    ∀ Z ∈ (search fuel t k).solutions, Z ∈ t.solutions ∨
      ∃ os, Z = (t.o ++ os).map t.rowString ∧
        ((os.map (covCols t rowF)).flatten).Perm hs ∧
        (∀ y ∈ os, (t.get y).val = Val.vitem ∧ y < t.elems.size)
  | 0, t, k, hs, cls, rowF => by
    intro _ _ _ Z hZ
    exact Or.inl hZ
  | fuel + 1, t, k, hs, cls, rowF => by
    intro w hlen hoitems Z hZ
    by_cases hH : t.HeadE = 0
    · rw [search_leaf_eq fuel t k hH] at hZ
      rcases List.mem_append.mp hZ with h1 | h2
      · exact Or.inl h1
      · have hZeq : Z = t.o.map t.rowString := List.mem_singleton.mp h2
        right
        refine ⟨[], ?_, ?_, ?_⟩
        · rw [List.append_nil]
          exact hZeq
        · have hhs : hs = [] := by
            have hch := w.hchain
            rw [hChain, hH] at hch
            have hstop : chainTo (t.RightE) 0 (t.elems.size + 1) 0 = some [] :=
              chainTo_stop _ 0 _
            rw [hstop] at hch
            injection hch with h'
            exact h'.symm
          rw [hhs]
          exact List.Perm.refl _
        · intro y hy
          exact absurd hy (List.not_mem_nil _)
    · have hne : hs ≠ [] := by
        intro h0
        apply hH
        have hch := w.hchain
        rw [h0, hChain] at hch
        exact chainTo_nil _ _ _ _ hch
      have hszb : ∀ x ∈ hs, hdSize t x < M64 - 1 := by
        intro x hx
        obtain ⟨_, _, _, _, n, hv⟩ := w.hhd x hx
        have hh0 : hdSize t x = (cls x).length := by
          simp only [hdSize]
          rw [hv]
        rw [hh0]
        exact w.hlen x hx
      obtain ⟨l1, l2, hdec, _, _⟩ := getColumn_min t hs w.hchain hne hszb
      have hcmem : t.getColumn ∈ hs := by
        rw [hdec]
        exact List.mem_append_right _ (List.mem_cons_self ..)
      rw [search_step_eq fuel t k hH t.getColumn (t.cover t.getColumn) rfl rfl] at hZ
      have hdc := cover_dChain_self t hs cls rowF w t.getColumn hcmem
      rw [dChain] at hdc
      have hmem0 : (t.cover t.getColumn).DownE t.getColumn ∈
          t.getColumn :: cls t.getColumn := by
        cases hcl : cls t.getColumn with
        | nil =>
          rw [hcl] at hdc
          have h0 : (t.cover t.getColumn).DownE t.getColumn = t.getColumn :=
            chainTo_nil _ _ _ _ hdc
          rw [h0]
          exact List.mem_cons_self ..
        | cons a rest =>
          rw [hcl] at hdc
          have h0 : (t.cover t.getColumn).DownE t.getColumn = a :=
            chainTo_head _ _ _ _ _ _ hdc
          rw [h0]
          exact List.mem_cons_of_mem _ (List.mem_cons_self ..)
      obtain ⟨Y, hY, hYchar⟩ := searchRows_solP t hs cls rowF w t.getColumn hcmem
        fuel
        (fun t' k' hw' hl' => search_restore fuel t' k' hw' hl')
        (fun t' k' hs'' cls'' w'' hl'' ho'' =>
          search_solP fuel t' k' hs'' cls'' rowF w'' hl'' ho'')
        hoitems
        ((t.cover t.getColumn).elems.size + 1) t.solutions
        ((t.cover t.getColumn).DownE t.getColumn) hmem0
      have hws : withSol (t.cover t.getColumn) t.solutions = t.cover t.getColumn := by
        rw [show t.solutions = (t.cover t.getColumn).solutions from
          (sol_cover t t.getColumn).symm, withSol_self]
      rw [hws] at hY
      rw [← hlen, hY] at hZ
      exact hYchar Z hZ

/-- The solution delta of a search call depends only on the mesh and the
partial solution, not on the solutions already accumulated. -/
theorem search_delta : ∀ (fuel : Nat) (s : Matrix) (k : Nat), ∃ D,
    (search fuel s k).solutions = s.solutions ++ D ∧
    ∀ X, search fuel (withSol s X) k = withSol (search fuel s k) (X ++ D) := by
  intro fuel
  induction fuel with
  | zero =>
    intro s k
    exact ⟨[], by simp [search], fun X => by simp [search, withSol]⟩
  | succ fuel ih =>
    intro s k
    have hsrows : ∀ (rf : Nat) (s : Matrix) (k c r : Nat), ∃ D,
        (searchRows (fun t k' => search fuel t k') s rf k c r).solutions =
          s.solutions ++ D ∧
        ∀ X, searchRows (fun t k' => search fuel t k') (withSol s X) rf k c r =
          withSol (searchRows (fun t k' => search fuel t k') s rf k c r) (X ++ D) := by
      intro rf
      induction rf with
      | zero =>
        intro s k c r
        refine ⟨[], ?_, ?_⟩
        · show (s.uncover c).solutions = s.solutions ++ []
          rw [List.append_nil, sol_uncover]
        · intro X
          show (withSol s X).uncover c = withSol (s.uncover c) (X ++ [])
          rw [List.append_nil, uncover_withSol]
      | succ rf ihr =>
        intro s k c r
        by_cases hr : r = c
        · refine ⟨[], ?_, ?_⟩
          · rw [searchRows_stop _ s rf k c r hr, List.append_nil, sol_uncover]
          · intro X
            rw [searchRows_stop _ (withSol s X) rf k c r hr,
              searchRows_stop _ s rf k c r hr, List.append_nil, uncover_withSol]
        · set s2 := { s with o := s.o ++ [r] } with hs2
          set s3 := coverJs s2 (s2.elems.size + 1) r (s2.RightE r) with hs3
          obtain ⟨D1, hD1sol, hD1⟩ := ih s3 (k + 1)
          set s4 := search fuel s3 (k + 1) with hs4
          set r2 := s4.o.getD k 0 with hr2
          set s5 := { s4 with o := s4.o.take k } with hs5
          set c2 := (s5.get r2).column with hc2
          set s6 := uncoverJs s5 (s5.elems.size + 1) r2 (s5.LeftE r2) with hs6
          obtain ⟨D2, hD2sol, hD2⟩ := ihr s6 k c2 (s6.DownE r2)
          have hstep : searchRows (fun t k' => search fuel t k') s (rf + 1) k c r =
              searchRows (fun t k' => search fuel t k') s6 rf k c2 (s6.DownE r2) :=
            searchRows_step_eq _ s rf k c r hr s2 s3 s4 r2 s5 c2 s6
              hs2 hs3 hs4 hr2 hs5 hc2 hs6
          have hstepX : ∀ X,
              searchRows (fun t k' => search fuel t k') (withSol s X) (rf + 1) k c r =
              searchRows (fun t k' => search fuel t k') (withSol s6 (X ++ D1)) rf k c2
                ((withSol s6 (X ++ D1)).DownE r2) := by
            intro X
            refine searchRows_step_eq _ (withSol s X) rf k c r hr
              (withSol s2 X) (withSol s3 X) (withSol s4 (X ++ D1)) r2
              (withSol s5 (X ++ D1)) c2 (withSol s6 (X ++ D1)) ?_ ?_ ?_ ?_ ?_ ?_ ?_
            · rfl
            · rw [size_withSol, RightE_withSol, coverJs_withSol, ← hs3]
            · exact (hD1 X).symm
            · rw [o_withSol]
            · rfl
            · rw [get_withSol]
            · rw [size_withSol, LeftE_withSol, uncoverJs_withSol, ← hs6]
          refine ⟨D1 ++ D2, ?_, ?_⟩
          · rw [hstep, hD2sol]
            have h5sol : s5.solutions = s4.solutions := by rw [hs5]
            have h3sol : s3.solutions = s.solutions := by
              rw [hs3, sol_coverJs, hs2]
            have h6sol : s6.solutions = s.solutions ++ D1 := by
              rw [hs6, sol_uncoverJs, h5sol, hD1sol, h3sol]
            rw [h6sol, List.append_assoc]
          · intro X
            rw [hstepX X, DownE_withSol, hD2 (X ++ D1), List.append_assoc, hstep]
    by_cases hh : s.HeadE = 0
    · refine ⟨[s.o.map s.rowString], ?_, ?_⟩
      · rw [search_leaf_eq fuel s k hh]
      · intro X
        rw [search_leaf_eq fuel (withSol s X) k hh, search_leaf_eq fuel s k hh,
          elems_withSol, o_withSol, sol_withSol]
        have hmap : List.map (withSol s X).rowString s.o = List.map s.rowString s.o :=
          List.map_congr_left (fun oi _ => rowString_withSol s X oi)
        rw [hmap]
        rfl
    · obtain ⟨D, hDsol, hD⟩ := hsrows ((s.cover s.getColumn).elems.size + 1)
        (s.cover s.getColumn) k s.getColumn ((s.cover s.getColumn).DownE s.getColumn)
      refine ⟨D, ?_, ?_⟩
      · rw [search_step_eq fuel s k hh s.getColumn (s.cover s.getColumn) rfl rfl,
          hDsol, sol_cover]
      · intro X
        rw [search_step_eq fuel (withSol s X) k hh ((withSol s X).getColumn)
            ((withSol s X).cover ((withSol s X).getColumn)) rfl rfl,
          search_step_eq fuel s k hh s.getColumn (s.cover s.getColumn) rfl rfl,
          getColumn_withSol, cover_withSol, size_withSol, DownE_withSol]
        exact hD X

/-! ### Concrete instances -/

/-- One column named "a" with a single item pushed under it. -/
def c3M : Matrix := ((New.PushHead "a").1.PushItem 0 2).1

/-- Columns "A" and "B" and one row with an item under each. -/
def c7M : Matrix :=
  let p1 := New.PushHead "A"
  let p2 := p1.1.PushHead "B"
  let p3 := p2.1.PushItem 0 2
  (p3.1.PushItem p3.2 3).1

/-- Columns "A" and "B"; a row with items under both, then a row under "A" only. -/
def c6M : Matrix :=
  let p1 := New.PushHead "A"
  let p2 := p1.1.PushHead "B"
  let p3 := p2.1.PushItem 0 2
  let p4 := p3.1.PushItem p3.2 3
  (p4.1.PushItem 0 2).1

/-- Columns "A" and "B"; one item under "A", none under "B". -/
def c9M : Matrix :=
  let p1 := New.PushHead "A"
  let p2 := p1.1.PushHead "B"
  (p2.1.PushItem 0 2).1

/-- A success-leaf state: the lone column of `c3M` covered and its row chosen. -/
def c6Leaf : Matrix := { c3M.cover 2 with o := [3] }

/-- The run Solve; PushHead "a"; Solve, started from the zero value of `Matrix`. -/
def zrun : Matrix :=
  let s := (zeroMatrix.Solve 5).2
  let s := (s.PushHead "a").1
  (s.Solve 5).2

/-- The run Solve; PushHead "a"; Solve, started from `New`. -/
def nrun : Matrix :=
  let s := (New.Solve 5).2
  let s := (s.PushHead "a").1
  (s.Solve 5).2


/-- Number of elements on a column's vertical ring, read by traversal. -/
def colCount (s : Matrix) (c : Nat) : Option Nat :=
  (chainTo (s.DownE) c (s.elems.size + 1) (s.DownE c)).map List.length

/-- One header's stored size agrees with its ring, as a boolean check. -/
def sizeRingOK (s : Matrix) (c : Nat) : Bool :=
  match (s.get c).val with
  | Val.vhead _ sz => decide (colCount s c = some sz)
  | _ => true

/-- Every stored header size equals the length of that header's vertical ring. -/
def SizeOK (s : Matrix) : Prop :=
  ∀ c < s.elems.size, sizeRingOK s c = true

/-- Ring symmetry of every arena element except the nil slot. -/
def SymOK (s : Matrix) : Prop :=
  ∀ e, 1 ≤ e → e < s.elems.size →
    (s.get ((s.get e).right)).left = e ∧ (s.get ((s.get e).left)).right = e ∧
    (s.get ((s.get e).up)).down = e ∧ (s.get ((s.get e).down)).up = e

/-- One slot's bound on a stored header size, as a boolean check. -/
def valOKb (v : Val) : Bool :=
  match v with
  | Val.vhead _ sz => decide (sz < M64)
  | _ => true

theorem valsOK_of_b (s : Matrix) (h : ∀ i < s.elems.size, valOKb (s.get i).val = true) :
    ValsOK s := by
  intro i hi n sz hv
  have := h i hi
  rw [hv] at this
  simpa [valOKb] using this

/-- One column named "a" and nothing else. -/
def c8M : Matrix := (New.PushHead "a").1

/-- C2: covering a live well-formed column and then immediately uncovering
it, with no intervening mutation, restores the matrix exactly: every link and
every stored size equals its value before the cover call. -/
theorem C2_cover_then_uncover (s : Matrix) (c : Nat) (rows : List (Nat × List Nat))
    (L : List Nat)
    (hDn : chainTo (s.DownE) c (s.elems.size + 1) (s.DownE c) = some (rows.map Prod.fst))
    (hUp : chainTo (s.UpE) c (s.elems.size + 1) (s.UpE c) =
      some (rows.map Prod.fst).reverse)
    (hR : ∀ p ∈ rows, chainTo (s.RightE) p.1 (s.elems.size + 1) (s.RightE p.1) = some p.2)
    (hL : ∀ p ∈ rows, chainTo (s.LeftE) p.1 (s.elems.size + 1) (s.LeftE p.1) =
      some p.2.reverse)
    (hseqnd : ((rows.map Prod.snd).flatten).Nodup)
    (hvf : VertFamOn s ((rows.map Prod.snd).flatten))
    (hid : ColIdemOn s ((rows.map Prod.snd).flatten))
    (hnh : NoHeadOn s ((rows.map Prod.snd).flatten))
    (hnc : ∀ j ∈ (rows.map Prod.snd).flatten, (s.get j).column ≠ c)
    (hcc : (s.get c).column = c)
    (hrcol : ∀ p ∈ rows, (s.get p.1).column = c)
    (hLnd : L.Nodup) (hLsym : VSymOn s L) (hLcl : VClosed s L) (hLbd : BoundsOn s L)
    (hvals : ValsOK s)
    (hsubL : ∀ j ∈ (rows.map Prod.snd).flatten, j ∈ L)
    (hH1 : (s.get ((s.get c).right)).left = c)
    (hH2 : (s.get ((s.get c).left)).right = c)
    (hrcne : (s.get c).right ≠ c) (hlcne : (s.get c).left ≠ c)
    (hhdrL : ∀ p ∈ rows, (s.get c).left ≠ p.1 ∧ (s.get c).left ∉ p.2)
    (hhdrR : ∀ p ∈ rows, (s.get c).right ≠ p.1 ∧ (s.get c).right ∉ p.2) :
    (s.cover c).uncover c = s :=
  cover_uncover s c rows L hDn hUp hR hL hseqnd hvf hid hnh hnc hcc hrcol hLnd hLsym hLcl hLbd hvals hsubL hH1 hH2 hrcne hlcne hhdrL hhdrR

theorem C2_cover_then_uncover_witness :
    (chainTo (c7M.DownE) 2 (c7M.elems.size + 1) (c7M.DownE 2) = some [4] ∧
    chainTo (c7M.UpE) 2 (c7M.elems.size + 1) (c7M.UpE 2) = some [4] ∧
    (∀ p ∈ [((4 : Nat), [(5 : Nat)])],
      chainTo (c7M.RightE) p.1 (c7M.elems.size + 1) (c7M.RightE p.1) = some p.2) ∧
    (∀ p ∈ [((4 : Nat), [(5 : Nat)])],
      chainTo (c7M.LeftE) p.1 (c7M.elems.size + 1) (c7M.LeftE p.1) = some p.2.reverse) ∧
    ([(5 : Nat)]).Nodup ∧
    VertFamOn c7M [5] ∧ ColIdemOn c7M [5] ∧ NoHeadOn c7M [5] ∧
    (∀ j ∈ [(5 : Nat)], (c7M.get j).column ≠ 2) ∧
    (c7M.get 2).column = 2 ∧
    (∀ p ∈ [((4 : Nat), [(5 : Nat)])], (c7M.get p.1).column = 2) ∧
    ([(3 : Nat), 5]).Nodup ∧ VSymOn c7M [3, 5] ∧ VClosed c7M [3, 5] ∧
    BoundsOn c7M [3, 5] ∧ ValsOK c7M ∧
    (∀ j ∈ [(5 : Nat)], j ∈ [(3 : Nat), 5]) ∧
    (c7M.get ((c7M.get 2).right)).left = 2 ∧
    (c7M.get ((c7M.get 2).left)).right = 2 ∧
    (c7M.get 2).right ≠ 2 ∧ (c7M.get 2).left ≠ 2 ∧
    (∀ p ∈ [((4 : Nat), [(5 : Nat)])], (c7M.get 2).left ≠ p.1 ∧ (c7M.get 2).left ∉ p.2) ∧
    (∀ p ∈ [((4 : Nat), [(5 : Nat)])], (c7M.get 2).right ≠ p.1 ∧ (c7M.get 2).right ∉ p.2)) ∧
    (c7M.cover 2).uncover 2 = c7M :=
  ⟨⟨by decide, by decide, by decide, by decide, by decide,
    by simp only [VertFamOn, inFam]; decide, by simp only [ColIdemOn]; decide,
    by simp only [NoHeadOn]; decide, by decide, by decide, by decide,
    by decide, by simp only [VSymOn]; decide, by simp only [VClosed]; decide,
    by simp only [BoundsOn]; decide, valsOK_of_b _ (by decide), by decide,
    by decide, by decide, by decide, by decide, by decide, by decide⟩,
    C2_cover_then_uncover c7M 2 [(4, [5])] [3, 5] (by decide) (by decide) (by decide) (by decide) (by decide)
    (by simp only [VertFamOn, inFam]; decide) (by simp only [ColIdemOn]; decide)
    (by simp only [NoHeadOn]; decide) (by decide) (by decide) (by decide)
    (by decide) (by simp only [VSymOn]; decide) (by simp only [VClosed]; decide)
    (by simp only [BoundsOn]; decide) (valsOK_of_b _ (by decide)) (by decide)
    (by decide) (by decide) (by decide) (by decide) (by decide) (by decide)⟩

/-- C7 counterexample: c7M is built by PushHead and PushItem alone, and the
single operation uncover(A) is a complete sequence of construction, cover and
uncover operations; after it column "B" stores size 2 while its vertical ring
holds one element. -/
theorem C7_counterexample :
    ((c7M.uncover 2).get 3).val = Val.vhead "B" 2 ∧
    chainTo ((c7M.uncover 2).DownE) 3 ((c7M.uncover 2).elems.size + 1)
      ((c7M.uncover 2).DownE 3) = some [5] ∧ ([(5 : Nat)] : List Nat).length ≠ 2 := by
  refine ⟨by decide, by decide, by decide⟩

/-- C7 (amended): each header's stored size equals its vertical ring length
after construction; the invariant is preserved by an immediately matched
cover/uncover pair on a live well-formed column, but a lone unmatched
uncover (or cover) can break it. -/
theorem C7_size_ring_consistency (s : Matrix) (c : Nat) (rows : List (Nat × List Nat))
    (L : List Nat)
    (hDn : chainTo (s.DownE) c (s.elems.size + 1) (s.DownE c) = some (rows.map Prod.fst))
    (hUp : chainTo (s.UpE) c (s.elems.size + 1) (s.UpE c) =
      some (rows.map Prod.fst).reverse)
    (hR : ∀ p ∈ rows, chainTo (s.RightE) p.1 (s.elems.size + 1) (s.RightE p.1) = some p.2)
    (hL : ∀ p ∈ rows, chainTo (s.LeftE) p.1 (s.elems.size + 1) (s.LeftE p.1) =
      some p.2.reverse)
    (hseqnd : ((rows.map Prod.snd).flatten).Nodup)
    (hvf : VertFamOn s ((rows.map Prod.snd).flatten))
    (hid : ColIdemOn s ((rows.map Prod.snd).flatten))
    (hnh : NoHeadOn s ((rows.map Prod.snd).flatten))
    (hnc : ∀ j ∈ (rows.map Prod.snd).flatten, (s.get j).column ≠ c)
    (hcc : (s.get c).column = c)
    (hrcol : ∀ p ∈ rows, (s.get p.1).column = c)
    (hLnd : L.Nodup) (hLsym : VSymOn s L) (hLcl : VClosed s L) (hLbd : BoundsOn s L)
    (hvals : ValsOK s)
    (hsubL : ∀ j ∈ (rows.map Prod.snd).flatten, j ∈ L)
    (hH1 : (s.get ((s.get c).right)).left = c)
    (hH2 : (s.get ((s.get c).left)).right = c)
    (hrcne : (s.get c).right ≠ c) (hlcne : (s.get c).left ≠ c)
    (hhdrL : ∀ p ∈ rows, (s.get c).left ≠ p.1 ∧ (s.get c).left ∉ p.2)
    (hhdrR : ∀ p ∈ rows, (s.get c).right ≠ p.1 ∧ (s.get c).right ∉ p.2)
    (hS : SizeOK s) :
    SizeOK ((s.cover c).uncover c) := by
  rw [cover_uncover s c rows L hDn hUp hR hL hseqnd hvf hid hnh hnc hcc hrcol hLnd hLsym hLcl hLbd hvals hsubL hH1 hH2 hrcne hlcne hhdrL hhdrR]
  exact hS

theorem C7_size_ring_consistency_witness :
    (chainTo (c7M.DownE) 2 (c7M.elems.size + 1) (c7M.DownE 2) = some [4] ∧
    chainTo (c7M.UpE) 2 (c7M.elems.size + 1) (c7M.UpE 2) = some [4] ∧
    (∀ p ∈ [((4 : Nat), [(5 : Nat)])],
      chainTo (c7M.RightE) p.1 (c7M.elems.size + 1) (c7M.RightE p.1) = some p.2) ∧
    (∀ p ∈ [((4 : Nat), [(5 : Nat)])],
      chainTo (c7M.LeftE) p.1 (c7M.elems.size + 1) (c7M.LeftE p.1) = some p.2.reverse) ∧
    ([(5 : Nat)]).Nodup ∧
    VertFamOn c7M [5] ∧ ColIdemOn c7M [5] ∧ NoHeadOn c7M [5] ∧
    (∀ j ∈ [(5 : Nat)], (c7M.get j).column ≠ 2) ∧
    (c7M.get 2).column = 2 ∧
    (∀ p ∈ [((4 : Nat), [(5 : Nat)])], (c7M.get p.1).column = 2) ∧
    ([(3 : Nat), 5]).Nodup ∧ VSymOn c7M [3, 5] ∧ VClosed c7M [3, 5] ∧
    BoundsOn c7M [3, 5] ∧ ValsOK c7M ∧
    (∀ j ∈ [(5 : Nat)], j ∈ [(3 : Nat), 5]) ∧
    (c7M.get ((c7M.get 2).right)).left = 2 ∧
    (c7M.get ((c7M.get 2).left)).right = 2 ∧
    (c7M.get 2).right ≠ 2 ∧ (c7M.get 2).left ≠ 2 ∧
    (∀ p ∈ [((4 : Nat), [(5 : Nat)])], (c7M.get 2).left ≠ p.1 ∧ (c7M.get 2).left ∉ p.2) ∧
    (∀ p ∈ [((4 : Nat), [(5 : Nat)])], (c7M.get 2).right ≠ p.1 ∧ (c7M.get 2).right ∉ p.2)) ∧ SizeOK c7M ∧
    SizeOK ((c7M.cover 2).uncover 2) :=
  ⟨⟨by decide, by decide, by decide, by decide, by decide,
    by simp only [VertFamOn, inFam]; decide, by simp only [ColIdemOn]; decide,
    by simp only [NoHeadOn]; decide, by decide, by decide, by decide,
    by decide, by simp only [VSymOn]; decide, by simp only [VClosed]; decide,
    by simp only [BoundsOn]; decide, valsOK_of_b _ (by decide), by decide,
    by decide, by decide, by decide, by decide, by decide, by decide⟩,
    by simp only [SizeOK]; decide,
    C7_size_ring_consistency c7M 2 [(4, [5])] [3, 5] (by decide) (by decide) (by decide) (by decide) (by decide)
    (by simp only [VertFamOn, inFam]; decide) (by simp only [ColIdemOn]; decide)
    (by simp only [NoHeadOn]; decide) (by decide) (by decide) (by decide)
    (by decide) (by simp only [VSymOn]; decide) (by simp only [VClosed]; decide)
    (by simp only [BoundsOn]; decide) (valsOK_of_b _ (by decide)) (by decide)
    (by decide) (by decide) (by decide) (by decide) (by decide) (by decide)
    (by simp only [SizeOK]; decide)⟩

/-- C8 counterexample: c8M is built by a single PushHead, and the single
operation cover(2) is a complete sequence of construction, cover and uncover
operations; after it the covered header 2 violates e.right.left = e. -/
theorem C8_counterexample :
    2 < (c8M.cover 2).elems.size ∧
    ((c8M.cover 2).get (((c8M.cover 2).get 2).right)).left ≠ 2 := by
  refine ⟨by decide, by decide⟩

/-- C8 (amended): every element satisfies the four ring-symmetry equations
after construction; symmetry is preserved by an immediately matched
cover/uncover pair on a live well-formed column, but between an unmatched
cover and its uncover the covered column's own links violate it. -/
theorem C8_ring_symmetry (s : Matrix) (c : Nat) (rows : List (Nat × List Nat))
    (L : List Nat)
    (hDn : chainTo (s.DownE) c (s.elems.size + 1) (s.DownE c) = some (rows.map Prod.fst))
    (hUp : chainTo (s.UpE) c (s.elems.size + 1) (s.UpE c) =
      some (rows.map Prod.fst).reverse)
    (hR : ∀ p ∈ rows, chainTo (s.RightE) p.1 (s.elems.size + 1) (s.RightE p.1) = some p.2)
    (hL : ∀ p ∈ rows, chainTo (s.LeftE) p.1 (s.elems.size + 1) (s.LeftE p.1) =
      some p.2.reverse)
    (hseqnd : ((rows.map Prod.snd).flatten).Nodup)
    (hvf : VertFamOn s ((rows.map Prod.snd).flatten))
    (hid : ColIdemOn s ((rows.map Prod.snd).flatten))
    (hnh : NoHeadOn s ((rows.map Prod.snd).flatten))
    (hnc : ∀ j ∈ (rows.map Prod.snd).flatten, (s.get j).column ≠ c)
    (hcc : (s.get c).column = c)
    (hrcol : ∀ p ∈ rows, (s.get p.1).column = c)
    (hLnd : L.Nodup) (hLsym : VSymOn s L) (hLcl : VClosed s L) (hLbd : BoundsOn s L)
    (hvals : ValsOK s)
    (hsubL : ∀ j ∈ (rows.map Prod.snd).flatten, j ∈ L)
    (hH1 : (s.get ((s.get c).right)).left = c)
    (hH2 : (s.get ((s.get c).left)).right = c)
    (hrcne : (s.get c).right ≠ c) (hlcne : (s.get c).left ≠ c)
    (hhdrL : ∀ p ∈ rows, (s.get c).left ≠ p.1 ∧ (s.get c).left ∉ p.2)
    (hhdrR : ∀ p ∈ rows, (s.get c).right ≠ p.1 ∧ (s.get c).right ∉ p.2)
    (hS : SymOK s) :
    SymOK ((s.cover c).uncover c) := by
  rw [cover_uncover s c rows L hDn hUp hR hL hseqnd hvf hid hnh hnc hcc hrcol hLnd hLsym hLcl hLbd hvals hsubL hH1 hH2 hrcne hlcne hhdrL hhdrR]
  exact hS

theorem C8_ring_symmetry_witness :
    (chainTo (c7M.DownE) 2 (c7M.elems.size + 1) (c7M.DownE 2) = some [4] ∧
    chainTo (c7M.UpE) 2 (c7M.elems.size + 1) (c7M.UpE 2) = some [4] ∧
    (∀ p ∈ [((4 : Nat), [(5 : Nat)])],
      chainTo (c7M.RightE) p.1 (c7M.elems.size + 1) (c7M.RightE p.1) = some p.2) ∧
    (∀ p ∈ [((4 : Nat), [(5 : Nat)])],
      chainTo (c7M.LeftE) p.1 (c7M.elems.size + 1) (c7M.LeftE p.1) = some p.2.reverse) ∧
    ([(5 : Nat)]).Nodup ∧
    VertFamOn c7M [5] ∧ ColIdemOn c7M [5] ∧ NoHeadOn c7M [5] ∧
    (∀ j ∈ [(5 : Nat)], (c7M.get j).column ≠ 2) ∧
    (c7M.get 2).column = 2 ∧
    (∀ p ∈ [((4 : Nat), [(5 : Nat)])], (c7M.get p.1).column = 2) ∧
    ([(3 : Nat), 5]).Nodup ∧ VSymOn c7M [3, 5] ∧ VClosed c7M [3, 5] ∧
    BoundsOn c7M [3, 5] ∧ ValsOK c7M ∧
    (∀ j ∈ [(5 : Nat)], j ∈ [(3 : Nat), 5]) ∧
    (c7M.get ((c7M.get 2).right)).left = 2 ∧
    (c7M.get ((c7M.get 2).left)).right = 2 ∧
    (c7M.get 2).right ≠ 2 ∧ (c7M.get 2).left ≠ 2 ∧
    (∀ p ∈ [((4 : Nat), [(5 : Nat)])], (c7M.get 2).left ≠ p.1 ∧ (c7M.get 2).left ∉ p.2) ∧
    (∀ p ∈ [((4 : Nat), [(5 : Nat)])], (c7M.get 2).right ≠ p.1 ∧ (c7M.get 2).right ∉ p.2)) ∧ SymOK c7M ∧
    SymOK ((c7M.cover 2).uncover 2) :=
  ⟨⟨by decide, by decide, by decide, by decide, by decide,
    by simp only [VertFamOn, inFam]; decide, by simp only [ColIdemOn]; decide,
    by simp only [NoHeadOn]; decide, by decide, by decide, by decide,
    by decide, by simp only [VSymOn]; decide, by simp only [VClosed]; decide,
    by simp only [BoundsOn]; decide, valsOK_of_b _ (by decide), by decide,
    by decide, by decide, by decide, by decide, by decide, by decide⟩,
    by simp only [SymOK]; decide,
    C8_ring_symmetry c7M 2 [(4, [5])] [3, 5] (by decide) (by decide) (by decide) (by decide) (by decide)
    (by simp only [VertFamOn, inFam]; decide) (by simp only [ColIdemOn]; decide)
    (by simp only [NoHeadOn]; decide) (by decide) (by decide) (by decide)
    (by decide) (by simp only [VSymOn]; decide) (by simp only [VClosed]; decide)
    (by simp only [BoundsOn]; decide) (valsOK_of_b _ (by decide)) (by decide)
    (by decide) (by decide) (by decide) (by decide) (by decide) (by decide)
    (by simp only [SymOK]; decide)⟩

/-- C10 counterexample: the operation sequence Solve; PushHead "a"; Solve
produces solution list `[]` from the zero value but `[[]]` from `New()`,
because the lazy `Init` run by the first `PushHead` wipes the solutions
recorded by the earlier Solve. -/
theorem C10_counterexample :
    zrun.solutions ≠ nrun.solutions ∧ zrun.solutions = [] ∧ nrun.solutions = [[]] := by
  refine ⟨?_, by decide, by decide⟩
  decide

/-- C10 (amended): the first `PushHead` on the zero value lazily initializes
the matrix, and yields literally the same state as the same call on `New()`;
hence any operation sequence whose first `Solve` comes after the first
`PushHead` behaves identically on both. -/
theorem C10_lazyInit (name : String) :
    zeroMatrix.PushHead name = New.PushHead name ∧ zeroMatrix.lazyInit = New ∧
      New.lazyInit = New := by
  refine ⟨rfl, rfl, rfl⟩

/-- C6 counterexample: in `c6M` the sole solution's row consists of the items
4 (column "A") and 5 (column "B"), in row-ring order starting from its first
pushed element the row reads "A B", yet the recorded string is "B A": the
string starts with the search-selected column, not the row's first column. -/
theorem C6_counterexample :
    (c6M.Solve 10).1 = [["B A"]] ∧ c6M.rowString 4 = "A B" ∧
      (c6M.get 4).column = 2 ∧ c6M.colName 4 = "A" ∧ ("B A" : String) ≠ "A B" := by
  refine ⟨by decide, by decide, by decide, by decide, by decide⟩

/-- C6 (amended): at a success leaf the search appends one string per chosen
row; each string is the name of the column of the element through which the
row was entered (the column the search selected when it chose the row),
followed by the names of the row's other columns in row-ring order, each
preceded by one space. -/
theorem C6_row_string_format (s : Matrix) (fuel k : Nat) (h : s.HeadE = 0)
    (hch : ∀ oi ∈ s.o, (rowChain s oi).isSome) :
    search (fuel + 1) s k = { s with solutions := s.solutions ++
      [s.o.map (fun oi => s.colName oi ++
        joinStrs (((rowChain s oi).getD []).map (fun e => " " ++ s.colName e)))] } :=
  search_leaf_format s fuel k h hch

theorem C6_row_string_format_witness :
    (c6Leaf.HeadE = 0 ∧ ∀ oi ∈ c6Leaf.o, (rowChain c6Leaf oi).isSome) ∧
    search (3 + 1) c6Leaf 1 = { c6Leaf with solutions := c6Leaf.solutions ++
      [c6Leaf.o.map (fun oi => c6Leaf.colName oi ++
        joinStrs (((rowChain c6Leaf oi).getD []).map (fun e => " " ++ c6Leaf.colName e)))] } :=
  ⟨⟨by decide, by decide⟩, C6_row_string_format c6Leaf 3 1 (by decide) (by decide)⟩

/-- C5: when the search branches it selects `getColumn`, and `getColumn`
returns the header whose stored size is minimal over the live header scan,
ties broken in favor of the first such header: it is strictly smaller than
every earlier header of the scan and no larger than every later one. -/
theorem C5_min_column (s : Matrix) (fuel k : Nat) (l : List Nat)
    (hh : ¬ s.HeadE = 0)
    (hchain : hChain s = some l) (hne : l ≠ [])
    (hsz : ∀ x ∈ l, hdSize s x < M64 - 1) :
    search (fuel + 1) s k =
      searchRows (fun t k' => search fuel t k') (s.cover s.getColumn)
        ((s.cover s.getColumn).elems.size + 1) k s.getColumn
        ((s.cover s.getColumn).DownE s.getColumn) ∧
    ∃ l1 l2, l = l1 ++ s.getColumn :: l2 ∧
      (∀ x ∈ l1, hdSize s s.getColumn < hdSize s x) ∧
      (∀ x ∈ l2, hdSize s s.getColumn ≤ hdSize s x) :=
  ⟨search_step_eq fuel s k hh s.getColumn (s.cover s.getColumn) rfl rfl,
    getColumn_min s l hchain hne hsz⟩

theorem C5_min_column_witness :
    (¬ c9M.HeadE = 0 ∧ hChain c9M = some [2, 3] ∧ ([2, 3] : List Nat) ≠ [] ∧
      ∀ x ∈ ([2, 3] : List Nat), hdSize c9M x < M64 - 1) ∧
    (search (5 + 1) c9M 0 =
      searchRows (fun t k' => search 5 t k') (c9M.cover c9M.getColumn)
        ((c9M.cover c9M.getColumn).elems.size + 1) 0 c9M.getColumn
        ((c9M.cover c9M.getColumn).DownE c9M.getColumn) ∧
    ∃ l1 l2, ([2, 3] : List Nat) = l1 ++ c9M.getColumn :: l2 ∧
      (∀ x ∈ l1, hdSize c9M c9M.getColumn < hdSize c9M x) ∧
      (∀ x ∈ l2, hdSize c9M c9M.getColumn ≤ hdSize c9M x)) :=
  ⟨⟨by decide, by decide, by decide, by decide⟩,
    C5_min_column c9M 5 0 [2, 3] (by decide) (by decide) (by decide) (by decide)⟩

/-- C3 counterexample: on the one-column one-row matrix `c3M`, the second
Solve call returns a solution list with the sole solution twice, not the
first call's singleton list. -/
theorem C3_counterexample :
    (c3M.Solve 5).1 = [["a"]] ∧ ((c3M.Solve 5).2.Solve 5).1 = [["a"], ["a"]] ∧
      ((c3M.Solve 5).2.Solve 5).1 ≠ (c3M.Solve 5).1 := by
  refine ⟨by decide, by decide, by decide⟩

/-- C3 (amended): Solve accumulates into the stored solutions rather than
resetting them: when a Solve call restores the mesh and the chosen-row stack
(as it does on well-formed input) and starts from an empty solution list, a
second Solve with no intervening mutation returns the first call's solution
list followed by a fresh copy of itself. -/
theorem C3_second_solve_duplicates (s : Matrix) (fuel : Nat)
    (h0 : s.solutions = [])
    (he : (search fuel s 0).elems = s.elems)
    (ho : (search fuel s 0).o = s.o) :
    ((s.Solve fuel).2.Solve fuel).1 = (s.Solve fuel).1 ++ (s.Solve fuel).1 := by
  obtain ⟨D, hD1, hD2⟩ := search_delta fuel s 0
  have hrest : search fuel s 0 = withSol s D := by
    apply Matrix.ext_get
    · rw [he]
      rfl
    · intro x
      rw [Matrix.get, Matrix.get, he]
      rfl
    · rw [ho]
      rfl
    · rw [hD1, h0]
      rfl
  show (search fuel (search fuel s 0) 0).solutions =
    (search fuel s 0).solutions ++ (search fuel s 0).solutions
  calc (search fuel (search fuel s 0) 0).solutions
      = (search fuel (withSol s D) 0).solutions := by rw [hrest]
    _ = (withSol (search fuel s 0) (D ++ D)).solutions := by rw [hD2 D]
    _ = D ++ D := rfl
    _ = (search fuel s 0).solutions ++ (search fuel s 0).solutions := by
        rw [hD1, h0]
        rfl

theorem C3_second_solve_duplicates_witness :
    (c3M.solutions = [] ∧ (search 5 c3M 0).elems = c3M.elems ∧
      (search 5 c3M 0).o = c3M.o) ∧
    ((c3M.Solve 5).2.Solve 5).1 = (c3M.Solve 5).1 ++ (c3M.Solve 5).1 :=
  ⟨⟨by decide, by decide, by decide⟩,
    C3_second_solve_duplicates c3M 5 (by decide) (by decide) (by decide)⟩

/-- C9: a matrix with a live header column whose stored size is zero and whose
vertical ring is empty (no item was pushed under it) makes Solve return the
empty solution sequence: the zero-size column is selected by the minimum-size
heuristic, its row loop is empty, and the search backtracks to completion. -/
theorem C9_unsatisfiable_empty (s : Matrix) (fuel : Nat) (l : List Nat) (d : Nat)
    (nm : String)
    (hsol : s.solutions = [])
    (hchain : hChain s = some l)
    (hd : d ∈ l) (hdsz : (s.get d).val = Val.vhead nm 0)
    (hsz : ∀ x ∈ l, hdSize s x < M64 - 1)
    (hempty : ∀ h ∈ l, hdSize s h = 0 → (s.get h).down = h ∧ (s.get h).up = h)
    (hmat : ∀ h ∈ l, (s.get h).mat = true ∧ h ≠ 1) :
    (s.Solve (fuel + 1)).1 = [] := by
  have hne : l ≠ [] := fun h => by
    subst h
    cases hd
  rw [hChain] at hchain
  have hh : ¬ s.HeadE = 0 := by
    intro h0
    rw [h0, chainTo, if_pos rfl] at hchain
    injection hchain with h'
    exact hne h'.symm
  obtain ⟨l1, l2, hdec, hl1, hl2⟩ := getColumn_min s l (by rw [hChain]; exact hchain) hne hsz
  set c := s.getColumn with hcdef
  have hcl : c ∈ l := by
    rw [hdec]
    exact List.mem_append_right _ (List.mem_cons_self ..)
  have hd0 : hdSize s d = 0 := by simp [hdSize, hdsz]
  have hc0 : hdSize s c = 0 := by
    rcases List.mem_append.mp (hdec ▸ hd) with hmem1 | hmem2
    · exact absurd (hl1 d hmem1) (by rw [hd0]; exact Nat.not_lt_zero _)
    · rcases List.mem_cons.mp hmem2 with heq | hmem2'
      · rw [← heq]
        exact hd0
      · exact Nat.le_zero.mp (hd0 ▸ hl2 d hmem2')
  obtain ⟨hdn, hup⟩ := hempty c hcl hc0
  obtain ⟨hmatc, hc1⟩ := hmat c hcl
  have hDc : s.DownE c = c := by
    rw [Matrix.DownE, if_pos ⟨hmatc, by rw [hdn]; exact hc1⟩, hdn]
  have hcov : s.cover c = hdrUnlink s c := by
    rw [Matrix.cover]
    show coverCols (hdrUnlink s c) ((hdrUnlink s c).elems.size + 1) c
      ((hdrUnlink s c).DownE c) = hdrUnlink s c
    rw [DownE_hdrUnlink, hDc, coverCols, if_pos rfl]
  have hstep := search_step_eq fuel s 0 hh c (s.cover c) hcdef rfl
  have hD1 : (s.cover c).DownE c = c := by rw [hcov, DownE_hdrUnlink, hDc]
  have hsr : searchRows (fun t k' => search fuel t k') (s.cover c)
      ((s.cover c).elems.size + 1) 0 c ((s.cover c).DownE c) = (s.cover c).uncover c := by
    rw [hD1]
    exact searchRows_stop _ (s.cover c) ((s.cover c).elems.size) 0 c c rfl
  show (search (fuel + 1) s 0).solutions = []
  rw [hstep, hsr, sol_uncover, sol_cover, hsol]

theorem C9_unsatisfiable_empty_witness :
    (c9M.solutions = [] ∧ hChain c9M = some [2, 3] ∧ (3 : Nat) ∈ ([2, 3] : List Nat) ∧
      (c9M.get 3).val = Val.vhead "B" 0 ∧
      (∀ x ∈ ([2, 3] : List Nat), hdSize c9M x < M64 - 1) ∧
      (∀ h ∈ ([2, 3] : List Nat), hdSize c9M h = 0 →
        (c9M.get h).down = h ∧ (c9M.get h).up = h) ∧
      (∀ h ∈ ([2, 3] : List Nat), (c9M.get h).mat = true ∧ h ≠ 1)) ∧
    (c9M.Solve (9 + 1)).1 = [] :=
  ⟨⟨by decide, by decide, by decide, by decide, by decide, by decide, by decide⟩,
    C9_unsatisfiable_empty c9M 9 [2, 3] 3 "B" (by decide) (by decide) (by decide)
      (by decide) (by decide) (by decide) (by decide)⟩


/-- The one-column one-item matrix is well formed. -/
theorem c3M_WFd : WFd c3M [2] (fun h => if h = 2 then [3] else []) (fun _ => []) := by
  refine ⟨?_, ?_, ?_, ?_, ?_, ?_, ?_, ?_, ?_, ?_, ?_, ?_, ?_, ?_, ?_, ?_, ?_, ?_⟩
  · decide
  · decide
  · decide
  · decide
  · decide
  · decide
  · intro h hh
    rcases List.mem_cons.mp hh with rfl | h0
    · exact ⟨by decide, by decide, by decide, by decide, "a", by decide⟩
    · exact absurd h0 (List.not_mem_nil _)
  · intro h hh
    rcases List.mem_cons.mp hh with rfl | h0
    · decide
    · exact absurd h0 (List.not_mem_nil _)
  · intro h hh
    rcases List.mem_cons.mp hh with rfl | h1
    · exact ⟨by decide, by decide⟩
    · rcases List.mem_cons.mp h1 with rfl | h0
      · exact ⟨by decide, by decide⟩
      · exact absurd h0 (List.not_mem_nil _)
  · intro h hh
    rcases List.mem_cons.mp hh with rfl | h1
    · exact ⟨by decide, by decide⟩
    · rcases List.mem_cons.mp h1 with rfl | h0
      · exact ⟨by decide, by decide⟩
      · exact absurd h0 (List.not_mem_nil _)
  · intro h hh
    rcases List.mem_cons.mp hh with rfl | h0
    · exact ⟨by decide, by decide⟩
    · exact absurd h0 (List.not_mem_nil _)
  · intro h hh j hj
    rcases List.mem_cons.mp hh with rfl | h0
    · have hj' : j ∈ [3] := hj
      rcases List.mem_cons.mp hj' with rfl | h0
      · exact ⟨by decide, by decide, by decide, by decide, by decide⟩
      · exact absurd h0 (List.not_mem_nil _)
    · exact absurd h0 (List.not_mem_nil _)
  · intro h hh x hx
    rcases List.mem_cons.mp hh with rfl | h0
    · have hx' : x ∈ [2, 3] := hx
      rcases List.mem_cons.mp hx' with rfl | h1
      · exact ⟨by decide, by decide⟩
      · rcases List.mem_cons.mp h1 with rfl | h0
        · exact ⟨by decide, by decide⟩
        · exact absurd h0 (List.not_mem_nil _)
    · exact absurd h0 (List.not_mem_nil _)
  · decide
  · intro x hx hval
    have h4 : c3M.elems.size = 4 := by decide
    rw [h4] at hx
    interval_cases x
    · exact absurd (show Val.vnil = Val.vitem from hval) (by decide)
    · exact absurd (show Val.vnil = Val.vitem from hval) (by decide)
    · exact absurd (show Val.vhead "a" 1 = Val.vitem from hval) (by decide)
    · exact ⟨by decide, by decide, by decide,
        fun m hm => absurd hm (List.not_mem_nil _), by decide⟩
  · intro h hh i hi m hm
    exact absurd hm (List.not_mem_nil _)
  · intro h hh
    rcases List.mem_cons.mp hh with rfl | h0
    · decide
    · exact absurd h0 (List.not_mem_nil _)
  · intro i hi n sz hv
    have h4 : c3M.elems.size = 4 := by decide
    rw [h4] at hi
    interval_cases i
    · exact Val.noConfusion (show Val.vnil = Val.vhead n sz from hv)
    · exact Val.noConfusion (show Val.vnil = Val.vhead n sz from hv)
    · have h1 : Val.vhead "a" 1 = Val.vhead n sz := hv
      injection h1 with _ h2
      rw [← h2]
      norm_num [M64]
    · exact Val.noConfusion (show Val.vitem = Val.vhead n sz from hv)

/-- C4: for every well-formed matrix with an empty choice stack, `Solve`
returns the matrix in its original fully uncovered state: the entire arena
— every element's up, down, left, right and column pointers, the header
ring, and every column header's size — and the choice stack are identical
to their values before the call. -/
theorem C4_solve_restores (s : Matrix) (fuel : Nat) (hw : WF s) (ho : s.o = []) :
    ((s.Solve fuel).2).elems = s.elems ∧ ((s.Solve fuel).2).o = s.o := by
  have h := search_restore fuel s 0 hw (by rw [ho]; rfl)
  exact ⟨h.1, h.2⟩

/-- The well-formedness and empty-stack hypotheses of `C4_solve_restores`
hold at the one-column one-item matrix. -/
theorem C4_witness : WF c3M ∧ c3M.o = [] ∧
    (((c3M.Solve 5).2).elems = c3M.elems ∧ ((c3M.Solve 5).2).o = c3M.o) :=
  ⟨⟨[2], fun h => if h = 2 then [3] else [], fun _ => [], c3M_WFd⟩, rfl,
    C4_solve_restores c3M 5
      ⟨[2], fun h => if h = 2 then [3] else [], fun _ => [], c3M_WFd⟩ rfl⟩

/-- C1: for every well-formed matrix with an empty choice stack and empty
solution list, every solution returned by `Solve` partitions the live
column headers: the solution is the list of strings of a batch of chosen
rows, the multiset of columns those rows jointly cover is a permutation of
the header list — so each header, and hence each pushed column name, is
covered by the chosen rows exactly once — and at the name level the
covered columns' names are a permutation of the headers' names. -/
theorem C1_solutions_partition (s : Matrix) (hs : List Nat)
    (cls rowF : Nat → List Nat) (w : WFd s hs cls rowF) (ho : s.o = [])
    (hsol : s.solutions = []) (fuel : Nat) :
    ∀ X ∈ (s.Solve fuel).1, ∃ os : List Nat,
      X = os.map s.rowString ∧
      ((os.map (covCols s rowF)).flatten).Perm hs ∧
      (∀ h ∈ hs, ((os.map (covCols s rowF)).flatten).count h = 1) ∧
      (((os.map (covCols s rowF)).flatten).map s.colName).Perm
        (hs.map s.colName) := by
  intro X hX
  have hX' : X ∈ (search fuel s 0).solutions := hX
  have hitems : ∀ y ∈ s.o, (s.get y).val = Val.vitem ∧ y < s.elems.size := by
    rw [ho]
    intro y hy
    exact absurd hy (List.not_mem_nil _)
  rcases search_solP fuel s 0 hs cls rowF w (by rw [ho]; rfl) hitems X hX' with
    hin | ⟨os, heq, hperm, _⟩
  · rw [hsol] at hin
    exact absurd hin (List.not_mem_nil _)
  · refine ⟨os, ?_, hperm, ?_, hperm.map s.colName⟩
    · rw [heq, ho, List.nil_append]
    · intro h hh
      rw [hperm.count_eq]
      exact List.count_eq_one_of_mem w.hnd hh

/-- The hypotheses of `C1_solutions_partition` hold at the one-column
one-item matrix, where its conclusion is not vacuous: `Solve` does return a
solution there. -/
theorem C1_witness : c3M.o = [] ∧ c3M.solutions = [] ∧
    (c3M.Solve 5).1 ≠ [] ∧
    ∀ X ∈ (c3M.Solve 5).1, ∃ os : List Nat,
      X = os.map c3M.rowString ∧
      ((os.map (covCols c3M (fun _ => []))).flatten).Perm [2] ∧
      (∀ h ∈ [2], ((os.map (covCols c3M (fun _ => []))).flatten).count h = 1) ∧
      (((os.map (covCols c3M (fun _ => []))).flatten).map c3M.colName).Perm
        ([2].map c3M.colName) :=
  ⟨rfl, rfl, by decide,
    C1_solutions_partition c3M [2] (fun h => if h = 2 then [3] else [])
      (fun _ => []) c3M_WFd rfl rfl 5⟩

end Dlx
